import Mathlib

/-!
Verification of the conflux-massive-test analyzers against their
natural-language specification.

The Rust sources are shallowly embedded:

* `f64` values are modelled by the inductive type `F` below: NaN, the two
  infinities, and finite values as exact rationals.  Floating-point rounding
  of finite arithmetic is not modelled (finite arithmetic is exact); the
  IEEE special-value behaviour (NaN propagation, infinities in `min`/`max`/
  `+`, NaN-refusing comparisons) is modelled faithfully, since that is what
  the claims under study exercise.
* Machine integers are `Nat`/`Int`; where a narrowing cast in the source can
  actually truncate (the `u16` offsets and `u16` sums of `TimeSeries`), the
  model takes the value `% 2^16` exactly as the cast does.
* Panics (`unwrap` on `None`) are modelled by `Option`, with `none` for the
  panic.
-/

/-- Model of an IEEE-754 `f64` as used by the latency aggregator: NaN, the
two infinities, or a finite value (an exact rational). -/
inductive F : Type where
  | nan : F
  | inf : F
  | ninf : F
  | fin : ℚ → F
deriving DecidableEq

/-- `f64::is_nan`. -/
def F.isNan : F → Bool
  | .nan => true
  | _ => false

/-- `f64::min` (Rust semantics: if one argument is NaN the other is
returned; otherwise the smaller). -/
def F.fmin : F → F → F
  | .nan, y => y
  | x, .nan => x
  | .ninf, _ => .ninf
  | _, .ninf => .ninf
  | .inf, y => y
  | x, .inf => x
  | .fin a, .fin b => .fin (min a b)

/-- `f64::max` (Rust semantics). -/
def F.fmax : F → F → F
  | .nan, y => y
  | x, .nan => x
  | .inf, _ => .inf
  | _, .inf => .inf
  | .ninf, y => y
  | x, .ninf => x
  | .fin a, .fin b => .fin (max a b)

/-- `f64` addition with the finite case idealized as exact rational
addition (IEEE rules for NaN and infinities: `∞ + (-∞) = NaN`, NaN
absorbs).  The idealization is faithful for every consumer below except
a claim about the running `sum` itself: IEEE rounding makes `+`
non-associative, which `fadd64` further below models exactly and which
refutes the order-insensitivity of `sum` (see `c3_sum_counterexample`). -/
def F.add : F → F → F
  | .nan, _ => .nan
  | _, .nan => .nan
  | .inf, .ninf => .nan
  | .ninf, .inf => .nan
  | .inf, _ => .inf
  | _, .inf => .inf
  | .ninf, _ => .ninf
  | _, .ninf => .ninf
  | .fin a, .fin b => .fin (a + b)

/-- The `f64` comparison `<=`: false whenever either side is NaN. -/
def F.le : F → F → Bool
  | .nan, _ => false
  | _, .nan => false
  | .ninf, _ => true
  | _, .ninf => false
  | _, .inf => true
  | .inf, _ => false
  | .fin a, .fin b => decide (a ≤ b)

/-- `(v * 100.0).round() / 100.0`, the two-decimal rounding used for `Avg`
rows, on finite values. -/
def round2 (q : ℚ) : ℚ := ((round (q * 100) : ℤ) : ℚ) / 100

/-- `sum / count * 100.0).round() / 100.0` lifted to the `f64` model
(an infinite sum stays infinite under scaling and rounding). -/
def F.avgOf : F → ℕ → F
  | .nan, _ => .nan
  | .inf, _ => .inf
  | .ninf, _ => .ninf
  | .fin q, c => .fin (round2 (q / (c : ℚ)))

/-- `quantile.rs::P2Quantile`: streaming P² estimator for one quantile.
The five marker heights `q`, positions `n`, desired positions `np` and
increments `dn` are modelled as total functions on `ℕ` of which only the
indices `0..4` are ever read, mirroring the five-element arrays of the
source. -/
structure P2Quantile where
  p : ℚ
  count : ℕ
  init : List ℚ
  q : ℕ → ℚ
  n : ℕ → ℤ
  np : ℕ → ℚ
  dn : ℕ → ℚ

/-- `P2Quantile::new`. -/
def P2Quantile.new (p : ℚ) : P2Quantile :=
  ⟨p, 0, [], fun _ => 0, fun _ => 0, fun _ => 0, fun _ => 0⟩

/-- Read a five-element array literal of the source as a function. -/
def listToFun (l : List ℚ) : ℕ → ℚ := fun i => l.getD i 0

/-- `d = np[i] - n[i]`, the drift of marker `i`. -/
def P2Quantile.drift (s : P2Quantile) (i : ℕ) : ℚ := s.np i - (s.n i : ℚ)

/-- The adjustment guard of the `for i in 1..4` loop of
`P2Quantile::insert`. -/
def P2Quantile.adjustGuard (s : P2Quantile) (i : ℕ) : Prop :=
  (1 ≤ s.drift i ∧ 1 < s.n (i + 1) - s.n i) ∨
    (s.drift i ≤ -1 ∧ s.n (i - 1) - s.n i < -1)

instance (s : P2Quantile) (i : ℕ) : Decidable (s.adjustGuard i) := by
  unfold P2Quantile.adjustGuard; infer_instance

/-- `ds = if d >= 0 { 1 } else { -1 }`. -/
def P2Quantile.dsOf (s : P2Quantile) (i : ℕ) : ℤ := if 0 ≤ s.drift i then 1 else -1

/-- The parabolic (P²) candidate for the new height of marker `i`. -/
def P2Quantile.qParab (s : P2Quantile) (i : ℕ) : ℚ :=
  let ds := s.dsOf i
  let nim1 : ℚ := (s.n (i - 1) : ℚ)
  let ni : ℚ := (s.n i : ℚ)
  let nip1 : ℚ := (s.n (i + 1) : ℚ)
  let numer := (ds : ℚ) *
    ((ni - nim1 + (ds : ℚ)) * (s.q (i + 1) - s.q i) / (nip1 - ni)
      + (nip1 - ni - (ds : ℚ)) * (s.q i - s.q (i - 1)) / (ni - nim1))
  s.q i + numer / (nip1 - nim1)

/-- The linear fallback candidate for the new height of marker `i`. -/
def P2Quantile.qLin (s : P2Quantile) (i : ℕ) : ℚ :=
  let j := ((i : ℤ) + s.dsOf i).toNat
  s.q i + (s.dsOf i : ℚ) * (s.q j - s.q i) / ((s.n j - s.n i : ℤ) : ℚ)

/-- The new height of marker `i`: the parabolic candidate when it lies
strictly between the neighbouring markers, else the linear one. -/
def P2Quantile.qNewOf (s : P2Quantile) (i : ℕ) : ℚ :=
  if s.q (i - 1) < s.qParab i ∧ s.qParab i < s.q (i + 1) then s.qParab i else s.qLin i

/-- The marker-adjustment body of `P2Quantile::insert` for one marker
index `i ∈ {1,2,3}` (the `for i in 1..4` loop). -/
def P2Quantile.adjustMarker (s : P2Quantile) (i : ℕ) : P2Quantile :=
  if s.adjustGuard i then
    { s with
      q := Function.update s.q i (s.qNewOf i)
      n := Function.update s.n i (s.n i + s.dsOf i) }
  else s

/-- The cell index `k` selected by the branch chain of
`P2Quantile::insert` (`count >= 5` path). -/
def P2Quantile.selK (s : P2Quantile) (x : ℚ) : ℕ :=
  if x < s.q 0 then 0
  else if x < s.q 1 then 0
  else if x < s.q 2 then 1
  else if x < s.q 3 then 2
  else 3

/-- The marker heights after the same branch chain: the extreme markers
absorb out-of-range samples (`q[0] = x` when `x < q[0]`, `q[4] = x` when
`x > q[4]`), all other branches leave the heights unchanged. -/
def P2Quantile.selQ (s : P2Quantile) (x : ℚ) : ℕ → ℚ :=
  if x < s.q 0 then Function.update s.q 0 x
  else if x ≤ s.q 4 then s.q
  else Function.update s.q 4 x

/-- The state after the branch chain of the `count >= 5` path of
`P2Quantile::insert`: count bumped, `q[0]/q[4]` updated, positions above
the selected cell incremented, desired positions advanced. -/
def P2Quantile.preAdjust (s : P2Quantile) (x : ℚ) : P2Quantile :=
  { s with
    count := s.count + 1
    q := s.selQ x
    n := fun i => if s.selK x + 1 ≤ i ∧ i < 5 then s.n i + 1 else s.n i
    np := fun i => if i < 5 then s.np i + s.dn i else s.np i }

/-- The `count >= 5` path of `P2Quantile::insert`: select the cell,
update `q[0]/q[4]`, bump the positions above the cell and the desired
positions, then run the marker adjustment for `i = 1, 2, 3`. -/
def P2Quantile.mainInsert (s : P2Quantile) (x : ℚ) : P2Quantile :=
  (((s.preAdjust x).adjustMarker 1).adjustMarker 2).adjustMarker 3

/-- `P2Quantile::insert`.  For the first five samples the values are
buffered in `init`; on the fifth the buffer is sorted and the markers are
initialised; afterwards `mainInsert` runs the P² update. -/
def P2Quantile.insert (s : P2Quantile) (x : ℚ) : P2Quantile :=
  if s.count < 5 then
    let init' := s.init ++ [x]
    if s.count + 1 = 5 then
      let sorted := List.insertionSort (· ≤ ·) init'
      { p := s.p, count := 5, init := sorted,
        q := fun i => sorted.getD i 0,
        n := fun i => (i : ℤ) + 1,
        np := listToFun [1, 1 + 2 * s.p, 1 + 4 * s.p, 3 + 2 * s.p, 5],
        dn := listToFun [0, s.p / 2, s.p, (1 + s.p) / 2, 1] }
    else { s with count := s.count + 1, init := init' }
  else s.mainInsert x

/-- `P2Quantile::estimate`: NaN when empty; nearest-rank from the sorted
buffer below five samples; the middle marker `q[2]` otherwise. -/
def P2Quantile.estimate (s : P2Quantile) : F :=
  if s.count = 0 then F.nan
  else if s.count < 5 then
    let tmp := List.insertionSort (· ≤ ·) s.init
    let idx := (round (((tmp.length - 1 : ℕ) : ℚ) * s.p)).toNat
    F.fin (tmp.getD (min idx (tmp.length - 1)) 0)
  else F.fin (s.q 2)

/-- `model.rs::NodePercentile`: the fixed menu of reported quantiles. -/
inductive NodePercentile : Type where
  | Min | Avg | P10 | P30 | P50 | P80 | P90 | P95 | P99 | P999 | Max
deriving DecidableEq

/-- `quantile.rs::QuantileAgg`: running count/sum/min/max plus one P²
estimator per reported percentile. -/
structure QuantileAgg where
  count : ℕ
  sum : F
  min : F
  max : F
  p10 : P2Quantile
  p30 : P2Quantile
  p50 : P2Quantile
  p80 : P2Quantile
  p90 : P2Quantile
  p95 : P2Quantile
  p99 : P2Quantile
  p999 : P2Quantile

/-- `QuantileAgg::new`: zero count, zero sum, `min = +∞`, `max = -∞`,
fresh estimators at the eight percentiles. -/
def QuantileAgg.new : QuantileAgg :=
  { count := 0, sum := F.fin 0, min := F.inf, max := F.ninf
    p10 := P2Quantile.new (1/10), p30 := P2Quantile.new (3/10)
    p50 := P2Quantile.new (1/2), p80 := P2Quantile.new (4/5)
    p90 := P2Quantile.new (9/10), p95 := P2Quantile.new (95/100)
    p99 := P2Quantile.new (99/100), p999 := P2Quantile.new (999/1000) }

/-- Feeding one non-NaN sample to a P² estimator.  The source passes the
raw `f64` (so an infinite sample reaches the estimator); the estimator
state is modelled over exact rationals, so an infinite sample leaves the
modelled estimator state unchanged.  Claims about estimator output are
therefore stated for finite streams, which is also what their spec
sentences assume. -/
def P2Quantile.feed (s : P2Quantile) : F → P2Quantile
  | .fin q => s.insert q
  | _ => s

/-- `QuantileAgg::insert`: NaN samples are dropped unchanged; any other
sample updates count, sum, the extremes and the eight estimators. -/
def QuantileAgg.insert (a : QuantileAgg) (x : F) : QuantileAgg :=
  if x.isNan then a
  else
    { count := a.count + 1
      sum := a.sum.add x
      min := a.min.fmin x
      max := a.max.fmax x
      p10 := a.p10.feed x, p30 := a.p30.feed x
      p50 := a.p50.feed x, p80 := a.p80.feed x
      p90 := a.p90.feed x, p95 := a.p95.feed x
      p99 := a.p99.feed x, p999 := a.p999.feed x }

/-- `QuantileAgg::value_for`. -/
def QuantileAgg.value_for (a : QuantileAgg) : NodePercentile → F
  | .Min => a.min
  | .Max => a.max
  | .Avg => match a.count with
    | 0 => F.nan
    | _ => a.sum.avgOf a.count
  | .P10 => a.p10.estimate
  | .P30 => a.p30.estimate
  | .P50 => a.p50.estimate
  | .P80 => a.p80.estimate
  | .P90 => a.p90.estimate
  | .P95 => a.p95.estimate
  | .P99 => a.p99.estimate
  | .P999 => a.p999.estimate

/-- Folding a stream of samples into an aggregator. -/
def QuantileAgg.insertAll (a : QuantileAgg) (l : List F) : QuantileAgg :=
  l.foldl QuantileAgg.insert a

/-- Number of finite samples in a stream (excludes NaN and both
infinities). -/
def finiteCount (l : List F) : ℕ :=
  (l.filter fun x => match x with | .fin _ => true | _ => false).length

/-- C1, counterexample.  On a fresh aggregator (`count = 0`),
`value_for(Min)` is `+∞` and `value_for(Max)` is `-∞` — the initial
tracked extremes — not NaN as the claim states. -/
theorem c1_counterexample :
    ¬ (QuantileAgg.new.value_for NodePercentile.Min = F.nan ∧
       QuantileAgg.new.value_for NodePercentile.Max = F.nan) := by
  intro h
  exact absurd h.1 (by decide)

/-- C1, amended.  On an aggregator with no samples, `Avg` and all eight
percentile estimates are NaN, while `value_for(Min) = +∞` and
`value_for(Max) = -∞` (the untouched initial extremes). -/
theorem c1_empty_value_for (p : NodePercentile) :
    QuantileAgg.new.value_for p =
      (match p with
        | .Min => F.inf
        | .Max => F.ninf
        | _ => F.nan) := by
  cases p <;> rfl

/-- C6, counterexample.  A stream consisting of the single sample `+∞`
gives `count = 1`, but contains no finite sample: `count` counts the
non-NaN insertions, not the finite ones. -/
theorem c6_counterexample :
    ¬ ((QuantileAgg.new.insertAll [F.inf]).count = finiteCount [F.inf]) := by
  decide

/-- C6, amended.  Inserting NaN leaves the aggregator (count, sum, min,
max and all estimator state) entirely unchanged, and after any stream the
count equals the number of non-NaN samples of the stream. -/
theorem c6_count_non_nan :
    (∀ a : QuantileAgg, a.insert F.nan = a) ∧
    ∀ l : List F,
      (QuantileAgg.new.insertAll l).count =
        (l.filter fun x => ¬ x.isNan).length := by
  constructor
  · intro a
    simp [QuantileAgg.insert, F.isNan]
  · have key : ∀ (l : List F) (a : QuantileAgg),
        (a.insertAll l).count = a.count + (l.filter fun x => ¬ x.isNan).length := by
      intro l
      induction l with
      | nil => intro a; simp [QuantileAgg.insertAll]
      | cons x xs ih =>
        intro a
        by_cases hx : x.isNan
        · have hxa : a.insert x = a := by
            simp [QuantileAgg.insert, hx]
          simp [QuantileAgg.insertAll, List.foldl_cons, hx] at *
          rw [hxa, ih]
        · have hxc : (a.insert x).count = a.count + 1 := by
            simp [QuantileAgg.insert, hx]
          simp [QuantileAgg.insertAll, List.foldl_cons, hx] at *
          rw [ih, hxc]
          omega
    intro l
    simpa [QuantileAgg.new] using key l QuantileAgg.new

/-! ## Host-log merging (`host_processing.rs`, `model.rs`)

Block hashes and event names are modelled as `ℕ` and `String`.  The
`HashMap`s of the source are modelled as association lists; iteration
order of a `HashMap` is unspecified in the source, and the claims under
study are exactly about insensitivity to ordering. -/

/-- Block hashes (`H256`). -/
abbrev Hash := ℕ

/-- Event-name keys of the latency maps. -/
abbrev EventName := String

/-- `model.rs::BlockJson` (decoded host record for one block). -/
structure BlockJson where
  timestamp : ℤ
  txs : ℤ
  size : ℤ
  referees : List Hash
  latencies : List (EventName × List F)

/-- `model.rs::BlockInfo` (the merged per-block scalars). -/
structure BlockInfo where
  timestamp : ℤ
  txs : ℤ
  size : ℤ
  referee_count : ℤ
deriving DecidableEq

/-- `BlockInfo::default()`. -/
def BlockInfo.default : BlockInfo := ⟨0, 0, 0, 0⟩

/-- `model.rs::HostBlocksLog`.  Only the fields read by the claims under
study are carried: the per-block records, and the list of per-node
gap-stat maps (of which the merger reads the length into `node_count`;
the five gap value lists it also feeds do not interact with the block
aggregates). The `txs` and `by_block_ratio` fields are likewise
independent of the block aggregates and are omitted. -/
structure HostBlocksLog where
  blocks : List (Hash × BlockJson)
  sync_cons_gap_stats : List (List (String × F))

/-- `model.rs::AnalysisData`, restricted to the fields the claims under
study read (`node_count`, `blocks`, `block_dists`). -/
structure AnalysisData where
  node_count : ℕ
  blocks : List (Hash × BlockInfo)
  block_dists : List (Hash × List (EventName × QuantileAgg))

/-- The empty `AnalysisData` the run starts from. -/
def AnalysisData.empty : AnalysisData := ⟨0, [], []⟩

/-- `HashMap::entry(k).or_insert_with(dflt)` followed by mutating the
entry with `f`, on an association list: the first binding of `k` is
updated in place, and a missing key is appended with `f dflt`. -/
def updateAssoc {K V : Type} [DecidableEq K] :
    List (K × V) → K → (V → V) → V → List (K × V)
  | [], k, f, dflt => [(k, f dflt)]
  | (k', v) :: rest, k, f, dflt =>
    if k' = k then (k', f v) :: rest else (k', v) :: updateAssoc rest k f dflt

/-- The scalar part of `merge_host_blocks`: each of
`timestamp, txs, size, referee_count` adopts the incoming value only when
the stored value is still zero and the incoming one is nonzero. -/
def mergeScalars (entry : BlockInfo) (b : BlockJson) : BlockInfo :=
  { timestamp :=
      if entry.timestamp = 0 ∧ b.timestamp ≠ 0 then b.timestamp else entry.timestamp
    txs := if entry.txs = 0 ∧ b.txs ≠ 0 then b.txs else entry.txs
    size := if entry.size = 0 ∧ b.size ≠ 0 then b.size else entry.size
    referee_count :=
      if entry.referee_count = 0 ∧ b.referees ≠ [] then (b.referees.length : ℤ)
      else entry.referee_count }

/-- The latency part of `merge_host_blocks` for one block: every sample of
every `(event_name, values)` pair is inserted into the per-block
aggregate for that event name (created on first touch). -/
def mergeLatencies (per_block : List (EventName × QuantileAgg))
    (lats : List (EventName × List F)) : List (EventName × QuantileAgg) :=
  lats.foldl
    (fun pb kv => updateAssoc pb kv.1 (fun agg => agg.insertAll kv.2) QuantileAgg.new)
    per_block

/-- `merge_host_blocks`: fold every block record of the host into
`blocks` (scalars) and `block_dists` (latency aggregates). -/
def merge_host_blocks (data : AnalysisData) (host_blocks : List (Hash × BlockJson)) :
    AnalysisData :=
  host_blocks.foldl
    (fun d e =>
      { d with
        blocks := updateAssoc d.blocks e.1 (fun i => mergeScalars i e.2) BlockInfo.default
        block_dists :=
          updateAssoc d.block_dists e.1 (fun pb => mergeLatencies pb e.2.latencies) [] })
    data

/-- `merge_host_data`: `node_count` grows by the number of per-node
gap-stat entries of the host, and the block records are merged.  (The
gap value lists, ratio list and tx merging of the source touch none of
the fields compared by the claims under study.) -/
def merge_host_data (data : AnalysisData) (host : HostBlocksLog) : AnalysisData :=
  let d := merge_host_blocks data host.blocks
  { d with node_count := d.node_count + host.sync_cons_gap_stats.length }

/-- Folding a list of decoded hosts into the global view, in list order
(the consumer thread's receive order). -/
def mergeHosts (data : AnalysisData) (hosts : List HostBlocksLog) : AnalysisData :=
  hosts.foldl merge_host_data data

/-- The aggregate stored for a `(block hash, event name)` pair. -/
def lookupAgg (data : AnalysisData) (h : Hash) (k : EventName) : Option QuantileAgg :=
  match data.block_dists.lookup h with
  | none => none
  | some pb => pb.lookup k

/-- The summary fields of an aggregate: `(count, sum, min, max)`. -/
def aggFields (a : QuantileAgg) : ℕ × F × F × F := (a.count, a.sum, a.min, a.max)

/-- One step of the summary-field evolution of `QuantileAgg::insert`. -/
def fieldsStep (t : ℕ × F × F × F) (x : F) : ℕ × F × F × F :=
  if x.isNan then t else (t.1 + 1, t.2.1.add x, t.2.2.1.fmin x, t.2.2.2.fmax x)

theorem aggFields_insert (a : QuantileAgg) (x : F) :
    aggFields (a.insert x) = fieldsStep (aggFields a) x := by
  by_cases hx : x.isNan <;> simp [QuantileAgg.insert, aggFields, fieldsStep, hx]

theorem aggFields_insertAll (a : QuantileAgg) (l : List F) :
    aggFields (a.insertAll l) = l.foldl fieldsStep (aggFields a) := by
  induction l generalizing a with
  | nil => simp [QuantileAgg.insertAll]
  | cons x xs ih =>
    simp only [QuantileAgg.insertAll, List.foldl_cons] at *
    rw [ih (a.insert x), aggFields_insert]

theorem F.add_right_comm (a x y : F) : (a.add x).add y = (a.add y).add x := by
  cases a <;> cases x <;> cases y <;> simp [F.add] <;> ring

theorem F.fmin_right_comm (a x y : F) : (a.fmin x).fmin y = (a.fmin y).fmin x := by
  cases a <;> cases x <;> cases y <;>
    simp [F.fmin, min_assoc, min_comm, min_left_comm]

theorem F.fmax_right_comm (a x y : F) : (a.fmax x).fmax y = (a.fmax y).fmax x := by
  cases a <;> cases x <;> cases y <;>
    simp [F.fmax, max_assoc, max_comm, max_left_comm]

theorem fieldsStep_right_comm (t : ℕ × F × F × F) (x y : F) :
    fieldsStep (fieldsStep t x) y = fieldsStep (fieldsStep t y) x := by
  by_cases hx : x.isNan <;> by_cases hy : y.isNan <;>
    simp [fieldsStep, hx, hy, F.add_right_comm, F.fmin_right_comm, F.fmax_right_comm]

theorem foldl_fieldsStep_perm {l l' : List F} (hp : l.Perm l') (t : ℕ × F × F × F) :
    l.foldl fieldsStep t = l'.foldl fieldsStep t := by
  induction hp generalizing t with
  | nil => rfl
  | cons x _ ih => simp only [List.foldl_cons]; exact ih _
  | swap x y l => simp only [List.foldl_cons]; rw [fieldsStep_right_comm]
  | trans _ _ ih1 ih2 => exact (ih1 t).trans (ih2 t)

theorem QuantileAgg.insertAll_append (a : QuantileAgg) (l1 l2 : List F) :
    a.insertAll (l1 ++ l2) = (a.insertAll l1).insertAll l2 := by
  simp [QuantileAgg.insertAll, List.foldl_append]


theorem lookup_cons_ne {K V : Type} [DecidableEq K] {k k' : K} (h : ¬ k' = k)
    (v : V) (rest : List (K × V)) : ((k, v) :: rest).lookup k' = rest.lookup k' := by
  rw [List.lookup_cons]
  simp [beq_false_of_ne h]

theorem updateAssoc_cons_self {K V : Type} [DecidableEq K] (k : K) (v : V)
    (rest : List (K × V)) (f : V → V) (dflt : V) :
    updateAssoc ((k, v) :: rest) k f dflt = (k, f v) :: rest := by
  simp [updateAssoc]

theorem updateAssoc_cons_ne {K V : Type} [DecidableEq K] {k0 k : K} (h : ¬ k0 = k)
    (v : V) (rest : List (K × V)) (f : V → V) (dflt : V) :
    updateAssoc ((k0, v) :: rest) k f dflt = (k0, v) :: updateAssoc rest k f dflt := by
  simp [updateAssoc, h]

theorem lookup_updateAssoc {K V : Type} [DecidableEq K]
    (l : List (K × V)) (k k' : K) (f : V → V) (dflt : V) :
    (updateAssoc l k f dflt).lookup k' =
      if k' = k then some (f ((l.lookup k).getD dflt)) else l.lookup k' := by
  induction l with
  | nil =>
    by_cases h : k' = k
    · subst h; simp [updateAssoc]
    · simp [updateAssoc, lookup_cons_ne h, h]
  | cons e rest ih =>
    obtain ⟨k0, v0⟩ := e
    by_cases h0 : k0 = k
    · subst h0
      rw [updateAssoc_cons_self]
      by_cases h' : k' = k0
      · subst h'; simp
      · rw [lookup_cons_ne h', lookup_cons_ne h', if_neg h']
    · rw [updateAssoc_cons_ne h0]
      have h0' : ¬ (k = k0) := fun h => h0 h.symm
      by_cases h' : k' = k0
      · subst h'
        simp only [List.lookup_cons_self]
        rw [if_neg h0]
      · rw [lookup_cons_ne h', lookup_cons_ne h', ih, lookup_cons_ne h0']

/-- The samples that a latency list routes to event name `k`. -/
def latSamples (lats : List (EventName × List F)) (k : EventName) : List F :=
  lats.flatMap fun kv => if kv.1 = k then kv.2 else []

/-- Whether a latency list contains a pair for event name `k` (the
aggregate for `k` is created even if the pair's sample list is empty). -/
def latTouched (lats : List (EventName × List F)) (k : EventName) : Prop :=
  ∃ kv ∈ lats, kv.1 = k

instance (lats : List (EventName × List F)) (k : EventName) :
    Decidable (latTouched lats k) := by
  unfold latTouched; infer_instance

theorem latSamples_cons (kv : EventName × List F) (rest : List (EventName × List F))
    (k : EventName) :
    latSamples (kv :: rest) k =
      (if kv.1 = k then kv.2 else []) ++ latSamples rest k := by
  simp [latSamples]

theorem latSamples_eq_nil_of_not_touched {rest : List (EventName × List F)}
    {k : EventName} (ht : ¬ latTouched rest k) : latSamples rest k = [] := by
  simp only [latSamples]
  rw [List.flatMap_eq_nil_iff]
  intro kv hkv
  have hne : ¬ kv.1 = k := fun h => ht ⟨kv, hkv, h⟩
  simp [hne]

theorem lookup_mergeLatencies (lats : List (EventName × List F))
    (pb : List (EventName × QuantileAgg)) (k : EventName) :
    (mergeLatencies pb lats).lookup k =
      if latTouched lats k then
        some (((pb.lookup k).getD QuantileAgg.new).insertAll (latSamples lats k))
      else pb.lookup k := by
  induction lats generalizing pb with
  | nil => simp [mergeLatencies, latTouched, latSamples, QuantileAgg.insertAll]
  | cons kv rest ih =>
    obtain ⟨k0, vs⟩ := kv
    have hstep : mergeLatencies pb ((k0, vs) :: rest) =
        mergeLatencies (updateAssoc pb k0 (fun agg => agg.insertAll vs) QuantileAgg.new)
          rest := by
      simp [mergeLatencies]
    rw [hstep, ih]
    by_cases hk : k = k0
    · subst hk
      have htc : latTouched ((k, vs) :: rest) k := ⟨(k, vs), by simp⟩
      have hlk : (updateAssoc pb k (fun agg => agg.insertAll vs) QuantileAgg.new).lookup k =
          some (((pb.lookup k).getD QuantileAgg.new).insertAll vs) := by
        rw [lookup_updateAssoc]; simp
      by_cases ht : latTouched rest k
      · rw [if_pos ht, if_pos htc, hlk]
        simp only [Option.getD_some]
        rw [latSamples_cons, ← QuantileAgg.insertAll_append]
        simp
      · rw [if_neg ht, if_pos htc, hlk, latSamples_cons]
        rw [latSamples_eq_nil_of_not_touched ht]
        simp
    · have hk' : ¬ ((k0, vs) : EventName × List F).1 = k := fun h => hk h.symm
      have htouch : latTouched ((k0, vs) :: rest) k ↔ latTouched rest k := by
        constructor
        · rintro ⟨e, he, hek⟩
          rcases List.mem_cons.mp he with h | h
          · exact absurd (h ▸ hek) hk'
          · exact ⟨e, h, hek⟩
        · rintro ⟨e, he, hek⟩; exact ⟨e, List.mem_cons_of_mem _ he, hek⟩
      have hlk : (updateAssoc pb k0 (fun agg => agg.insertAll vs) QuantileAgg.new).lookup k =
          pb.lookup k := by
        rw [lookup_updateAssoc]; simp [hk]
      rw [hlk]
      by_cases ht : latTouched rest k
      · rw [if_pos ht, if_pos (htouch.mpr ht), latSamples_cons]
        simp [hk']
      · rw [if_neg ht, if_neg (fun h => ht (htouch.mp h))]

/-- The samples that one host's block list routes to `(block hash h,
event name k)`. -/
def blocksSamples (bs : List (Hash × BlockJson)) (h : Hash) (k : EventName) : List F :=
  bs.flatMap fun e => if e.1 = h then latSamples e.2.latencies k else []

/-- Whether one host's block list creates / feeds the aggregate at
`(h, k)`. -/
def blocksTouched (bs : List (Hash × BlockJson)) (h : Hash) (k : EventName) : Prop :=
  ∃ e ∈ bs, e.1 = h ∧ latTouched e.2.latencies k

instance (bs : List (Hash × BlockJson)) (h : Hash) (k : EventName) :
    Decidable (blocksTouched bs h k) := by
  unfold blocksTouched; infer_instance

theorem blocksSamples_cons (e : Hash × BlockJson) (rest : List (Hash × BlockJson))
    (h : Hash) (k : EventName) :
    blocksSamples (e :: rest) h k =
      (if e.1 = h then latSamples e.2.latencies k else []) ++ blocksSamples rest h k := by
  simp [blocksSamples]

theorem lookupAgg_eq_getD (d : AnalysisData) (h : Hash) (k : EventName) :
    lookupAgg d h k = ((d.block_dists.lookup h).getD []).lookup k := by
  unfold lookupAgg
  cases d.block_dists.lookup h <;> simp

theorem lookupAgg_merge_host_blocks (bs : List (Hash × BlockJson)) (d : AnalysisData)
    (h : Hash) (k : EventName) :
    lookupAgg (merge_host_blocks d bs) h k =
      if blocksTouched bs h k then
        some (((lookupAgg d h k).getD QuantileAgg.new).insertAll (blocksSamples bs h k))
      else lookupAgg d h k := by
  induction bs generalizing d with
  | nil =>
    simp [merge_host_blocks, blocksTouched, blocksSamples]
  | cons e rest ih =>
    obtain ⟨h0, b0⟩ := e
    set d1 : AnalysisData :=
      { d with
        blocks := updateAssoc d.blocks h0 (fun i => mergeScalars i b0) BlockInfo.default
        block_dists :=
          updateAssoc d.block_dists h0 (fun pb => mergeLatencies pb b0.latencies) [] }
      with hd1
    have hstep : merge_host_blocks d ((h0, b0) :: rest) = merge_host_blocks d1 rest := by
      simp [merge_host_blocks, hd1]
    rw [hstep, ih]
    by_cases hh : h = h0
    · subst hh
      have hl1 : d1.block_dists.lookup h =
          some (mergeLatencies ((d.block_dists.lookup h).getD []) b0.latencies) := by
        have hb : d1.block_dists =
            updateAssoc d.block_dists h (fun pb => mergeLatencies pb b0.latencies) [] := rfl
        rw [hb, lookup_updateAssoc, if_pos rfl]
      have hlk1 : lookupAgg d1 h k =
          if latTouched b0.latencies k then
            some (((lookupAgg d h k).getD QuantileAgg.new).insertAll
              (latSamples b0.latencies k))
          else lookupAgg d h k := by
        rw [lookupAgg_eq_getD, hl1]
        simp only [Option.getD_some]
        rw [lookup_mergeLatencies, ← lookupAgg_eq_getD]
      by_cases hlt : latTouched b0.latencies k
      · have htc : blocksTouched ((h, b0) :: rest) h k := ⟨(h, b0), by simp, rfl, hlt⟩
        rw [if_pos htc]
        by_cases htr : blocksTouched rest h k
        · rw [if_pos htr, hlk1, if_pos hlt]
          simp only [Option.getD_some]
          rw [← QuantileAgg.insertAll_append]
          congr 1
          simp [blocksSamples]
        · rw [if_neg htr, hlk1, if_pos hlt]
          have hrs : blocksSamples rest h k = [] := by
            simp only [blocksSamples]
            rw [List.flatMap_eq_nil_iff]
            rintro ⟨a, b⟩ he
            by_cases heh : a = h
            · have hne : ¬ latTouched b.latencies k := fun hl => htr ⟨(a, b), he, heh, hl⟩
              simp [heh, latSamples_eq_nil_of_not_touched hne]
            · simp [heh]
          have hcs : blocksSamples ((h, b0) :: rest) h k = latSamples b0.latencies k := by
            rw [blocksSamples_cons, hrs]
            simp
          rw [hcs]
      · have hsb : latSamples b0.latencies k = [] := latSamples_eq_nil_of_not_touched hlt
        have hlk1' : lookupAgg d1 h k = lookupAgg d h k := by
          rw [hlk1, if_neg hlt]
        have htouch : blocksTouched ((h, b0) :: rest) h k ↔ blocksTouched rest h k := by
          constructor
          · rintro ⟨e, he, heh, hel⟩
            rcases List.mem_cons.mp he with h' | h'
            · refine absurd ?_ hlt
              rw [h'] at hel
              exact hel
            · exact ⟨e, h', heh, hel⟩
          · rintro ⟨e, he, heh, hel⟩; exact ⟨e, List.mem_cons_of_mem _ he, heh, hel⟩
        have hsame : blocksSamples ((h, b0) :: rest) h k = blocksSamples rest h k := by
          rw [blocksSamples_cons]
          simp [hsb]
        rw [hlk1', hsame]
        by_cases htr : blocksTouched rest h k
        · rw [if_pos htr, if_pos (htouch.mpr htr)]
        · rw [if_neg htr, if_neg (fun hcon => htr (htouch.mp hcon))]
    · have htouch : blocksTouched ((h0, b0) :: rest) h k ↔ blocksTouched rest h k := by
        constructor
        · rintro ⟨e, he, heh, hel⟩
          rcases List.mem_cons.mp he with h' | h'
          · refine absurd ?_ hh
            rw [h'] at heh
            exact heh.symm
          · exact ⟨e, h', heh, hel⟩
        · rintro ⟨e, he, heh, hel⟩; exact ⟨e, List.mem_cons_of_mem _ he, heh, hel⟩
      have hsame : blocksSamples ((h0, b0) :: rest) h k = blocksSamples rest h k := by
        have hne : ¬ (h0 = h) := fun hcon => hh hcon.symm
        rw [blocksSamples_cons]
        simp [hne]
      have hlk1' : lookupAgg d1 h k = lookupAgg d h k := by
        rw [lookupAgg_eq_getD, lookupAgg_eq_getD]
        have hl1 : d1.block_dists.lookup h = d.block_dists.lookup h := by
          rw [hd1]
          simp only [lookup_updateAssoc, if_neg hh]
        rw [hl1]
      rw [hlk1', hsame]
      by_cases htr : blocksTouched rest h k
      · rw [if_pos htr, if_pos (htouch.mpr htr)]
      · rw [if_neg htr, if_neg (fun hcon => htr (htouch.mp hcon))]

/-- The samples that a list of hosts routes to `(h, k)`, in fold order. -/
def hostsSamples (hosts : List HostBlocksLog) (h : Hash) (k : EventName) : List F :=
  hosts.flatMap fun host => blocksSamples host.blocks h k

/-- Whether any host of the list creates / feeds the aggregate at
`(h, k)`. -/
def hostsTouched (hosts : List HostBlocksLog) (h : Hash) (k : EventName) : Prop :=
  ∃ host ∈ hosts, blocksTouched host.blocks h k

instance (hosts : List HostBlocksLog) (h : Hash) (k : EventName) :
    Decidable (hostsTouched hosts h k) := by
  unfold hostsTouched; infer_instance

theorem lookupAgg_merge_host_data (host : HostBlocksLog) (d : AnalysisData)
    (h : Hash) (k : EventName) :
    lookupAgg (merge_host_data d host) h k = lookupAgg (merge_host_blocks d host.blocks) h k := by
  rfl

theorem lookupAgg_mergeHosts (hosts : List HostBlocksLog) (d : AnalysisData)
    (h : Hash) (k : EventName) :
    lookupAgg (mergeHosts d hosts) h k =
      if hostsTouched hosts h k then
        some (((lookupAgg d h k).getD QuantileAgg.new).insertAll (hostsSamples hosts h k))
      else lookupAgg d h k := by
  induction hosts generalizing d with
  | nil => simp [mergeHosts, hostsTouched, hostsSamples]
  | cons host rest ih =>
    have hstep : mergeHosts d (host :: rest) = mergeHosts (merge_host_data d host) rest := by
      simp [mergeHosts]
    rw [hstep, ih]
    have hone : lookupAgg (merge_host_data d host) h k =
        if blocksTouched host.blocks h k then
          some (((lookupAgg d h k).getD QuantileAgg.new).insertAll
            (blocksSamples host.blocks h k))
        else lookupAgg d h k := by
      rw [lookupAgg_merge_host_data, lookupAgg_merge_host_blocks]
    have hsc : hostsSamples (host :: rest) h k =
        blocksSamples host.blocks h k ++ hostsSamples rest h k := by
      simp [hostsSamples]
    by_cases h1 : blocksTouched host.blocks h k
    · have htc : hostsTouched (host :: rest) h k := ⟨host, by simp, h1⟩
      rw [if_pos htc, hone, if_pos h1, hsc]
      by_cases h2 : hostsTouched rest h k
      · rw [if_pos h2]
        simp only [Option.getD_some]
        rw [← QuantileAgg.insertAll_append]
      · rw [if_neg h2]
        have hrs : hostsSamples rest h k = [] := by
          simp only [hostsSamples]
          rw [List.flatMap_eq_nil_iff]
          intro host' hmem
          simp only [blocksSamples]
          rw [List.flatMap_eq_nil_iff]
          rintro ⟨a, b⟩ he
          by_cases heh : a = h
          · have hne : ¬ latTouched b.latencies k :=
              fun hl => h2 ⟨host', hmem, (a, b), he, heh, hl⟩
            simp [heh, latSamples_eq_nil_of_not_touched hne]
          · simp [heh]
        rw [hrs, List.append_nil]
    · have htouch : hostsTouched (host :: rest) h k ↔ hostsTouched rest h k := by
        constructor
        · rintro ⟨host', hmem, hb⟩
          rcases List.mem_cons.mp hmem with h' | h'
          · exact absurd (h' ▸ hb) h1
          · exact ⟨host', h', hb⟩
        · rintro ⟨host', hmem, hb⟩; exact ⟨host', List.mem_cons_of_mem _ hmem, hb⟩
      have hbs : blocksSamples host.blocks h k = [] := by
        simp only [blocksSamples]
        rw [List.flatMap_eq_nil_iff]
        rintro ⟨a, b⟩ he
        by_cases heh : a = h
        · have hne : ¬ latTouched b.latencies k := fun hl => h1 ⟨(a, b), he, heh, hl⟩
          simp [heh, latSamples_eq_nil_of_not_touched hne]
        · simp [heh]
      rw [hone, if_neg h1, hsc, hbs, List.nil_append]
      by_cases h2 : hostsTouched rest h k
      · rw [if_pos h2, if_pos (htouch.mpr h2)]
      · rw [if_neg h2, if_neg (fun hcon => h2 (htouch.mp hcon))]

/-- Permutation invariance of `(count, sum, min, max)` in the exact
model: with `F.add` idealized as exact rational addition the whole
summary tuple is a fold of a right-commutative step.  This is the
helper behind the amended C3; the `sum` coordinate of this statement is
an artifact of the idealization and is *not* claimed for the program
(see `c3_sum_counterexample`), while the `count`/`min`/`max` coordinates
are transported to the faithful pipeline below. -/
theorem mergeHosts_perm_aggFields (hosts hosts' : List HostBlocksLog)
    (hp : hosts.Perm hosts') (h : Hash) (k : EventName) :
    (lookupAgg (mergeHosts AnalysisData.empty hosts) h k).map aggFields =
      (lookupAgg (mergeHosts AnalysisData.empty hosts') h k).map aggFields := by
  rw [lookupAgg_mergeHosts, lookupAgg_mergeHosts]
  have htouch : hostsTouched hosts h k ↔ hostsTouched hosts' h k := by
    constructor
    · rintro ⟨host, hmem, hb⟩; exact ⟨host, hp.mem_iff.mp hmem, hb⟩
    · rintro ⟨host, hmem, hb⟩; exact ⟨host, hp.mem_iff.mpr hmem, hb⟩
  have hperm : (hostsSamples hosts h k).Perm (hostsSamples hosts' h k) :=
    hp.flatMap_right _
  by_cases ht : hostsTouched hosts h k
  · rw [if_pos ht, if_pos (htouch.mp ht)]
    have heq : aggFields
        (((lookupAgg AnalysisData.empty h k).getD QuantileAgg.new).insertAll
          (hostsSamples hosts h k)) =
        aggFields
          (((lookupAgg AnalysisData.empty h k).getD QuantileAgg.new).insertAll
            (hostsSamples hosts' h k)) := by
      rw [aggFields_insertAll, aggFields_insertAll]
      exact foldl_fieldsStep_perm hperm _
    simp [heq]
  · rw [if_neg ht, if_neg (fun hcon => ht (htouch.mpr hcon))]

/-! ### The faithful `f64` sum: round-to-nearest binary64 addition

`self.sum += x` is an IEEE-754 binary64 addition: the exact sum rounded
to 53 significant bits, round to nearest, ties to even.  `round53`
implements that rounding over exact rationals (exponent range idealized
as unbounded: no overflow or subnormal handling, which agrees with
binary64 on mid-range values such as the ones used below). -/

/-- Fueled floor-log2 (`natLog2F n n` terminates after `⌊log2 n⌋ + 1`
steps, so `n` fuel always suffices). -/
def natLog2F : ℕ → ℕ → ℕ
  | 0, _ => 0
  | fuel + 1, n => if 2 ≤ n then natLog2F fuel (n / 2) + 1 else 0

/-- `⌊log2 n⌋` (0 at 0). -/
def natLog2 (n : ℕ) : ℕ := natLog2F n n

/-- `2^t` over ℚ for a signed exponent. -/
def pow2 : ℤ → ℚ
  | .ofNat k => (2 : ℚ) ^ k
  | .negSucc k => 1 / (2 : ℚ) ^ (k + 1)

/-- `⌊q⌋` (floor division of the numerator by the denominator). -/
def ratFloor (q : ℚ) : ℤ := Int.fdiv q.num (q.den : ℤ)

/-- `|q|`. -/
def ratAbs (q : ℚ) : ℚ := if q < 0 then -q else q

/-- `⌊log2 q⌋` for `q > 0`: the unique `e` with `2^e ≤ q < 2^(e+1)`.
`l = ⌊log2 num⌋ - ⌊log2 den⌋` is within one of the answer, and the two
comparisons pick the right neighbour. -/
def qlog2 (q : ℚ) : ℤ :=
  let l : ℤ := (natLog2 q.num.toNat : ℤ) - (natLog2 q.den : ℤ)
  if pow2 (l + 1) ≤ q then l + 1
  else if pow2 l ≤ q then l
  else l - 1

/-- Round to 53 significant bits, round to nearest, ties to even: scale
into `[2^52, 2^53)`, round the scaled value to an integer (ties to the
even integer), and scale back. -/
def round53 (q : ℚ) : ℚ :=
  if q = 0 then 0
  else
    let t : ℤ := qlog2 (ratAbs q) - 52
    let x : ℚ := q / pow2 t
    let fl : ℤ := ratFloor x
    let r : ℚ := x - (fl : ℚ)
    let n : ℤ :=
      if r < 1 / 2 then fl
      else if 1 / 2 < r then fl + 1
      else if fl % 2 = 0 then fl else fl + 1
    (n : ℚ) * pow2 t

/-- IEEE-754 binary64 addition: on finite values the exact sum rounded
by `round53`; NaN and infinity rules as in `F.add`. -/
def fadd64 : F → F → F
  | .nan, _ => .nan
  | _, .nan => .nan
  | .inf, .ninf => .nan
  | .ninf, .inf => .nan
  | .inf, _ => .inf
  | _, .inf => .inf
  | .ninf, _ => .ninf
  | _, .ninf => .ninf
  | .fin a, .fin b => .fin (round53 (a + b))

/-- `QuantileAgg::insert` with the `f64` rounding of `sum += x` modelled
faithfully; every other field evolves exactly as in `insert` (the
estimators never read `sum`). -/
def QuantileAgg.insert64 (a : QuantileAgg) (x : F) : QuantileAgg :=
  if x.isNan then a
  else
    { count := a.count + 1
      sum := fadd64 a.sum x
      min := a.min.fmin x
      max := a.max.fmax x
      p10 := a.p10.feed x, p30 := a.p30.feed x
      p50 := a.p50.feed x, p80 := a.p80.feed x
      p90 := a.p90.feed x, p95 := a.p95.feed x
      p99 := a.p99.feed x, p999 := a.p999.feed x }

/-- Folding a stream of samples with the faithful sum. -/
def QuantileAgg.insertAll64 (a : QuantileAgg) (l : List F) : QuantileAgg :=
  l.foldl QuantileAgg.insert64 a

/-- `mergeLatencies` with the faithful sum. -/
def mergeLatencies64 (per_block : List (EventName × QuantileAgg))
    (lats : List (EventName × List F)) : List (EventName × QuantileAgg) :=
  lats.foldl
    (fun pb kv => updateAssoc pb kv.1 (fun agg => agg.insertAll64 kv.2) QuantileAgg.new)
    per_block

/-- `merge_host_blocks` with the faithful sum. -/
def merge_host_blocks64 (data : AnalysisData) (host_blocks : List (Hash × BlockJson)) :
    AnalysisData :=
  host_blocks.foldl
    (fun d e =>
      { d with
        blocks := updateAssoc d.blocks e.1 (fun i => mergeScalars i e.2) BlockInfo.default
        block_dists :=
          updateAssoc d.block_dists e.1 (fun pb => mergeLatencies64 pb e.2.latencies) [] })
    data

/-- `merge_host_data` with the faithful sum. -/
def merge_host_data64 (data : AnalysisData) (host : HostBlocksLog) : AnalysisData :=
  let d := merge_host_blocks64 data host.blocks
  { d with node_count := d.node_count + host.sync_cons_gap_stats.length }

/-- Folding the host list with the faithful sum. -/
def mergeHosts64 (data : AnalysisData) (hosts : List HostBlocksLog) : AnalysisData :=
  hosts.foldl merge_host_data64 data

/-- The order-insensitive summary of an aggregate: `(count, min, max)`
(`f64` comparison and selection never round, so these are exact in both
the idealized and the faithful model; `sum` is excluded, see
`c3_sum_counterexample`). -/
def aggSummaryCMM (a : QuantileAgg) : ℕ × F × F := (a.count, a.min, a.max)

/-- Two aggregates that agree on every field except possibly `sum`. -/
def SameButSum (a b : QuantileAgg) : Prop :=
  a.count = b.count ∧ a.min = b.min ∧ a.max = b.max ∧
    a.p10 = b.p10 ∧ a.p30 = b.p30 ∧ a.p50 = b.p50 ∧ a.p80 = b.p80 ∧
    a.p90 = b.p90 ∧ a.p95 = b.p95 ∧ a.p99 = b.p99 ∧ a.p999 = b.p999

theorem sameButSum_refl (a : QuantileAgg) : SameButSum a a := by
  unfold SameButSum
  exact ⟨rfl, rfl, rfl, rfl, rfl, rfl, rfl, rfl, rfl, rfl, rfl⟩

theorem sameButSum_insert {a b : QuantileAgg} (h : SameButSum a b) (x : F) :
    SameButSum (a.insert64 x) (b.insert x) := by
  by_cases hx : x.isNan
  · simpa only [QuantileAgg.insert64, QuantileAgg.insert, if_pos hx] using h
  · obtain ⟨h1, h2, h3, h4, h5, h6, h7, h8, h9, h10, h11⟩ := h
    simp only [QuantileAgg.insert64, QuantileAgg.insert, if_neg hx, SameButSum]
    exact ⟨by rw [h1], by rw [h2], by rw [h3], by rw [h4], by rw [h5], by rw [h6],
      by rw [h7], by rw [h8], by rw [h9], by rw [h10], by rw [h11]⟩

theorem sameButSum_insertAll {a b : QuantileAgg} (h : SameButSum a b)
    (l : List F) : SameButSum (a.insertAll64 l) (b.insertAll l) := by
  induction l generalizing a b with
  | nil => exact h
  | cons x xs ih => exact ih (sameButSum_insert h x)

/-- Pointwise relation of association lists: equal keys, related
values. -/
def AssocRel {K V W : Type} (R : V → W → Prop)
    (l : List (K × V)) (l' : List (K × W)) : Prop :=
  List.Forall₂ (fun p q => p.1 = q.1 ∧ R p.2 q.2) l l'

theorem assocRel_updateAssoc {K V W : Type} [DecidableEq K] (R : V → W → Prop)
    (f : V → V) (g : W → W) (hfg : ∀ v w, R v w → R (f v) (g w))
    (dflt : V) (dflt' : W) (hd : R dflt dflt') :
    ∀ {l : List (K × V)} {l' : List (K × W)}, AssocRel R l l' → ∀ k,
      AssocRel R (updateAssoc l k f dflt) (updateAssoc l' k g dflt') := by
  intro l l' h
  induction h with
  | nil =>
    intro k
    exact List.Forall₂.cons ⟨rfl, hfg _ _ hd⟩ List.Forall₂.nil
  | @cons p q l l' hpq hrest ih =>
    intro k
    obtain ⟨pk, pv⟩ := p
    obtain ⟨qk, qv⟩ := q
    obtain ⟨hk, hv⟩ := hpq
    cases hk
    by_cases hpk : pk = k
    · subst hpk
      rw [updateAssoc_cons_self, updateAssoc_cons_self]
      exact List.Forall₂.cons ⟨rfl, hfg _ _ hv⟩ hrest
    · rw [updateAssoc_cons_ne hpk, updateAssoc_cons_ne hpk]
      exact List.Forall₂.cons ⟨rfl, hv⟩ (ih k)

theorem assocRel_lookup {K V W : Type} [DecidableEq K] (R : V → W → Prop) :
    ∀ {l : List (K × V)} {l' : List (K × W)}, AssocRel R l l' → ∀ k,
      (l.lookup k = none ∧ l'.lookup k = none) ∨
        ∃ v w, l.lookup k = some v ∧ l'.lookup k = some w ∧ R v w := by
  intro l l' h
  induction h with
  | nil => intro k; exact Or.inl ⟨rfl, rfl⟩
  | @cons p q l l' hpq hrest ih =>
    intro k
    obtain ⟨pk, pv⟩ := p
    obtain ⟨qk, qv⟩ := q
    obtain ⟨hk, hv⟩ := hpq
    cases hk
    by_cases hkk : k = pk
    · subst hkk
      exact Or.inr ⟨pv, qv, List.lookup_cons_self, List.lookup_cons_self, hv⟩
    · rw [lookup_cons_ne hkk, lookup_cons_ne hkk]
      exact ih k

theorem assocRel_mergeLatencies (lats : List (EventName × List F)) :
    ∀ {pb pb' : List (EventName × QuantileAgg)}, AssocRel SameButSum pb pb' →
      AssocRel SameButSum (mergeLatencies64 pb lats) (mergeLatencies pb' lats) := by
  induction lats with
  | nil => intro pb pb' h; exact h
  | cons kv rest ih =>
    intro pb pb' h
    have hstep1 : mergeLatencies64 pb (kv :: rest) =
        mergeLatencies64
          (updateAssoc pb kv.1 (fun agg => agg.insertAll64 kv.2) QuantileAgg.new)
          rest := by
      simp [mergeLatencies64]
    have hstep2 : mergeLatencies pb' (kv :: rest) =
        mergeLatencies
          (updateAssoc pb' kv.1 (fun agg => agg.insertAll kv.2) QuantileAgg.new)
          rest := by
      simp [mergeLatencies]
    rw [hstep1, hstep2]
    exact ih (assocRel_updateAssoc SameButSum _ _
      (fun v w hvw => sameButSum_insertAll hvw kv.2) _ _
      (sameButSum_refl QuantileAgg.new) h kv.1)

/-- The faithful and the idealized `AnalysisData` agree everywhere except
possibly in the stored `sum` fields. -/
def ADRel (d d' : AnalysisData) : Prop :=
  d.node_count = d'.node_count ∧ d.blocks = d'.blocks ∧
    AssocRel (AssocRel SameButSum) d.block_dists d'.block_dists

theorem adRel_merge_host_blocks (bs : List (Hash × BlockJson)) :
    ∀ {d d' : AnalysisData}, ADRel d d' →
      ADRel (merge_host_blocks64 d bs) (merge_host_blocks d' bs) := by
  induction bs with
  | nil => intro d d' h; exact h
  | cons e rest ih =>
    intro d d' h
    obtain ⟨h1, h2, h3⟩ := h
    have hstep1 : merge_host_blocks64 d (e :: rest) =
        merge_host_blocks64
          { d with
            blocks := updateAssoc d.blocks e.1 (fun i => mergeScalars i e.2)
              BlockInfo.default
            block_dists :=
              updateAssoc d.block_dists e.1 (fun pb => mergeLatencies64 pb e.2.latencies)
                [] } rest := by
      simp [merge_host_blocks64]
    have hstep2 : merge_host_blocks d' (e :: rest) =
        merge_host_blocks
          { d' with
            blocks := updateAssoc d'.blocks e.1 (fun i => mergeScalars i e.2)
              BlockInfo.default
            block_dists :=
              updateAssoc d'.block_dists e.1 (fun pb => mergeLatencies pb e.2.latencies)
                [] } rest := by
      simp [merge_host_blocks]
    rw [hstep1, hstep2]
    refine ih ⟨h1, by rw [h2], ?_⟩
    exact assocRel_updateAssoc (AssocRel SameButSum) _ _
      (fun v w hvw => assocRel_mergeLatencies e.2.latencies hvw) _ _
      List.Forall₂.nil h3 e.1

theorem adRel_mergeHosts (hosts : List HostBlocksLog) :
    ∀ {d d' : AnalysisData}, ADRel d d' →
      ADRel (mergeHosts64 d hosts) (mergeHosts d' hosts) := by
  induction hosts with
  | nil => intro d d' h; exact h
  | cons host rest ih =>
    intro d d' h
    have hstep1 : mergeHosts64 d (host :: rest) =
        mergeHosts64 (merge_host_data64 d host) rest := by
      simp [mergeHosts64]
    have hstep2 : mergeHosts d' (host :: rest) =
        mergeHosts (merge_host_data d' host) rest := by
      simp [mergeHosts]
    rw [hstep1, hstep2]
    refine ih ?_
    obtain ⟨hb1, hb2, hb3⟩ := adRel_merge_host_blocks host.blocks h
    exact ⟨by rw [show (merge_host_data64 d host).node_count =
        (merge_host_blocks64 d host.blocks).node_count +
          host.sync_cons_gap_stats.length from rfl, hb1]; rfl, hb2, hb3⟩

theorem lookupAgg_cmm_of_adRel {d d' : AnalysisData} (h : ADRel d d')
    (hh : Hash) (k : EventName) :
    (lookupAgg d hh k).map aggSummaryCMM =
      (lookupAgg d' hh k).map aggSummaryCMM := by
  rcases assocRel_lookup (AssocRel SameButSum) h.2.2 hh with
    ⟨hn, hn'⟩ | ⟨pb, pb', hs, hs', hr⟩
  · unfold lookupAgg
    rw [hn, hn']
  · unfold lookupAgg
    rw [hs, hs']
    show (List.lookup k pb).map aggSummaryCMM = (List.lookup k pb').map aggSummaryCMM
    rcases assocRel_lookup SameButSum hr k with ⟨hn, hn'⟩ | ⟨a, b, ha, hb, hab⟩
    · rw [hn, hn']
    · rw [ha, hb]
      simp [aggSummaryCMM, hab.1, hab.2.1, hab.2.2.1]

/-- Two single-block hosts feeding the same key, used by the C3
counterexample and witness. -/
def demoHost (h : Hash) (k : EventName) (vs : List F) : HostBlocksLog :=
  { blocks := [(h, { timestamp := 1, txs := 0, size := 0, referees := [], latencies := [(k, vs)] })]
    sync_cons_gap_stats := [[]] }

/-- C3, counterexample.  `QuantileAgg.sum` is an IEEE `f64` running sum
and `f64` addition is not associative, so the original claim fails on
the faithful pipeline: two single-block hosts feeding samples
`[2^53]` and `[1, 1]` to the same `("Sync")` key produce
`sum = 2^53` in one order (each `+1` is rounded away, ties-to-even)
but `sum = 2^53 + 2` in the swapped order (`1 + 1 = 2` first, and
`2^53 + 2` is representable).  Count, min and max still agree. -/
theorem c3_sum_counterexample :
    ([demoHost 1 "Sync" [F.fin (2 ^ 53)], demoHost 1 "Sync" [F.fin 1, F.fin 1]].Perm
       [demoHost 1 "Sync" [F.fin 1, F.fin 1], demoHost 1 "Sync" [F.fin (2 ^ 53)]]) ∧
    ¬ ((lookupAgg
          (mergeHosts64 AnalysisData.empty
            [demoHost 1 "Sync" [F.fin (2 ^ 53)], demoHost 1 "Sync" [F.fin 1, F.fin 1]])
          1 "Sync").map aggFields =
        (lookupAgg
          (mergeHosts64 AnalysisData.empty
            [demoHost 1 "Sync" [F.fin 1, F.fin 1], demoHost 1 "Sync" [F.fin (2 ^ 53)]])
          1 "Sync").map aggFields) := by
  refine ⟨List.Perm.swap _ _ _, ?_⟩
  with_unfolding_all decide

/-- C3 (amended).  Folding any permutation of the decoded host list into
the empty `AnalysisData` — with the `f64` running sum modelled
faithfully, rounding included — produces, for every
`(block hash, event name)` pair, an aggregate with the same presence and
the same `count`, `min` and `max` as the original order.  (The `sum`
field is genuinely order-dependent at the ulp level and is excluded:
see `c3_sum_counterexample`.) -/
theorem adRel_empty : ADRel AnalysisData.empty AnalysisData.empty := by
  refine ⟨rfl, rfl, ?_⟩
  show AssocRel (AssocRel SameButSum) [] []
  exact List.Forall₂.nil

theorem c3_merge_perm_invariant (hosts hosts' : List HostBlocksLog)
    (hp : hosts.Perm hosts') (h : Hash) (k : EventName) :
    (lookupAgg (mergeHosts64 AnalysisData.empty hosts) h k).map aggSummaryCMM =
      (lookupAgg (mergeHosts64 AnalysisData.empty hosts') h k).map aggSummaryCMM := by
  have hbridge : ∀ hs : List HostBlocksLog,
      (lookupAgg (mergeHosts64 AnalysisData.empty hs) h k).map aggSummaryCMM =
        (lookupAgg (mergeHosts AnalysisData.empty hs) h k).map aggSummaryCMM :=
    fun hs => lookupAgg_cmm_of_adRel (adRel_mergeHosts hs adRel_empty) h k
  rw [hbridge hosts, hbridge hosts']
  have hcomp : ∀ d : AnalysisData, (lookupAgg d h k).map aggSummaryCMM =
      ((lookupAgg d h k).map aggFields).map fun t => (t.1, t.2.2.1, t.2.2.2) := by
    intro d
    cases lookupAgg d h k <;> simp [aggSummaryCMM, aggFields]
  rw [hcomp, hcomp, mergeHosts_perm_aggFields hosts hosts' hp h k]

theorem c3_witness :
    ([demoHost 1 "Sync" [F.fin 10, F.fin 20], demoHost 1 "Sync" [F.fin 15]].Perm
       [demoHost 1 "Sync" [F.fin 15], demoHost 1 "Sync" [F.fin 10, F.fin 20]]) ∧
    (lookupAgg
        (mergeHosts64 AnalysisData.empty
          [demoHost 1 "Sync" [F.fin 10, F.fin 20], demoHost 1 "Sync" [F.fin 15]]) 1
        "Sync").map aggSummaryCMM =
      (lookupAgg
          (mergeHosts64 AnalysisData.empty
            [demoHost 1 "Sync" [F.fin 15], demoHost 1 "Sync" [F.fin 10, F.fin 20]]) 1
          "Sync").map aggSummaryCMM := by
  refine ⟨List.Perm.swap _ _ _, ?_⟩
  exact c3_merge_perm_invariant _ _ (List.Perm.swap _ _ _) 1 "Sync"

/-! ## Block validation and trimming (`host_processing.rs::validate_and_filter_blocks`) -/

/-- A per-block latency map is complete iff it holds a `"Sync"` aggregate
whose count equals `node_count`. -/
def syncCountOk (node_count : ℕ) (per_key : List (EventName × QuantileAgg)) : Bool :=
  match per_key.lookup "Sync" with
  | none => false
  | some sync => sync.count == node_count

/-- The hashes collected into `removed_blocks`: every `block_dists` entry
without a complete `"Sync"` aggregate. -/
def removedHashes (data : AnalysisData) : List Hash :=
  (data.block_dists.filter fun e => !(syncCountOk data.node_count e.2)).map Prod.fst

/-- `blocks` after the incomplete hashes are removed. -/
def surviveRemoval (data : AnalysisData) : List (Hash × BlockInfo) :=
  data.blocks.filter fun e => !(removedHashes data).contains e.1

/-- `block_dists` after the incomplete hashes are removed. -/
def surviveDists (data : AnalysisData) : List (Hash × List (EventName × QuantileAgg)) :=
  data.block_dists.filter fun e => !(removedHashes data).contains e.1

/-- `validate_and_filter_blocks`: drop incomplete blocks from both maps;
then, under a `max_blocks = n` limit, keep only the keys of the first `n`
elements of the block list stably sorted by timestamp. -/
def validate_and_filter_blocks (data : AnalysisData) (max_blocks : Option ℕ) :
    AnalysisData :=
  let blocks1 := surviveRemoval data
  let dists1 := surviveDists data
  match max_blocks with
  | none => { data with blocks := blocks1, block_dists := dists1 }
  | some n =>
    let pairs : List (Hash × ℤ) := blocks1.map fun e => (e.1, e.2.timestamp)
    if n < pairs.length then
      let sorted := pairs.mergeSort fun a b => decide (a.2 ≤ b.2)
      let keep : List Hash := (sorted.take n).map Prod.fst
      { data with
        blocks := blocks1.filter fun e => keep.contains e.1
        block_dists := dists1.filter fun e => keep.contains e.1 }
    else { data with blocks := blocks1, block_dists := dists1 }

theorem syncOk_of_not_removed {data : AnalysisData}
    {e : Hash × List (EventName × QuantileAgg)} (he : e ∈ data.block_dists)
    (hnr : ¬ (removedHashes data).contains e.1 = true) :
    syncCountOk data.node_count e.2 = true := by
  by_contra hno
  refine hnr ?_
  have : e ∈ data.block_dists.filter fun e => !(syncCountOk data.node_count e.2) := by
    rw [List.mem_filter]
    exact ⟨he, by simp [hno]⟩
  have hmem : e.1 ∈ removedHashes data := List.mem_map_of_mem Prod.fst this
  exact List.elem_iff.mpr hmem

theorem eq_snd_of_nodup_keys {α β : Type} (l : List (α × β))
    (hnd : (l.map Prod.fst).Nodup) {h : α} {a b : β}
    (h1 : (h, a) ∈ l) (h2 : (h, b) ∈ l) : a = b := by
  induction l with
  | nil => cases h1
  | cons e rest ih =>
    rw [List.map_cons, List.nodup_cons] at hnd
    rcases List.mem_cons.mp h1 with ha | ha <;> rcases List.mem_cons.mp h2 with hb | hb
    · have hab : ((h, a) : α × β) = (h, b) := ha.trans hb.symm
      simpa using hab
    · exfalso
      refine hnd.1 ?_
      have : e.1 = h := by rw [← ha]
      rw [this]
      exact List.mem_map_of_mem Prod.fst hb
    · exfalso
      refine hnd.1 ?_
      have : e.1 = h := by rw [← hb]
      rw [this]
      exact List.mem_map_of_mem Prod.fst ha
    · exact ih hnd.2 ha hb

theorem tsLe_trans (a b c : Hash × ℤ) (hab : decide (a.2 ≤ b.2) = true)
    (hbc : decide (b.2 ≤ c.2) = true) : decide (a.2 ≤ c.2) = true := by
  simp only [decide_eq_true_eq] at *
  exact le_trans hab hbc

theorem tsLe_total (a b : Hash × ℤ) :
    (decide (a.2 ≤ b.2) || decide (b.2 ≤ a.2)) = true := by
  rcases le_total a.2 b.2 with h | h <;> simp [h]

/-- C4.  After `validate_and_filter_blocks` with `max_blocks = some N`:
every surviving `block_dists` entry has a `"Sync"` aggregate with
`count = node_count`; every surviving `blocks` entry has such an
aggregate in `block_dists`; and when more than `N` complete blocks
existed, at most `N` survive and every survivor's timestamp is at most
every dropped complete block's timestamp.  The hypotheses are the
`HashMap` invariants of the source state after ingest: unique keys, and
every `blocks` key present in `block_dists`. -/
theorem c4_validate_filter (data : AnalysisData) (N : ℕ)
    (hnodupB : (data.blocks.map Prod.fst).Nodup)
    (hsub : ∀ e ∈ data.blocks, e.1 ∈ data.block_dists.map Prod.fst) :
    (∀ e ∈ (validate_and_filter_blocks data (some N)).block_dists,
        syncCountOk data.node_count e.2 = true) ∧
    (∀ e ∈ (validate_and_filter_blocks data (some N)).blocks,
        ∃ pb, (e.1, pb) ∈ data.block_dists ∧ syncCountOk data.node_count pb = true) ∧
    (N < (surviveRemoval data).length →
      (validate_and_filter_blocks data (some N)).blocks.length ≤ N ∧
      ∀ e ∈ (validate_and_filter_blocks data (some N)).blocks,
        ∀ e' ∈ surviveRemoval data,
          e'.1 ∉ (validate_and_filter_blocks data (some N)).blocks.map Prod.fst →
          e.2.timestamp ≤ e'.2.timestamp) := by
  set blocks1 := surviveRemoval data with hb1
  set dists1 := surviveDists data with hd1
  set pairs : List (Hash × ℤ) := blocks1.map fun e => (e.1, e.2.timestamp) with hpairs
  have hout_dists : ∀ e ∈ (validate_and_filter_blocks data (some N)).block_dists,
      e ∈ dists1 := by
    intro e he
    unfold validate_and_filter_blocks at he
    by_cases hcase : N < pairs.length
    · simp only [← hb1, ← hd1, ← hpairs, hcase, if_pos] at he
      exact (List.mem_filter.mp he).1
    · simpa only [← hb1, ← hd1, ← hpairs, hcase, if_neg, not_false_iff] using he
  have hout_blocks : ∀ e ∈ (validate_and_filter_blocks data (some N)).blocks,
      e ∈ blocks1 := by
    intro e he
    unfold validate_and_filter_blocks at he
    by_cases hcase : N < pairs.length
    · simp only [← hb1, ← hd1, ← hpairs, hcase, if_pos] at he
      exact (List.mem_filter.mp he).1
    · simpa only [← hb1, ← hd1, ← hpairs, hcase, if_neg, not_false_iff] using he
  have dists1_ok : ∀ e ∈ dists1, syncCountOk data.node_count e.2 = true := by
    intro e he
    rw [hd1] at he
    have := List.mem_filter.mp he
    exact syncOk_of_not_removed this.1 (by simpa using this.2)
  have blocks1_ok : ∀ e ∈ blocks1,
      ∃ pb, (e.1, pb) ∈ data.block_dists ∧ syncCountOk data.node_count pb = true := by
    intro e he
    rw [hb1] at he
    have hm := List.mem_filter.mp he
    obtain ⟨pe, hpe, hpe1⟩ := List.mem_map.mp (hsub e hm.1)
    refine ⟨pe.2, by rwa [← hpe1, Prod.mk.eta], ?_⟩
    refine syncOk_of_not_removed hpe ?_
    rw [hpe1]
    simpa using hm.2
  refine ⟨fun e he => dists1_ok e (hout_dists e he),
          fun e he => blocks1_ok e (hout_blocks e he), ?_⟩
  intro hN
  have hlen : N < pairs.length := by
    rw [hpairs, List.length_map]; exact hN
  have hout : (validate_and_filter_blocks data (some N)).blocks =
      blocks1.filter fun e =>
        (((pairs.mergeSort fun a b => decide (a.2 ≤ b.2)).take N).map Prod.fst).contains e.1 := by
    unfold validate_and_filter_blocks
    simp only [← hb1, ← hd1, ← hpairs, hlen, if_pos]
  set sorted := pairs.mergeSort fun a b => decide (a.2 ≤ b.2) with hsorted
  set keep : List Hash := (sorted.take N).map Prod.fst with hkeep
  have hperm : sorted.Perm pairs := List.mergeSort_perm pairs _
  have hb1nodup : (blocks1.map Prod.fst).Nodup := by
    rw [hb1]
    exact ((List.filter_sublist _).map Prod.fst).nodup hnodupB
  have hpairs_fst : pairs.map Prod.fst = blocks1.map Prod.fst := by
    rw [hpairs, List.map_map]
    rfl
  have hpair_nodup : (pairs.map Prod.fst).Nodup := by rw [hpairs_fst]; exact hb1nodup
  have hsorted_nodup : (sorted.map Prod.fst).Nodup :=
    ((hperm.map Prod.fst).nodup_iff).mpr hpair_nodup
  have hout_nodup : ((validate_and_filter_blocks data (some N)).blocks.map Prod.fst).Nodup := by
    rw [hout]
    exact ((List.filter_sublist _).map Prod.fst).nodup hb1nodup
  constructor
  · have hsubkeep : ∀ x ∈ (validate_and_filter_blocks data (some N)).blocks.map Prod.fst,
        x ∈ keep := by
      intro x hx
      obtain ⟨e, he, hex⟩ := List.mem_map.mp hx
      rw [hout] at he
      have := (List.mem_filter.mp he).2
      rw [← hex]
      exact List.elem_iff.mp (by simpa [← hkeep] using this)
    have h1 : ((validate_and_filter_blocks data (some N)).blocks.map Prod.fst).toFinset.card =
        ((validate_and_filter_blocks data (some N)).blocks.map Prod.fst).length :=
      List.toFinset_card_of_nodup hout_nodup
    have h2 : ((validate_and_filter_blocks data (some N)).blocks.map Prod.fst).toFinset ⊆
        keep.toFinset := by
      intro x hx
      rw [List.mem_toFinset] at *
      exact hsubkeep x hx
    have h3 : keep.toFinset.card ≤ keep.length := keep.toFinset_card_le
    have h4 : keep.length ≤ N := by
      rw [hkeep, List.length_map]
      simpa using List.length_take_le N sorted
    calc (validate_and_filter_blocks data (some N)).blocks.length
        = ((validate_and_filter_blocks data (some N)).blocks.map Prod.fst).length := by
          rw [List.length_map]
      _ = ((validate_and_filter_blocks data (some N)).blocks.map Prod.fst).toFinset.card :=
          h1.symm
      _ ≤ keep.toFinset.card := Finset.card_le_card h2
      _ ≤ N := le_trans h3 h4
  · intro e he e' he' hdrop
    have heb : e ∈ blocks1 ∧ keep.contains e.1 = true := by
      rw [hout] at he
      have := List.mem_filter.mp he
      exact ⟨this.1, by simpa [← hkeep] using this.2⟩
    have hpe_mem : ((e.1, e.2.timestamp) : Hash × ℤ) ∈ pairs := by
      rw [hpairs]
      exact List.mem_map_of_mem _ heb.1
    obtain ⟨pe, hpe_take, hpe_fst⟩ := List.mem_map.mp (List.elem_iff.mp heb.2)
    obtain ⟨pe1, pe2⟩ := pe
    have hpe1 : pe1 = e.1 := hpe_fst
    subst hpe1
    have hpe_sorted : ((e.1, pe2) : Hash × ℤ) ∈ sorted :=
      (List.take_sublist N sorted).subset hpe_take
    have hpe_pairs : ((e.1, pe2) : Hash × ℤ) ∈ pairs := hperm.subset hpe_sorted
    have hts : pe2 = e.2.timestamp := eq_snd_of_nodup_keys pairs hpair_nodup hpe_pairs hpe_mem
    subst hts
    have hpe'_pairs : ((e'.1, e'.2.timestamp) : Hash × ℤ) ∈ pairs := by
      rw [hpairs]
      exact List.mem_map_of_mem _ he'
    have hpe'_sorted : ((e'.1, e'.2.timestamp) : Hash × ℤ) ∈ sorted :=
      hperm.symm.subset hpe'_pairs
    have hsplit : sorted = sorted.take N ++ sorted.drop N := (List.take_append_drop N sorted).symm
    have hpw : sorted.Pairwise fun a b => decide (a.2 ≤ b.2) = true := by
      have := @List.sorted_mergeSort _ (fun a b : Hash × ℤ => decide (a.2 ≤ b.2))
        tsLe_trans tsLe_total pairs
      rw [← hsorted] at this
      exact this.imp fun h => h
    have hpe'_drop : ((e'.1, e'.2.timestamp) : Hash × ℤ) ∈ sorted.drop N := by
      rcases List.mem_append.mp (hsplit ▸ hpe'_sorted) with h | h
      · exfalso
        refine hdrop ?_
        have hkeymem : e'.1 ∈ keep := by
          rw [hkeep]
          exact List.mem_map.mpr ⟨(e'.1, e'.2.timestamp), h, rfl⟩
        have he'_out : e' ∈ (validate_and_filter_blocks data (some N)).blocks := by
          rw [hout]
          refine List.mem_filter.mpr ⟨he', ?_⟩
          simpa [← hkeep] using List.elem_iff.mpr hkeymem
        exact List.mem_map_of_mem Prod.fst he'_out
      · exact h
    have hrel := (List.pairwise_append.mp (hsplit ▸ hpw)).2.2
      ((e.1, e.2.timestamp) : Hash × ℤ) hpe_take
      ((e'.1, e'.2.timestamp) : Hash × ℤ) hpe'_drop
    simpa using hrel

/-- A concrete two-block state for instantiating `c4_validate_filter`. -/
def c4Agg : QuantileAgg := { QuantileAgg.new with count := 2 }

/-- Concrete `AnalysisData` with two complete blocks and `node_count = 2`. -/
def c4Data : AnalysisData :=
  { node_count := 2
    blocks := [(1, ⟨5, 0, 0, 0⟩), (2, ⟨3, 0, 0, 0⟩)]
    block_dists := [(1, [("Sync", c4Agg)]), (2, [("Sync", c4Agg)])] }

theorem c4_witness :
    (c4Data.blocks.map Prod.fst).Nodup ∧
    (∀ e ∈ c4Data.blocks, e.1 ∈ c4Data.block_dists.map Prod.fst) ∧
    ((∀ e ∈ (validate_and_filter_blocks c4Data (some 1)).block_dists,
        syncCountOk c4Data.node_count e.2 = true) ∧
      (∀ e ∈ (validate_and_filter_blocks c4Data (some 1)).blocks,
        ∃ pb, (e.1, pb) ∈ c4Data.block_dists ∧ syncCountOk c4Data.node_count pb = true) ∧
      (1 < (surviveRemoval c4Data).length →
        (validate_and_filter_blocks c4Data (some 1)).blocks.length ≤ 1 ∧
        ∀ e ∈ (validate_and_filter_blocks c4Data (some 1)).blocks,
          ∀ e' ∈ surviveRemoval c4Data,
            e'.1 ∉ (validate_and_filter_blocks c4Data (some 1)).blocks.map Prod.fst →
            e.2.timestamp ≤ e'.2.timestamp)) :=
  ⟨by decide, by decide, c4_validate_filter c4Data 1 (by decide) (by decide)⟩

/-! ## Row derivation gate (`analyzer.rs`, `config.rs`) -/

/-- `config.rs::default_latency_key_names`. -/
def default_latency_key_names : List String :=
  ["Receive", "Sync", "Cons", "HeaderReady", "BodyReady", "SyncGraph",
   "ConsensusGraphStart", "ConsensusGraphReady", "ComputeEpoch", "NotifyTxPool",
   "TxPoolUpdated"]

/-- `config.rs::pivot_event_key_names`. -/
def pivot_event_key_names : List String :=
  ["ComputeEpoch", "NotifyTxPool", "TxPoolUpdated"]

/-- `analyzer.rs::should_require_90pct`. -/
def should_require_90pct (k : String) (is_default : Bool) (pivot_keys : List String) :
    Bool :=
  if is_default then pivot_keys.contains k else true

/-- `NodePercentile::all_in_order`. -/
def NodePercentile.all_in_order : List NodePercentile :=
  [.Min, .Avg, .P10, .P30, .P50, .P80, .P90, .P95, .P99, .P999, .Max]

/-- `NodePercentile::name`. -/
def NodePercentile.name : NodePercentile → String
  | .Min => "Min" | .Avg => "Avg" | .P10 => "P10" | .P30 => "P30" | .P50 => "P50"
  | .P80 => "P80" | .P90 => "P90" | .P95 => "P95" | .P99 => "P99"
  | .P999 => "P999" | .Max => "Max"

/-- The `(row key, value)` pushes that one `(event name, aggregate)` pair
of a block contributes in `build_block_row_values`: nothing when the 90%
gate applies and the aggregate is below `floor(0.9 * node_count)`,
otherwise one value per reported percentile. -/
def rowContribution (node_count : ℕ) (default_keys pivot_keys : List String)
    (k : String) (agg : QuantileAgg) : List (String × F) :=
  let is_default := default_keys.contains k
  if should_require_90pct k is_default pivot_keys ∧
      agg.count < (9 * node_count) / 10 then []
  else NodePercentile.all_in_order.map fun p => (k ++ "::" ++ p.name, agg.value_for p)

/-- `analyzer.rs::build_block_row_values`: the stream of row-value pushes
over all blocks and event names, in iteration order. -/
def build_block_row_values (data : AnalysisData)
    (default_keys pivot_keys : List String) : List (String × F) :=
  data.block_dists.flatMap fun e =>
    e.2.flatMap fun ka =>
      rowContribution data.node_count default_keys pivot_keys ka.1 ka.2

/-- C5.  A per-block aggregate for event name `k` contributes its
quantiles to the rows iff the count gate does not apply to `k` or
`agg.count ≥ floor(0.9 · node_count)`; and the gate applies iff `k` is a
pivot event or `k` is not a default event name.  (`floor(0.9 · n)` is
`9n/10` in the exact model of the f64 expression
`(0.9 * node_count as f64).floor()`.) -/
theorem c5_row_gate (node_count : ℕ) (k : String) (agg : QuantileAgg) :
    (rowContribution node_count default_latency_key_names pivot_event_key_names k agg ≠ []
      ↔ (¬ should_require_90pct k (default_latency_key_names.contains k)
            pivot_event_key_names = true ∨
          (9 * node_count) / 10 ≤ agg.count)) ∧
    (should_require_90pct k (default_latency_key_names.contains k)
        pivot_event_key_names = true
      ↔ (k ∈ pivot_event_key_names ∨ k ∉ default_latency_key_names)) := by
  constructor
  · unfold rowContribution
    have hnonempty :
        (NodePercentile.all_in_order.map fun p => (k ++ "::" ++ p.name, agg.value_for p)) ≠
          [] := by
      simp [NodePercentile.all_in_order]
    by_cases hg : should_require_90pct k (default_latency_key_names.contains k)
        pivot_event_key_names = true
    · by_cases hc : agg.count < (9 * node_count) / 10
      · rw [if_pos ⟨hg, hc⟩]
        refine iff_of_false (by simp) ?_
        rintro (h | h)
        · exact h hg
        · exact Nat.not_le.mpr hc h
      · rw [if_neg fun hand => hc hand.2]
        exact iff_of_true hnonempty (Or.inr (Nat.not_lt.mp hc))
    · rw [if_neg fun hand => hg hand.1]
      exact iff_of_true hnonempty (Or.inl hg)
  · unfold should_require_90pct
    by_cases hd : default_latency_key_names.contains k = true
    · rw [if_pos hd]
      have hdm : k ∈ default_latency_key_names := List.elem_iff.mp hd
      constructor
      · intro hp
        exact Or.inl (List.elem_iff.mp hp)
      · rintro (hp | hnd)
        · exact List.elem_iff.mpr hp
        · exact absurd hdm hnd
    · rw [if_neg hd]
      have hdm : k ∉ default_latency_key_names := fun hm => hd (List.elem_iff.mpr hm)
      simp [hdm]

/-! ## Bounds of the P² estimator (claim C7) -/

/-- The marker heights are in order. -/
def Mono5 (q : ℕ → ℚ) : Prop :=
  q 0 ≤ q 1 ∧ q 1 ≤ q 2 ∧ q 2 ≤ q 3 ∧ q 3 ≤ q 4

/-- The invariant of one P² estimator after absorbing the samples
`seen` (in order): the buffer is a permutation of the samples while
below five, and from five samples on the markers are ordered with
`q 0` the running minimum and `q 4` the running maximum. -/
def P2Inv (s : P2Quantile) (seen : List ℚ) : Prop :=
  s.count = seen.length ∧
  (s.count < 5 → s.init.Perm seen) ∧
  (5 ≤ s.count →
    Mono5 s.q ∧
    (s.q 0 ∈ seen ∧ ∀ y ∈ seen, s.q 0 ≤ y) ∧
    (s.q 4 ∈ seen ∧ ∀ y ∈ seen, y ≤ s.q 4))

theorem P2Inv_new (p : ℚ) : P2Inv (P2Quantile.new p) [] := by
  refine ⟨rfl, fun _ => List.Perm.refl _, fun h5 => absurd h5 (by simp [P2Quantile.new])⟩

theorem adjustMarker_fields (s : P2Quantile) (i : ℕ) :
    (s.adjustMarker i).count = s.count ∧ (s.adjustMarker i).init = s.init ∧
    (s.adjustMarker i).p = s.p := by
  unfold P2Quantile.adjustMarker
  by_cases hg : s.adjustGuard i <;> simp [hg]


theorem qlin_core_up (qa qb qc Dq : ℚ) (hab : qa ≤ qb) (hbc : qb ≤ qc) (hD : 2 ≤ Dq) :
    qa ≤ qb + 1 * (qc - qb) / Dq ∧ qb + 1 * (qc - qb) / Dq ≤ qc := by
  have ha : (0:ℚ) ≤ qc - qb := by linarith
  have h1 : (0:ℚ) ≤ (qc - qb) / Dq := div_nonneg ha (by linarith)
  have h2 : (qc - qb) / Dq ≤ qc - qb := div_le_self ha (by linarith)
  rw [one_mul]
  constructor <;> [linarith; linarith]

theorem qlin_core_down (qa qb qc Dq : ℚ) (hab : qa ≤ qb) (hbc : qb ≤ qc)
    (hD : Dq ≤ -2) :
    qa ≤ qb + (-1) * (qa - qb) / Dq ∧ qb + (-1) * (qa - qb) / Dq ≤ qc := by
  have ha : (0:ℚ) ≤ qb - qa := by linarith
  have hrw : (-1) * (qa - qb) = qb - qa := by ring
  rw [hrw]
  have hneg : (qb - qa) / Dq = -((qb - qa) / (-Dq)) := by
    rw [← div_neg]
    ring_nf
  have h2 : (qb - qa) / (-Dq) ≤ qb - qa := div_le_self ha (by linarith)
  have h1 : (0:ℚ) ≤ (qb - qa) / (-Dq) := div_nonneg ha (by linarith)
  rw [hneg]
  constructor <;> [linarith; linarith]

theorem dsOf_neg {s : P2Quantile} {i : ℕ} (hd : ¬ (0:ℚ) ≤ s.drift i) :
    s.dsOf i = -1 := by
  unfold P2Quantile.dsOf
  rw [if_neg hd]

theorem dsOf_pos {s : P2Quantile} {i : ℕ} (hd : (0:ℚ) ≤ s.drift i) :
    s.dsOf i = 1 := by
  unfold P2Quantile.dsOf
  rw [if_pos hd]

theorem guard_resolve_pos {s : P2Quantile} {i : ℕ} (hg : s.adjustGuard i)
    (hd : (0:ℚ) ≤ s.drift i) : 1 < s.n (i + 1) - s.n i := by
  rcases hg with ⟨_, h⟩ | ⟨h1, _⟩
  · exact h
  · linarith

theorem guard_resolve_neg {s : P2Quantile} {i : ℕ} (hg : s.adjustGuard i)
    (hd : ¬ (0:ℚ) ≤ s.drift i) : s.n (i - 1) - s.n i < -1 := by
  rcases hg with ⟨h1, _⟩ | ⟨_, h⟩
  · linarith
  · exact h

theorem qNewOf_bounds (s : P2Quantile) (i : ℕ) (hi : i = 1 ∨ i = 2 ∨ i = 3)
    (hmono : Mono5 s.q) (hg : s.adjustGuard i) :
    s.q (i - 1) ≤ s.qNewOf i ∧ s.qNewOf i ≤ s.q (i + 1) := by
  obtain ⟨h01, h12, h23, h34⟩ := hmono
  have hab : s.q (i - 1) ≤ s.q i := by rcases hi with rfl | rfl | rfl <;> assumption
  have hbc : s.q i ≤ s.q (i + 1) := by rcases hi with rfl | rfl | rfl <;> assumption
  unfold P2Quantile.qNewOf
  by_cases hp : s.q (i - 1) < s.qParab i ∧ s.qParab i < s.q (i + 1)
  · rw [if_pos hp]
    exact ⟨le_of_lt hp.1, le_of_lt hp.2⟩
  · rw [if_neg hp]
    unfold P2Quantile.qLin
    by_cases hd : (0:ℚ) ≤ s.drift i
    · have hds := dsOf_pos hd
      have hj : ((i : ℤ) + s.dsOf i).toNat = i + 1 := by
        rw [hds]
        rcases hi with rfl | rfl | rfl <;> rfl
      have hgap : 1 < s.n (i + 1) - s.n i := guard_resolve_pos hg hd
      have hD : (2:ℚ) ≤ ((s.n (i + 1) - s.n i : ℤ) : ℚ) := by
        have : (2:ℤ) ≤ s.n (i + 1) - s.n i := by omega
        exact_mod_cast this
      rw [hj, hds]
      have hcore := qlin_core_up (s.q (i - 1)) (s.q i) (s.q (i + 1))
        ((s.n (i + 1) - s.n i : ℤ) : ℚ) hab hbc hD
      simpa using hcore
    · have hds := dsOf_neg hd
      have hj : ((i : ℤ) + s.dsOf i).toNat = i - 1 := by
        rw [hds]
        rcases hi with rfl | rfl | rfl <;> rfl
      have hgap : s.n (i - 1) - s.n i < -1 := guard_resolve_neg hg hd
      have hD : ((s.n (i - 1) - s.n i : ℤ) : ℚ) ≤ -2 := by
        have : s.n (i - 1) - s.n i ≤ -2 := by omega
        exact_mod_cast this
      rw [hj, hds]
      have hcore := qlin_core_down (s.q (i - 1)) (s.q i) (s.q (i + 1))
        ((s.n (i - 1) - s.n i : ℤ) : ℚ) hab hbc hD
      simpa using hcore

theorem adjustMarker_q_inv (s : P2Quantile) (i : ℕ) (hi : i = 1 ∨ i = 2 ∨ i = 3)
    (hmono : Mono5 s.q) :
    Mono5 (s.adjustMarker i).q ∧ (s.adjustMarker i).q 0 = s.q 0 ∧
      (s.adjustMarker i).q 4 = s.q 4 := by
  unfold P2Quantile.adjustMarker
  by_cases hg : s.adjustGuard i
  · rw [if_pos hg]
    obtain ⟨hlow, hhigh⟩ := qNewOf_bounds s i hi hmono hg
    obtain ⟨h01, h12, h23, h34⟩ := hmono
    rcases hi with rfl | rfl | rfl <;>
      refine ⟨⟨?_, ?_, ?_, ?_⟩, ?_, ?_⟩ <;>
        simp_all [Function.update_apply]
  · rw [if_neg hg]
    exact ⟨⟨hmono.1, hmono.2.1, hmono.2.2.1, hmono.2.2.2⟩, rfl, rfl⟩

theorem selQ_inv (s : P2Quantile) (x : ℚ) (hmono : Mono5 s.q) :
    Mono5 (s.selQ x) ∧ (s.selQ x) 0 = min (s.q 0) x ∧ (s.selQ x) 4 = max (s.q 4) x := by
  obtain ⟨h01, h12, h23, h34⟩ := hmono
  unfold P2Quantile.selQ
  by_cases h0 : x < s.q 0
  · rw [if_pos h0]
    have e0 : Function.update s.q 0 x 0 = x := Function.update_same 0 x s.q
    have e1 : Function.update s.q 0 x 1 = s.q 1 :=
      Function.update_noteq (by norm_num) x s.q
    have e2 : Function.update s.q 0 x 2 = s.q 2 :=
      Function.update_noteq (by norm_num) x s.q
    have e3 : Function.update s.q 0 x 3 = s.q 3 :=
      Function.update_noteq (by norm_num) x s.q
    have e4 : Function.update s.q 0 x 4 = s.q 4 :=
      Function.update_noteq (by norm_num) x s.q
    refine ⟨⟨?_, ?_, ?_, ?_⟩, ?_, ?_⟩
    · rw [e0, e1]; linarith
    · rw [e1, e2]; exact h12
    · rw [e2, e3]; exact h23
    · rw [e3, e4]; exact h34
    · rw [e0]; exact (min_eq_right (le_of_lt h0)).symm
    · rw [e4]; exact (max_eq_left (by linarith)).symm
  · rw [if_neg h0]
    by_cases h4 : x ≤ s.q 4
    · rw [if_pos h4]
      refine ⟨⟨h01, h12, h23, h34⟩, ?_, ?_⟩
      · exact (min_eq_left (le_of_not_lt h0)).symm
      · exact (max_eq_left h4).symm
    · rw [if_neg h4]
      have hx4 : s.q 4 < x := lt_of_not_le h4
      have e0 : Function.update s.q 4 x 0 = s.q 0 :=
        Function.update_noteq (by norm_num) x s.q
      have e1 : Function.update s.q 4 x 1 = s.q 1 :=
        Function.update_noteq (by norm_num) x s.q
      have e2 : Function.update s.q 4 x 2 = s.q 2 :=
        Function.update_noteq (by norm_num) x s.q
      have e3 : Function.update s.q 4 x 3 = s.q 3 :=
        Function.update_noteq (by norm_num) x s.q
      have e4 : Function.update s.q 4 x 4 = x := Function.update_same 4 x s.q
      refine ⟨⟨?_, ?_, ?_, ?_⟩, ?_, ?_⟩
      · rw [e0, e1]; exact h01
      · rw [e1, e2]; exact h12
      · rw [e2, e3]; exact h23
      · rw [e3, e4]; linarith
      · rw [e0]; exact (min_eq_left (by linarith [le_of_not_lt h0])).symm
      · rw [e4]; exact (max_eq_right (le_of_lt hx4)).symm

theorem mainInsert_inv (s : P2Quantile) (x : ℚ) (hmono : Mono5 s.q) :
    (s.mainInsert x).count = s.count + 1 ∧ Mono5 (s.mainInsert x).q ∧
      (s.mainInsert x).q 0 = min (s.q 0) x ∧ (s.mainInsert x).q 4 = max (s.q 4) x := by
  obtain ⟨hm1, h0, h4⟩ := selQ_inv s x hmono
  set s1 : P2Quantile := s.preAdjust x with hs1
  have hms : s.mainInsert x = ((s1.adjustMarker 1).adjustMarker 2).adjustMarker 3 := rfl
  have hq1 : s1.q = s.selQ x := rfl
  have i1 := adjustMarker_q_inv s1 1 (Or.inl rfl) (by rw [hq1]; exact hm1)
  have i2 := adjustMarker_q_inv (s1.adjustMarker 1) 2 (Or.inr (Or.inl rfl)) i1.1
  have i3 := adjustMarker_q_inv ((s1.adjustMarker 1).adjustMarker 2) 3
    (Or.inr (Or.inr rfl)) i2.1
  have hc1 := (adjustMarker_fields s1 1).1
  have hc2 := (adjustMarker_fields (s1.adjustMarker 1) 2).1
  have hc3 := (adjustMarker_fields ((s1.adjustMarker 1).adjustMarker 2) 3).1
  refine ⟨?_, ?_, ?_, ?_⟩
  · rw [hms, hc3, hc2, hc1]
    rfl
  · rw [hms]; exact i3.1
  · rw [hms, i3.2.1, i2.2.1, i1.2.1, hq1, h0]
  · rw [hms, i3.2.2, i2.2.2, i1.2.2, hq1, h4]

theorem sorted_getD_mono (t : List ℚ) (ht : List.Sorted (· ≤ ·) t) {i j : ℕ}
    (hij : i ≤ j) (hj : j < t.length) : t.getD i 0 ≤ t.getD j 0 := by
  rcases eq_or_lt_of_le hij with rfl | hlt
  · exact le_refl _
  · rw [List.getD_eq_get t 0 (lt_trans hlt hj), List.getD_eq_get t 0 hj]
    exact ht.rel_get_of_lt (Fin.mk_lt_mk.mpr hlt)

theorem sorted_getD_zero_le (t : List ℚ) (ht : List.Sorted (· ≤ ·) t)
    (hne : 0 < t.length) : ∀ y ∈ t, t.getD 0 0 ≤ y := by
  intro y hy
  obtain ⟨⟨j, hj⟩, hjy⟩ := List.mem_iff_get.mp hy
  rw [← hjy, List.getD_eq_get t 0 hne]
  rcases Nat.eq_zero_or_pos j with rfl | hpos
  · exact le_of_eq (congrArg t.get (Fin.ext rfl))
  · exact ht.rel_get_of_lt (Fin.mk_lt_mk.mpr hpos)

theorem sorted_getD_le_last (t : List ℚ) (ht : List.Sorted (· ≤ ·) t)
    (hne : 0 < t.length) : ∀ y ∈ t, y ≤ t.getD (t.length - 1) 0 := by
  intro y hy
  obtain ⟨⟨j, hj⟩, hjy⟩ := List.mem_iff_get.mp hy
  have hlast : t.length - 1 < t.length := by omega
  rw [← hjy, List.getD_eq_get t 0 hlast]
  rcases eq_or_lt_of_le (Nat.le_sub_one_of_lt hj) with heq | hlt
  · exact le_of_eq (congrArg t.get (Fin.ext heq))
  · exact ht.rel_get_of_lt (Fin.mk_lt_mk.mpr hlt)

theorem getD_mem (t : List ℚ) {i : ℕ} (hi : i < t.length) : t.getD i 0 ∈ t := by
  rw [List.getD_eq_get t 0 hi]
  exact t.get_mem _ _

theorem P2Inv_insert (s : P2Quantile) (seen : List ℚ) (x : ℚ) (hinv : P2Inv s seen) :
    P2Inv (s.insert x) (seen ++ [x]) := by
  obtain ⟨hcount, hbuf, hmark⟩ := hinv
  unfold P2Quantile.insert
  by_cases h5 : s.count < 5
  · rw [if_pos h5]
    have hperm_init : (s.init ++ [x]).Perm (seen ++ [x]) :=
      (hbuf h5).append (List.Perm.refl [x])
    by_cases heq : s.count + 1 = 5
    · rw [if_pos heq]
      set sorted := List.insertionSort (· ≤ ·) (s.init ++ [x]) with hsorted_def
      have hperm : sorted.Perm (s.init ++ [x]) := List.perm_insertionSort _ _
      have hperm2 : sorted.Perm (seen ++ [x]) := hperm.trans hperm_init
      have hsorted : List.Sorted (· ≤ ·) sorted := List.sorted_insertionSort _ _
      have hlen : sorted.length = 5 := by
        rw [hperm2.length_eq, List.length_append, List.length_singleton, ← hcount]
        omega
      refine ⟨?_, ?_, ?_⟩
      · simp only [List.length_append, List.length_singleton, ← hcount]
        omega
      · intro hlt
        exact absurd hlt (by simp)
      · intro _
        have hmono : Mono5 fun i => sorted.getD i 0 := by
          refine ⟨?_, ?_, ?_, ?_⟩ <;>
            exact sorted_getD_mono sorted hsorted (by omega) (by omega)
        refine ⟨hmono, ⟨?_, ?_⟩, ⟨?_, ?_⟩⟩
        · exact hperm2.subset (getD_mem sorted (by omega))
        · intro y hy
          exact sorted_getD_zero_le sorted hsorted (by omega) y (hperm2.mem_iff.mpr hy)
        · have h4 : sorted.getD 4 0 = sorted.getD (sorted.length - 1) 0 := by rw [hlen]
          rw [show (4 : ℕ) = sorted.length - 1 by omega]
          exact hperm2.subset (getD_mem sorted (by omega))
        · intro y hy
          rw [show (4 : ℕ) = sorted.length - 1 by omega]
          exact sorted_getD_le_last sorted hsorted (by omega) y (hperm2.mem_iff.mpr hy)
    · rw [if_neg heq]
      refine ⟨?_, ?_, ?_⟩
      · simp only [List.length_append, List.length_singleton, ← hcount]
      · intro _
        exact hperm_init
      · intro hge
        exact absurd hge (by simp; omega)
  · rw [if_neg h5]
    have h5' : 5 ≤ s.count := le_of_not_lt h5
    obtain ⟨hmono, ⟨hq0mem, hq0le⟩, ⟨hq4mem, hq4ge⟩⟩ := hmark h5'
    obtain ⟨hc, hm, h0, h4⟩ := mainInsert_inv s x hmono
    refine ⟨?_, ?_, ?_⟩
    · rw [hc, hcount]
      simp
    · intro hlt
      rw [hc] at hlt
      omega
    · intro _
      refine ⟨hm, ⟨?_, ?_⟩, ⟨?_, ?_⟩⟩
      · rw [h0]
        rcases le_total (s.q 0) x with hle | hle
        · rw [min_eq_left hle]
          exact List.mem_append_left _ hq0mem
        · rw [min_eq_right hle]
          exact List.mem_append_right _ (List.mem_singleton_self x)
      · intro y hy
        rw [h0]
        rcases List.mem_append.mp hy with hy | hy
        · exact le_trans (min_le_left _ _) (hq0le y hy)
        · rw [List.mem_singleton.mp hy]
          exact min_le_right _ _
      · rw [h4]
        rcases le_total x (s.q 4) with hle | hle
        · rw [max_eq_left hle]
          exact List.mem_append_left _ hq4mem
        · rw [max_eq_right hle]
          exact List.mem_append_right _ (List.mem_singleton_self x)
      · intro y hy
        rw [h4]
        rcases List.mem_append.mp hy with hy | hy
        · exact le_trans (hq4ge y hy) (le_max_left _ _)
        · rw [List.mem_singleton.mp hy]
          exact le_max_right _ _

/-- Folding a list of (finite) samples into a P² estimator. -/
def P2Quantile.insertAll (s : P2Quantile) (l : List ℚ) : P2Quantile :=
  l.foldl P2Quantile.insert s

theorem P2Inv_insertAll (l : List ℚ) (s : P2Quantile) (seen : List ℚ)
    (hinv : P2Inv s seen) : P2Inv (s.insertAll l) (seen ++ l) := by
  induction l generalizing s seen with
  | nil => simpa [P2Quantile.insertAll] using hinv
  | cons x xs ih =>
    have hstep := P2Inv_insert s seen x hinv
    have := ih (s.insert x) (seen ++ [x]) hstep
    simpa [P2Quantile.insertAll, List.append_assoc] using this

theorem estimate_bounds (s : P2Quantile) (seen : List ℚ) (hinv : P2Inv s seen)
    (hne : seen ≠ []) :
    ∃ v, s.estimate = F.fin v ∧ (∀ lo, (∀ y ∈ seen, lo ≤ y) → lo ≤ v) ∧
      (∀ hi, (∀ y ∈ seen, y ≤ hi) → v ≤ hi) := by
  obtain ⟨hcount, hbuf, hmark⟩ := hinv
  have hpos : 0 < seen.length := List.length_pos.mpr hne
  unfold P2Quantile.estimate
  have hc0 : ¬ s.count = 0 := by omega
  rw [if_neg hc0]
  by_cases h5 : s.count < 5
  · rw [if_pos h5]
    set tmp := List.insertionSort (· ≤ ·) s.init with htmp
    have hperm : tmp.Perm seen := (List.perm_insertionSort _ _).trans (hbuf h5)
    have hlen : tmp.length = seen.length := hperm.length_eq
    have hidx : min ((round (((tmp.length - 1 : ℕ) : ℚ) * s.p)).toNat) (tmp.length - 1) <
        tmp.length := by
      have : tmp.length - 1 < tmp.length := by omega
      omega
    refine ⟨tmp.getD _ 0, rfl, ?_, ?_⟩
    · intro lo hlo
      exact hlo _ (hperm.subset (getD_mem tmp hidx))
    · intro hi hhi
      exact hhi _ (hperm.subset (getD_mem tmp hidx))
  · rw [if_neg h5]
    obtain ⟨hmono, ⟨hq0mem, hq0le⟩, ⟨hq4mem, hq4ge⟩⟩ := hmark (le_of_not_lt h5)
    obtain ⟨h01, h12, h23, h34⟩ := hmono
    refine ⟨s.q 2, rfl, ?_, ?_⟩
    · intro lo hlo
      have := hlo _ hq0mem
      linarith
    · intro hi hhi
      have := hhi _ hq4mem
      linarith

theorem insert_fin_p10 (a : QuantileAgg) (x : ℚ) :
    (a.insert (F.fin x)).p10 = a.p10.insert x := by
  simp [QuantileAgg.insert, F.isNan, P2Quantile.feed]

theorem insert_fin_p30 (a : QuantileAgg) (x : ℚ) :
    (a.insert (F.fin x)).p30 = a.p30.insert x := by
  simp [QuantileAgg.insert, F.isNan, P2Quantile.feed]

theorem insert_fin_p50 (a : QuantileAgg) (x : ℚ) :
    (a.insert (F.fin x)).p50 = a.p50.insert x := by
  simp [QuantileAgg.insert, F.isNan, P2Quantile.feed]

theorem insert_fin_p80 (a : QuantileAgg) (x : ℚ) :
    (a.insert (F.fin x)).p80 = a.p80.insert x := by
  simp [QuantileAgg.insert, F.isNan, P2Quantile.feed]

theorem insert_fin_p90 (a : QuantileAgg) (x : ℚ) :
    (a.insert (F.fin x)).p90 = a.p90.insert x := by
  simp [QuantileAgg.insert, F.isNan, P2Quantile.feed]

theorem insert_fin_p95 (a : QuantileAgg) (x : ℚ) :
    (a.insert (F.fin x)).p95 = a.p95.insert x := by
  simp [QuantileAgg.insert, F.isNan, P2Quantile.feed]

theorem insert_fin_p99 (a : QuantileAgg) (x : ℚ) :
    (a.insert (F.fin x)).p99 = a.p99.insert x := by
  simp [QuantileAgg.insert, F.isNan, P2Quantile.feed]

theorem insert_fin_p999 (a : QuantileAgg) (x : ℚ) :
    (a.insert (F.fin x)).p999 = a.p999.insert x := by
  simp [QuantileAgg.insert, F.isNan, P2Quantile.feed]

theorem insertAll_fin_estimators (l : List ℚ) (a : QuantileAgg) :
    (a.insertAll (l.map F.fin)).p10 = a.p10.insertAll l ∧
    (a.insertAll (l.map F.fin)).p30 = a.p30.insertAll l ∧
    (a.insertAll (l.map F.fin)).p50 = a.p50.insertAll l ∧
    (a.insertAll (l.map F.fin)).p80 = a.p80.insertAll l ∧
    (a.insertAll (l.map F.fin)).p90 = a.p90.insertAll l ∧
    (a.insertAll (l.map F.fin)).p95 = a.p95.insertAll l ∧
    (a.insertAll (l.map F.fin)).p99 = a.p99.insertAll l ∧
    (a.insertAll (l.map F.fin)).p999 = a.p999.insertAll l := by
  induction l generalizing a with
  | nil => exact ⟨rfl, rfl, rfl, rfl, rfl, rfl, rfl, rfl⟩
  | cons x xs ih =>
    have h := ih (a.insert (F.fin x))
    refine ⟨?_, ?_, ?_, ?_, ?_, ?_, ?_, ?_⟩
    · show ((a.insert (F.fin x)).insertAll (xs.map F.fin)).p10 =
        (a.p10.insert x).insertAll xs
      rw [h.1, insert_fin_p10]
    · show ((a.insert (F.fin x)).insertAll (xs.map F.fin)).p30 =
        (a.p30.insert x).insertAll xs
      rw [h.2.1, insert_fin_p30]
    · show ((a.insert (F.fin x)).insertAll (xs.map F.fin)).p50 =
        (a.p50.insert x).insertAll xs
      rw [h.2.2.1, insert_fin_p50]
    · show ((a.insert (F.fin x)).insertAll (xs.map F.fin)).p80 =
        (a.p80.insert x).insertAll xs
      rw [h.2.2.2.1, insert_fin_p80]
    · show ((a.insert (F.fin x)).insertAll (xs.map F.fin)).p90 =
        (a.p90.insert x).insertAll xs
      rw [h.2.2.2.2.1, insert_fin_p90]
    · show ((a.insert (F.fin x)).insertAll (xs.map F.fin)).p95 =
        (a.p95.insert x).insertAll xs
      rw [h.2.2.2.2.2.1, insert_fin_p95]
    · show ((a.insert (F.fin x)).insertAll (xs.map F.fin)).p99 =
        (a.p99.insert x).insertAll xs
      rw [h.2.2.2.2.2.2.1, insert_fin_p99]
    · show ((a.insert (F.fin x)).insertAll (xs.map F.fin)).p999 =
        (a.p999.insert x).insertAll xs
      rw [h.2.2.2.2.2.2.2, insert_fin_p999]

theorem insertAll_fin_min_aux (l : List ℚ) (a : QuantileAgg) (m : ℚ)
    (hm : a.min = F.fin m) :
    ∃ m', (a.insertAll (l.map F.fin)).min = F.fin m' ∧
      (m' = m ∨ m' ∈ l) ∧ m' ≤ m ∧ ∀ y ∈ l, m' ≤ y := by
  induction l generalizing a m with
  | nil => exact ⟨m, hm, Or.inl rfl, le_refl m, by simp⟩
  | cons x xs ih =>
    have hstep : (a.insert (F.fin x)).min = F.fin (min m x) := by
      simp [QuantileAgg.insert, F.isNan, hm, F.fmin]
    obtain ⟨m', hm', hmem, hle, hall⟩ := ih (a.insert (F.fin x)) (min m x) hstep
    refine ⟨m', hm', ?_, ?_, ?_⟩
    · rcases hmem with hc | hc
      · rcases le_total m x with h | h
        · rw [min_eq_left h] at hc
          exact Or.inl hc
        · rw [min_eq_right h] at hc
          exact Or.inr (hc ▸ List.mem_cons_self x xs)
      · exact Or.inr (List.mem_cons_of_mem x hc)
    · exact le_trans hle (min_le_left m x)
    · intro y hy
      rcases List.mem_cons.mp hy with rfl | hy
      · exact le_trans hle (min_le_right m y)
      · exact hall y hy
  termination_by l.length

theorem insertAll_fin_max_aux (l : List ℚ) (a : QuantileAgg) (m : ℚ)
    (hm : a.max = F.fin m) :
    ∃ m', (a.insertAll (l.map F.fin)).max = F.fin m' ∧
      (m' = m ∨ m' ∈ l) ∧ m ≤ m' ∧ ∀ y ∈ l, y ≤ m' := by
  induction l generalizing a m with
  | nil => exact ⟨m, hm, Or.inl rfl, le_refl m, by simp⟩
  | cons x xs ih =>
    have hstep : (a.insert (F.fin x)).max = F.fin (max m x) := by
      simp [QuantileAgg.insert, F.isNan, hm, F.fmax]
    obtain ⟨m', hm', hmem, hle, hall⟩ := ih (a.insert (F.fin x)) (max m x) hstep
    refine ⟨m', hm', ?_, ?_, ?_⟩
    · rcases hmem with hc | hc
      · rcases le_total x m with h | h
        · rw [max_eq_left h] at hc
          exact Or.inl hc
        · rw [max_eq_right h] at hc
          exact Or.inr (hc ▸ List.mem_cons_self x xs)
      · exact Or.inr (List.mem_cons_of_mem x hc)
    · exact le_trans (le_max_left m x) hle
    · intro y hy
      rcases List.mem_cons.mp hy with rfl | hy
      · exact le_trans (le_max_right m y) hle
      · exact hall y hy

theorem insertAll_fin_min (l : List ℚ) (hne : l ≠ []) :
    ∃ m, (QuantileAgg.new.insertAll (l.map F.fin)).min = F.fin m ∧ m ∈ l ∧
      ∀ y ∈ l, m ≤ y := by
  cases l with
  | nil => exact absurd rfl hne
  | cons x xs =>
    have h1 : (QuantileAgg.new.insert (F.fin x)).min = F.fin x := by
      simp [QuantileAgg.insert, QuantileAgg.new, F.isNan, F.fmin]
    have := insertAll_fin_min_aux xs (QuantileAgg.new.insert (F.fin x)) x h1
    obtain ⟨m, hm, hmem, hle, hall⟩ := this
    refine ⟨m, hm, ?_, ?_⟩
    · rcases hmem with rfl | hc
      · exact List.mem_cons_self m xs
      · exact List.mem_cons_of_mem x hc
    · intro y hy
      rcases List.mem_cons.mp hy with rfl | hy
      · exact hle
      · exact hall y hy

theorem insertAll_fin_max (l : List ℚ) (hne : l ≠ []) :
    ∃ m, (QuantileAgg.new.insertAll (l.map F.fin)).max = F.fin m ∧ m ∈ l ∧
      ∀ y ∈ l, y ≤ m := by
  cases l with
  | nil => exact absurd rfl hne
  | cons x xs =>
    have h1 : (QuantileAgg.new.insert (F.fin x)).max = F.fin x := by
      simp [QuantileAgg.insert, QuantileAgg.new, F.isNan, F.fmax]
    have := insertAll_fin_max_aux xs (QuantileAgg.new.insert (F.fin x)) x h1
    obtain ⟨m, hm, hmem, hle, hall⟩ := this
    refine ⟨m, hm, ?_, ?_⟩
    · rcases hmem with rfl | hc
      · exact List.mem_cons_self m xs
      · exact List.mem_cons_of_mem x hc
    · intro y hy
      rcases List.mem_cons.mp hy with rfl | hy
      · exact hle
      · exact hall y hy

/-- C7.  For a nonempty stream of finite samples, every reported
percentile estimate (P10 .. P999) of the aggregator lies between the
tracked extremes `Min` and `Max` (in the `f64` order `<=`). -/
theorem c7_percentiles_within_extremes (l : List ℚ) (hne : l ≠ [])
    (p : NodePercentile)
    (hp : p ∈ ([.P10, .P30, .P50, .P80, .P90, .P95, .P99, .P999] :
      List NodePercentile)) :
    F.le (QuantileAgg.new.insertAll (l.map F.fin)).min
        ((QuantileAgg.new.insertAll (l.map F.fin)).value_for p) = true ∧
    F.le ((QuantileAgg.new.insertAll (l.map F.fin)).value_for p)
        (QuantileAgg.new.insertAll (l.map F.fin)).max = true := by
  obtain ⟨m, hmEq, _, hmLB⟩ := insertAll_fin_min l hne
  obtain ⟨M, hMEq, _, hMUB⟩ := insertAll_fin_max l hne
  have hbound : ∀ c : ℚ, ∃ v, ((P2Quantile.new c).insertAll l).estimate = F.fin v ∧
      m ≤ v ∧ v ≤ M := by
    intro c
    have hinv := P2Inv_insertAll l (P2Quantile.new c) [] (P2Inv_new c)
    rw [List.nil_append] at hinv
    obtain ⟨v, hv, hlo, hhi⟩ := estimate_bounds _ l hinv hne
    exact ⟨v, hv, hlo m hmLB, hhi M hMUB⟩
  have hproj := insertAll_fin_estimators l QuantileAgg.new
  have hfin : ∀ v, m ≤ v → v ≤ M →
      (F.le (F.fin m) (F.fin v) = true ∧ F.le (F.fin v) (F.fin M) = true) := by
    intro v h1 h2
    constructor <;> simp [F.le, h1, h2]
  fin_cases hp
  · obtain ⟨v, hv, h1, h2⟩ := hbound (1/10)
    have : (QuantileAgg.new.insertAll (l.map F.fin)).value_for NodePercentile.P10 =
        F.fin v := by
      show (QuantileAgg.new.insertAll (l.map F.fin)).p10.estimate = F.fin v
      rw [hproj.1]; exact hv
    rw [this, hmEq, hMEq]; exact hfin v h1 h2
  · obtain ⟨v, hv, h1, h2⟩ := hbound (3/10)
    have : (QuantileAgg.new.insertAll (l.map F.fin)).value_for NodePercentile.P30 =
        F.fin v := by
      show (QuantileAgg.new.insertAll (l.map F.fin)).p30.estimate = F.fin v
      rw [hproj.2.1]; exact hv
    rw [this, hmEq, hMEq]; exact hfin v h1 h2
  · obtain ⟨v, hv, h1, h2⟩ := hbound (1/2)
    have : (QuantileAgg.new.insertAll (l.map F.fin)).value_for NodePercentile.P50 =
        F.fin v := by
      show (QuantileAgg.new.insertAll (l.map F.fin)).p50.estimate = F.fin v
      rw [hproj.2.2.1]; exact hv
    rw [this, hmEq, hMEq]; exact hfin v h1 h2
  · obtain ⟨v, hv, h1, h2⟩ := hbound (4/5)
    have : (QuantileAgg.new.insertAll (l.map F.fin)).value_for NodePercentile.P80 =
        F.fin v := by
      show (QuantileAgg.new.insertAll (l.map F.fin)).p80.estimate = F.fin v
      rw [hproj.2.2.2.1]; exact hv
    rw [this, hmEq, hMEq]; exact hfin v h1 h2
  · obtain ⟨v, hv, h1, h2⟩ := hbound (9/10)
    have : (QuantileAgg.new.insertAll (l.map F.fin)).value_for NodePercentile.P90 =
        F.fin v := by
      show (QuantileAgg.new.insertAll (l.map F.fin)).p90.estimate = F.fin v
      rw [hproj.2.2.2.2.1]; exact hv
    rw [this, hmEq, hMEq]; exact hfin v h1 h2
  · obtain ⟨v, hv, h1, h2⟩ := hbound (95/100)
    have : (QuantileAgg.new.insertAll (l.map F.fin)).value_for NodePercentile.P95 =
        F.fin v := by
      show (QuantileAgg.new.insertAll (l.map F.fin)).p95.estimate = F.fin v
      rw [hproj.2.2.2.2.2.1]; exact hv
    rw [this, hmEq, hMEq]; exact hfin v h1 h2
  · obtain ⟨v, hv, h1, h2⟩ := hbound (99/100)
    have : (QuantileAgg.new.insertAll (l.map F.fin)).value_for NodePercentile.P99 =
        F.fin v := by
      show (QuantileAgg.new.insertAll (l.map F.fin)).p99.estimate = F.fin v
      rw [hproj.2.2.2.2.2.2.1]; exact hv
    rw [this, hmEq, hMEq]; exact hfin v h1 h2
  · obtain ⟨v, hv, h1, h2⟩ := hbound (999/1000)
    have : (QuantileAgg.new.insertAll (l.map F.fin)).value_for NodePercentile.P999 =
        F.fin v := by
      show (QuantileAgg.new.insertAll (l.map F.fin)).p999.estimate = F.fin v
      rw [hproj.2.2.2.2.2.2.2]; exact hv
    rw [this, hmEq, hMEq]; exact hfin v h1 h2

theorem c7_witness :
    (([3, 1, 2] : List ℚ) ≠ [] ∧
      NodePercentile.P50 ∈ ([.P10, .P30, .P50, .P80, .P90, .P95, .P99, .P999] :
        List NodePercentile)) ∧
    (F.le (QuantileAgg.new.insertAll (([3, 1, 2] : List ℚ).map F.fin)).min
        ((QuantileAgg.new.insertAll (([3, 1, 2] : List ℚ).map F.fin)).value_for
          NodePercentile.P50) = true ∧
      F.le ((QuantileAgg.new.insertAll (([3, 1, 2] : List ℚ).map F.fin)).value_for
          NodePercentile.P50)
        (QuantileAgg.new.insertAll (([3, 1, 2] : List ℚ).map F.fin)).max = true) :=
  ⟨⟨by decide, by decide⟩,
    c7_percentiles_within_extremes [3, 1, 2] (by decide) NodePercentile.P50 (by decide)⟩

/-! ## Tree-graph finalizer (`graph_computer.rs`): subtree sizes (C2)

Blocks are indexed by their parser-assigned ids `0 .. n` (genesis = 0).
The parser assigns ids in log order and a block can only be inserted
after its parent, so every non-root parent id is smaller than the child
id; `check_block_hash` guarantees the parent exists.  These are the
`parent_lt` / `parent_none_iff` fields below. -/
structure BlockGraph (n : ℕ) where
  parent : Fin (n + 1) → Option (Fin (n + 1))
  logTs : Fin (n + 1) → ℕ
  parent_lt : ∀ i j, parent i = some j → (j : ℕ) < (i : ℕ)
  parent_none_iff : ∀ i, parent i = none ↔ (i : ℕ) = 0

/-- `set_parent` / the derived `children` lists: all blocks whose parent
pointer names `i` (in id order; the source's `HashMap` order is
unspecified and the sums below are order-independent). -/
def children {n : ℕ} (g : BlockGraph n) (i : Fin (n + 1)) : List (Fin (n + 1)) :=
  (List.finRange (n + 1)).filter fun j => g.parent j = some i

theorem mem_children {n : ℕ} {g : BlockGraph n} {i j : Fin (n + 1)} :
    j ∈ children g i ↔ g.parent j = some i := by
  simp [children, List.mem_filter]

theorem children_id_lt {n : ℕ} {g : BlockGraph n} {i j : Fin (n + 1)}
    (hj : j ∈ children g i) : (i : ℕ) < (j : ℕ) :=
  g.parent_lt j i (mem_children.mp hj)

/-- The mathematical subtree size: `1 + Σ children.subtree_size`, the
fixpoint that `calculate_subtree_size` computes. -/
def subtreeSpec {n : ℕ} (g : BlockGraph n) (i : Fin (n + 1)) : ℕ :=
  1 + ((children g i).attach.map fun j => subtreeSpec g j.1).sum
termination_by (n + 1) - (i : ℕ)
decreasing_by
  have := children_id_lt j.2
  omega

theorem subtreeSpec_eq {n : ℕ} (g : BlockGraph n) (i : Fin (n + 1)) :
    subtreeSpec g i = 1 + ((children g i).map (subtreeSpec g)).sum := by
  rw [subtreeSpec]
  congr 1
  rw [← List.attach_map_coe (children g i) (subtreeSpec g)]

theorem subtreeSpec_pos {n : ℕ} (g : BlockGraph n) (i : Fin (n + 1)) :
    1 ≤ subtreeSpec g i := by
  rw [subtreeSpec_eq]
  omega

mutual

/-- The memoized recursion of `calculate_subtree_size`, with explicit
fuel standing for the recursion depth (which the lemmas below show is at
most `n + 1`).  A block whose stored size is nonzero returns the stored
value (the `if block.subtree_size > 0` early return); otherwise the
children are computed first, accumulating `children_sum` starting at 1,
and the result is stored. -/
def calcSubtree {n : ℕ} (g : BlockGraph n) :
    ℕ → Fin (n + 1) → (Fin (n + 1) → ℕ) → (Fin (n + 1) → ℕ) × ℕ
  | 0, i, s => (s, s i)
  | fuel + 1, i, s =>
    if s i ≠ 0 then (s, s i)
    else
      let r := calcChildren g fuel (children g i) s 1
      (Function.update r.1 i r.2, r.2)

/-- The `for child_hash in &block.children` loop of
`calculate_subtree_size`, threading the store and `children_sum`. -/
def calcChildren {n : ℕ} (g : BlockGraph n) :
    ℕ → List (Fin (n + 1)) → (Fin (n + 1) → ℕ) → ℕ → (Fin (n + 1) → ℕ) × ℕ
  | _, [], s, acc => (s, acc)
  | fuel, j :: rest, s, acc =>
    let r := calcSubtree g fuel j s
    calcChildren g fuel rest r.1 (acc + r.2)
end

/-- `finalize` runs `calculate_subtree_size` from the root (id 0) on the
all-zero store; the resulting store holds every block's
`subtree_size`. -/
def finalizeSizes {n : ℕ} (g : BlockGraph n) : Fin (n + 1) → ℕ :=
  (calcSubtree g (n + 1) ⟨0, Nat.succ_pos n⟩ fun _ => 0).1

/-- The ancestor chain of a block: itself, its parent, … up to the
root. -/
def chain {n : ℕ} (g : BlockGraph n) (i : Fin (n + 1)) : List (Fin (n + 1)) :=
  i ::
    (match h : g.parent i with
      | none => []
      | some p => chain g p)
termination_by (i : ℕ)
decreasing_by
  exact g.parent_lt i p h

theorem mem_chain_self {n : ℕ} (g : BlockGraph n) (i : Fin (n + 1)) : i ∈ chain g i := by
  rw [chain]
  exact List.mem_cons_self _ _

theorem chain_of_parent {n : ℕ} (g : BlockGraph n) {i p : Fin (n + 1)}
    (h : g.parent i = some p) : chain g i = i :: chain g p := by
  rw [chain]
  congr 1
  split
  · next heq => rw [heq] at h; cases h
  · next p' heq => rw [heq] at h; cases h; rfl

theorem chain_of_root {n : ℕ} (g : BlockGraph n) {i : Fin (n + 1)}
    (h : g.parent i = none) : chain g i = [i] := by
  rw [chain]
  congr 1
  split
  · rfl
  · next p' heq => rw [heq] at h; cases h

theorem root_mem_chain {n : ℕ} (g : BlockGraph n) (i : Fin (n + 1)) :
    (⟨0, Nat.succ_pos n⟩ : Fin (n + 1)) ∈ chain g i := by
  cases hp : g.parent i with
  | none =>
    have hz : (i : ℕ) = 0 := (g.parent_none_iff i).mp hp
    have hroot : i = (⟨0, Nat.succ_pos n⟩ : Fin (n + 1)) := Fin.ext hz
    rw [hroot] at hp ⊢
    rw [chain_of_root g hp]
    exact List.mem_singleton_self _
  | some p =>
    have hlt : (p : ℕ) < (i : ℕ) := g.parent_lt i p hp
    rw [chain_of_parent g hp]
    exact List.mem_cons_of_mem _ (root_mem_chain g p)
termination_by (i : ℕ)

theorem mem_chain_le {n : ℕ} (g : BlockGraph n) (i j : Fin (n + 1)) :
    j ∈ chain g i → (j : ℕ) ≤ (i : ℕ) := by
  intro hj
  cases hp : g.parent i with
  | none =>
    rw [chain_of_root g hp] at hj
    rw [List.mem_singleton.mp hj]
  | some p =>
    rw [chain_of_parent g hp] at hj
    rcases List.mem_cons.mp hj with rfl | hj
    · exact le_refl _
    · have hlt : (p : ℕ) < (i : ℕ) := g.parent_lt i p hp
      exact le_trans (mem_chain_le g p j hj) (le_of_lt hlt)
termination_by (i : ℕ)
decreasing_by exact hlt

theorem chain_trans {n : ℕ} (g : BlockGraph n) (i j k : Fin (n + 1)) :
    j ∈ chain g i → k ∈ chain g j → k ∈ chain g i := by
  intro hj hk
  cases hp : g.parent i with
  | none =>
    rw [chain_of_root g hp] at hj
    rw [List.mem_singleton.mp hj] at hk
    exact hk
  | some p =>
    rw [chain_of_parent g hp] at hj ⊢
    rcases List.mem_cons.mp hj with rfl | hj
    · rwa [chain_of_parent g hp] at hk
    · have hlt : (p : ℕ) < (i : ℕ) := g.parent_lt i p hp
      exact List.mem_cons_of_mem _ (chain_trans g p j k hj hk)
termination_by (i : ℕ)
decreasing_by exact hlt

theorem chain_step {n : ℕ} (g : BlockGraph n) (i d : Fin (n + 1)) :
    i ∈ chain g d → d ≠ i → ∃ c, g.parent c = some i ∧ c ∈ chain g d := by
  intro hi hne
  cases hp : g.parent d with
  | none =>
    rw [chain_of_root g hp] at hi
    exact absurd (List.mem_singleton.mp hi).symm hne
  | some p =>
    rw [chain_of_parent g hp] at hi
    rcases List.mem_cons.mp hi with rfl | hi
    · exact absurd rfl hne
    · by_cases hpi : p = i
      · exact ⟨d, hpi ▸ hp, mem_chain_self g d⟩
      · have hlt : (p : ℕ) < (d : ℕ) := g.parent_lt d p hp
        obtain ⟨c, hc1, hc2⟩ := chain_step g i p hi fun h => hpi h
        refine ⟨c, hc1, ?_⟩
        rw [chain_of_parent g hp]
        exact List.mem_cons_of_mem _ hc2
termination_by (d : ℕ)
decreasing_by exact hlt

/-- Store soundness: every memoized entry equals the subtree size. -/
def StoreP {n : ℕ} (g : BlockGraph n) (s : Fin (n + 1) → ℕ) : Prop :=
  ∀ j, s j ≠ 0 → s j = subtreeSpec g j

/-- Store closure: a memoized block has all its descendants memoized. -/
def StoreQ {n : ℕ} (g : BlockGraph n) (s : Fin (n + 1) → ℕ) : Prop :=
  ∀ j d, s j ≠ 0 → j ∈ chain g d → s d ≠ 0

theorem calc_correct {n : ℕ} (g : BlockGraph n) : ∀ fuel : ℕ,
    (∀ (i : Fin (n + 1)) (s : Fin (n + 1) → ℕ), (n + 1) - (i : ℕ) ≤ fuel →
      StoreP g s → StoreQ g s →
      StoreP g (calcSubtree g fuel i s).1 ∧ StoreQ g (calcSubtree g fuel i s).1 ∧
      (∀ j, s j ≠ 0 → (calcSubtree g fuel i s).1 j = s j) ∧
      (calcSubtree g fuel i s).1 i ≠ 0 ∧
      (calcSubtree g fuel i s).2 = subtreeSpec g i) ∧
    (∀ (L : List (Fin (n + 1))) (s : Fin (n + 1) → ℕ) (acc : ℕ),
      (∀ j ∈ L, (n + 1) - (j : ℕ) ≤ fuel) → StoreP g s → StoreQ g s →
      StoreP g (calcChildren g fuel L s acc).1 ∧
      StoreQ g (calcChildren g fuel L s acc).1 ∧
      (∀ j, s j ≠ 0 → (calcChildren g fuel L s acc).1 j = s j) ∧
      (∀ j ∈ L, (calcChildren g fuel L s acc).1 j ≠ 0) ∧
      (calcChildren g fuel L s acc).2 = acc + (L.map (subtreeSpec g)).sum) := by
  intro fuel
  induction fuel with
  | zero =>
    constructor
    · intro i s hf _ _
      exfalso
      have := i.isLt
      omega
    · intro L s acc hL hP hQ
      cases L with
      | nil =>
        have h0 : calcChildren g 0 [] s acc = (s, acc) := by simp [calcChildren]
        rw [h0]
        exact ⟨hP, hQ, fun _ _ => rfl, by simp, by simp⟩
      | cons j rest =>
        exfalso
        have := hL j (List.mem_cons_self j rest)
        have := j.isLt
        omega
  | succ fuel ih =>
    have hsub : ∀ (i : Fin (n + 1)) (s : Fin (n + 1) → ℕ),
        (n + 1) - (i : ℕ) ≤ fuel + 1 → StoreP g s → StoreQ g s →
        StoreP g (calcSubtree g (fuel + 1) i s).1 ∧
        StoreQ g (calcSubtree g (fuel + 1) i s).1 ∧
        (∀ j, s j ≠ 0 → (calcSubtree g (fuel + 1) i s).1 j = s j) ∧
        (calcSubtree g (fuel + 1) i s).1 i ≠ 0 ∧
        (calcSubtree g (fuel + 1) i s).2 = subtreeSpec g i := by
      intro i s hf hP hQ
      by_cases hsi : s i ≠ 0
      · have hres : calcSubtree g (fuel + 1) i s = (s, s i) := by
          simp [calcSubtree, hsi]
        rw [hres]
        exact ⟨hP, hQ, fun _ _ => rfl, hsi, hP i hsi⟩
      · push_neg at hsi
        have hres : calcSubtree g (fuel + 1) i s =
            (Function.update (calcChildren g fuel (children g i) s 1).1 i
              (calcChildren g fuel (children g i) s 1).2,
             (calcChildren g fuel (children g i) s 1).2) := by
          simp [calcSubtree, hsi]
        have hres1 : (calcSubtree g (fuel + 1) i s).1 =
            Function.update (calcChildren g fuel (children g i) s 1).1 i
              (calcChildren g fuel (children g i) s 1).2 := by rw [hres]
        have hres2 : (calcSubtree g (fuel + 1) i s).2 =
            (calcChildren g fuel (children g i) s 1).2 := by rw [hres]
        have hL : ∀ j ∈ children g i, (n + 1) - (j : ℕ) ≤ fuel := by
          intro j hj
          have h1 := children_id_lt hj
          have h2 := j.isLt
          omega
        obtain ⟨P1, Q1, pres1, hall1, hacc⟩ := ih.2 (children g i) s 1 hL hP hQ
        have hval : (calcChildren g fuel (children g i) s 1).2 = subtreeSpec g i := by
          rw [hacc, subtreeSpec_eq]
        rw [hres1, hres2]
        refine ⟨?_, ?_, ?_, ?_, hval⟩
        · intro j hj
          by_cases hji : j = i
          · subst hji
            rw [Function.update_same] at hj ⊢
            exact hval
          · rw [Function.update_noteq hji] at hj ⊢
            exact P1 j hj
        · intro j d hj hchain
          by_cases hdi : d = i
          · subst hdi
            rw [Function.update_same]
            rw [hval]
            have := subtreeSpec_pos g d
            omega
          · rw [Function.update_noteq hdi]
            by_cases hji : j = i
            · subst hji
              obtain ⟨c, hc1, hc2⟩ := chain_step g j d hchain hdi
              have hcch : c ∈ children g j := mem_children.mpr hc1
              exact Q1 c d (hall1 c hcch) hc2
            · rw [Function.update_noteq hji] at hj
              exact Q1 j d hj hchain
        · intro j hj
          have hji : j ≠ i := fun h => by rw [h, hsi] at hj; exact hj rfl
          rw [Function.update_noteq hji]
          exact pres1 j hj
        · rw [Function.update_same, hval]
          have := subtreeSpec_pos g i
          omega
    refine ⟨hsub, ?_⟩
    intro L
    induction L with
    | nil =>
      intro s acc hL hP hQ
      have h0 : calcChildren g (fuel + 1) [] s acc = (s, acc) := by simp [calcChildren]
      rw [h0]
      exact ⟨hP, hQ, fun _ _ => rfl, by simp, by simp⟩
    | cons j rest ihL =>
      intro s acc hL hP hQ
      have hrj := hsub j s (hL j (List.mem_cons_self j rest)) hP hQ
      obtain ⟨P1, Q1, pres1, hj1, hval1⟩ := hrj
      have hrest := ihL (calcSubtree g (fuel + 1) j s).1
        (acc + (calcSubtree g (fuel + 1) j s).2)
        (fun j' hj' => hL j' (List.mem_cons_of_mem j hj')) P1 Q1
      obtain ⟨P2, Q2, pres2, hall2, hacc2⟩ := hrest
      have hres : calcChildren g (fuel + 1) (j :: rest) s acc =
          calcChildren g (fuel + 1) rest (calcSubtree g (fuel + 1) j s).1
            (acc + (calcSubtree g (fuel + 1) j s).2) := by
        simp [calcChildren]
      rw [hres]
      refine ⟨P2, Q2, ?_, ?_, ?_⟩
      · intro j' hj'
        rw [pres2 j' (by rw [pres1 j' hj']; exact hj'), pres1 j' hj']
      · intro j' hj'
        rcases List.mem_cons.mp hj' with rfl | hj'
        · rw [pres2 j' hj1]
          exact hj1
        · exact hall2 j' hj'
      · rw [hacc2, hval1, List.map_cons, List.sum_cons]
        omega

/-- C2.  After the finalizer's subtree pass from the root, every block's
`subtree_size` equals `1 + Σ children.subtree_size`, and in particular
is at least 1. -/
theorem c2_subtree_sizes {n : ℕ} (g : BlockGraph n) (i : Fin (n + 1)) :
    finalizeSizes g i = 1 + ((children g i).map (finalizeSizes g)).sum ∧
      1 ≤ finalizeSizes g i := by
  have hP0 : StoreP g fun _ => 0 := fun j hj => absurd rfl hj
  have hQ0 : StoreQ g fun _ => 0 := fun j _ hj _ => absurd rfl hj
  have hroot : (n + 1) - ((⟨0, Nat.succ_pos n⟩ : Fin (n + 1)) : ℕ) ≤ n + 1 := by simp
  obtain ⟨hP, hQ, _, hentry, _⟩ :=
    (calc_correct g (n + 1)).1 ⟨0, Nat.succ_pos n⟩ (fun _ => 0) hroot hP0 hQ0
  have hall : ∀ j, finalizeSizes g j ≠ 0 := fun j =>
    hQ ⟨0, Nat.succ_pos n⟩ j hentry (root_mem_chain g j)
  have hspec : ∀ j, finalizeSizes g j = subtreeSpec g j := fun j => hP j (hall j)
  constructor
  · rw [hspec i, subtreeSpec_eq]
    congr 1
    exact (List.map_congr_left fun j _ => hspec j).symm ▸ rfl
  · rw [hspec i]
    exact subtreeSpec_pos g i

/-! ## `utils/time_series.rs`: the step-function algebra (C9, C10)

`start_timestamp` is a `u32` (`timestamp as u32` in `new`), offsets are
`u16` (`(ts - start) as u16` when pushed): both casts are modelled with
the exact `% 2^32` / `% 2^16` truncation of the source. -/
structure TimeSeries (α : Type) where
  start_timestamp : ℕ
  series : List (ℕ × α)

/-- `TimeSeries::new`: a single point at offset 0. -/
def TimeSeries.new {α : Type} (timestamp : ℕ) (payload : α) : TimeSeries α :=
  ⟨timestamp % 2 ^ 32, [(0, payload)]⟩

/-- The last entry with offset `≤ target`.  On the strictly
offset-sorted series the source maintains, this is exactly what its
`binary_search_by` lookup returns. -/
def lastLe {α : Type} (target : ℕ) : List (ℕ × α) → Option α
  | [] => none
  | (o, v) :: rest =>
    match lastLe target rest with
    | some w => some w
    | none => if o ≤ target then some v else none

/-- `TimeSeries::at` (named `atTime`; `at` is reserved in Lean): `none`
before `start_timestamp`, else the payload of the greatest offset
`≤ t - start_timestamp`. -/
def TimeSeries.atTime {α : Type} (s : TimeSeries α) (t : ℕ) : Option α :=
  let t32 := t % 2 ^ 32
  if t32 < s.start_timestamp then none
  else lastLe (t32 - s.start_timestamp) s.series

/-- Drop consecutive duplicates, keeping the first entry of each run
(the `chunk_by` loop of `reduce`). -/
def dedupFrom {α : Type} [DecidableEq α] (prev : α) : List (ℕ × α) → List (ℕ × α)
  | [] => []
  | (o, v) :: rest =>
    if v = prev then dedupFrom prev rest else (o, v) :: dedupFrom v rest

/-- `TimeSeries::reduce`: shift `start_timestamp` to the first entry and
drop consecutive equal payloads. -/
def TimeSeries.reduce {α : Type} [DecidableEq α] (s : TimeSeries α) : TimeSeries α :=
  match s.series with
  | [] => s
  | (off0, v0) :: rest =>
    { start_timestamp := s.start_timestamp + off0
      series := ((off0, v0) :: dedupFrom v0 rest).map fun e => (e.1 - off0, e.2) }

/-- Apply one timestamp-group of events to the `current_val` vector (the
inner `for (idx, _, val) in group` loop of `cartesian_map_inner`);
the vector is modelled as a function from input index. -/
def applyGroup {α : Type} (current : ℕ → Option α) (grp : List (ℕ × α)) :
    ℕ → Option α :=
  grp.foldl (fun c iv => Function.update c iv.1 (some iv.2)) current

/-- Group a (timestamp-sorted) event list by timestamp, keeping order
(`chunk_by` of the source): each group is `(ts, [(idx, val), …])`. -/
def groupByTs {α : Type} : List (ℕ × ℕ × α) → List (ℕ × List (ℕ × α))
  | [] => []
  | e :: rest =>
    match groupByTs rest with
    | [] => [(e.2.1, [(e.1, e.2.2)])]
    | (ts, grp) :: gs =>
      if e.2.1 = ts then (ts, (e.1, e.2.2) :: grp) :: gs
      else (e.2.1, [(e.1, e.2.2)]) :: (ts, grp) :: gs

/-- The emission loop of `cartesian_map_inner`: update the current
vector with each timestamp group, call `combine`, and emit
`((ts - start) as u16, v)` on `Some v`, latching `start` at the first
emission. -/
def cartLoop {α β : Type} (combine : (ℕ → Option α) → Option β) :
    List (ℕ × List (ℕ × α)) → (ℕ → Option α) → Option ℕ → List (ℕ × β) →
    Option ℕ × List (ℕ × β)
  | [], _, st?, acc => (st?, acc)
  | (ts, grp) :: rest, current, st?, acc =>
    let cur' := applyGroup current grp
    match combine cur' with
    | none => cartLoop combine rest cur' st? acc
    | some v =>
      let st := st?.getD ts
      cartLoop combine rest cur' (some st) (acc ++ [((ts - st) % 2 ^ 16, v)])

/-- `TimeSeries::cartesian_map_inner`: sort events by timestamp, run the
emission loop, and unwrap the latched start timestamp — the unwrap
panics (`none` here) when no emission ever happened. -/
def cartesianMapInner {α β : Type} (events : List (ℕ × ℕ × α))
    (combine : (ℕ → Option α) → Option β) : Option (TimeSeries β) :=
  let sorted := List.insertionSort (fun e1 e2 => e1.2.1 ≤ e2.2.1) events
  match cartLoop combine (groupByTs sorted) (fun _ => none) none [] with
  | (some st, ser) => some ⟨st, ser⟩
  | (none, _) => none

/-- `TimeSeries::array_cartesian_map`: events are all entries of all
inputs tagged with their input index and absolute timestamp. -/
def TimeSeries.array_cartesian_map {α β : Type} (inputs : List (TimeSeries α))
    (combine : (ℕ → Option α) → Option β) : Option (TimeSeries β) :=
  let events := inputs.enum.flatMap fun p =>
    p.2.series.map fun e => (p.1, (p.2.start_timestamp + e.1) % 2 ^ 32, e.2)
  cartesianMapInner events combine

theorem cartLoop_none {α β : Type} (combine : (ℕ → Option α) → Option β)
    (hc : ∀ c, combine c = none) :
    ∀ (groups : List (ℕ × List (ℕ × α))) (current : ℕ → Option α)
      (st? : Option ℕ) (acc : List (ℕ × β)),
      cartLoop combine groups current st? acc = (st?, acc) := by
  intro groups
  induction groups with
  | nil => intro c st? acc; rfl
  | cons g rest ih =>
    intro c st? acc
    obtain ⟨ts, grp⟩ := g
    show (match combine (applyGroup c grp) with
      | none => cartLoop combine rest (applyGroup c grp) st? acc
      | some v => cartLoop combine rest (applyGroup c grp) (some (st?.getD ts))
          (acc ++ [((ts - st?.getD ts) % 2 ^ 16, v)])) = (st?, acc)
    rw [hc (applyGroup c grp)]
    exact ih _ _ _

/-- C10.  `cartesian_map_inner` (hence `array_cartesian_map` and
`tuple_cartesian_map`, which both go through it) is not total: whenever
the combine function returns `None` at every event time — in particular
for an empty input list, where it is never called at all — the
`start_timestamp.unwrap()` panics, modelled by `none`. -/
theorem c10_cartesian_map_not_total {α β : Type} :
    (∀ (combine : (ℕ → Option α) → Option β), (∀ c, combine c = none) →
      ∀ (inputs : List (TimeSeries α)),
        TimeSeries.array_cartesian_map inputs combine = none) ∧
    (∀ (combine : (ℕ → Option α) → Option β), (∀ c, combine c = none) →
      ∀ (events : List (ℕ × ℕ × α)), cartesianMapInner events combine = none) ∧
    (∀ (combine : (ℕ → Option α) → Option β),
      TimeSeries.array_cartesian_map [] combine = none) := by
  have hinner : ∀ (combine : (ℕ → Option α) → Option β), (∀ c, combine c = none) →
      ∀ (events : List (ℕ × ℕ × α)), cartesianMapInner events combine = none := by
    intro combine hc events
    unfold cartesianMapInner
    simp only [cartLoop_none combine hc]
  refine ⟨?_, hinner, ?_⟩
  · intro combine hc inputs
    unfold TimeSeries.array_cartesian_map
    exact hinner combine hc _
  · intro combine
    rfl

theorem c10_witness :
    (∀ c : (ℕ → Option ℕ), (fun _ : ℕ → Option ℕ => (none : Option ℕ)) c = none) ∧
    TimeSeries.array_cartesian_map ([] : List (TimeSeries ℕ))
      (fun _ : ℕ → Option ℕ => (none : Option ℕ)) = none :=
  ⟨fun _ => rfl,
    c10_cartesian_map_not_total.1 (fun _ => (none : Option ℕ)) (fun _ => rfl) []⟩

/-- The series invariants `cartesian_map_inner` maintains: offsets
strictly increasing. -/
def offsetsSorted {α : Type} (l : List (ℕ × α)) : Prop :=
  l.Chain' fun a b => a.1 < b.1

/-- Payloads non-decreasing along the series. -/
def valuesMono (l : List (ℕ × ℕ)) : Prop :=
  l.Chain' fun a b => a.2 ≤ b.2

theorem lastLe_none_mono {α : Type} {t1 t2 : ℕ} (h : t1 ≤ t2) :
    ∀ l : List (ℕ × α), lastLe t2 l = none → lastLe t1 l = none := by
  intro l
  induction l with
  | nil => intro; rfl
  | cons e rest ih =>
    obtain ⟨o, v⟩ := e
    intro h2
    simp only [lastLe] at h2 ⊢
    cases hr : lastLe t2 rest with
    | some w => rw [hr] at h2; exact absurd h2 (by simp)
    | none =>
      rw [hr] at h2
      rw [ih hr]
      by_cases ho : o ≤ t2
      · rw [if_pos ho] at h2; exact absurd h2 (by simp)
      · rw [if_neg fun hc => ho (le_trans hc h)]

theorem head_le_lastLe (o v : ℕ) (t w : ℕ) :
    ∀ rest : List (ℕ × ℕ), valuesMono ((o, v) :: rest) →
      lastLe t rest = some w → v ≤ w := by
  intro rest
  induction rest generalizing o v with
  | nil => intro _ hw; exact absurd hw (by simp [lastLe])
  | cons e rest' ih =>
    obtain ⟨o', v'⟩ := e
    intro hm hw
    have hvv' : v ≤ v' := (List.chain'_cons.mp hm).1
    have hm' : valuesMono ((o', v') :: rest') := (List.chain'_cons.mp hm).2
    simp only [lastLe] at hw
    cases hr : lastLe t rest' with
    | some w' =>
      rw [hr] at hw
      cases hw
      exact le_trans hvv' (ih o' v' hm' hr)
    | none =>
      rw [hr] at hw
      by_cases ho : o' ≤ t
      · rw [if_pos ho] at hw; cases hw; exact hvv'
      · rw [if_neg ho] at hw; exact absurd hw (by simp)

theorem lastLe_mono {t1 t2 : ℕ} (h12 : t1 ≤ t2) :
    ∀ (l : List (ℕ × ℕ)), valuesMono l →
      ∀ {v1 v2 : ℕ}, lastLe t1 l = some v1 → lastLe t2 l = some v2 → v1 ≤ v2 := by
  intro l
  induction l with
  | nil => intro _ v1 v2 h1; exact absurd h1 (by simp [lastLe])
  | cons e rest ih =>
    obtain ⟨o, v⟩ := e
    intro hm v1 v2 h1 h2
    have hmt : valuesMono rest := hm.tail
    simp only [lastLe] at h1 h2
    cases hr1 : lastLe t1 rest with
    | some w1 =>
      rw [hr1] at h1
      cases h1
      cases hr2 : lastLe t2 rest with
      | some w2 =>
        rw [hr2] at h2
        cases h2
        exact ih hmt hr1 hr2
      | none => exact absurd hr1 (by rw [lastLe_none_mono h12 rest hr2]; simp)
    | none =>
      rw [hr1] at h1
      by_cases ho : o ≤ t1
      · rw [if_pos ho] at h1
        cases h1
        cases hr2 : lastLe t2 rest with
        | some w2 =>
          rw [hr2] at h2
          cases h2
          exact head_le_lastLe o _ t2 _ rest hm hr2
        | none =>
          rw [hr2, if_pos (le_trans ho h12)] at h2
          cases h2
          exact le_refl _
      · rw [if_neg ho] at h1; exact absurd h1 (by simp)

/-- `at` is monotone on a payload-monotone series (for timestamps below
the `u32` wrap, which the cast `timestamp as u32` assumes). -/
theorem TimeSeries.atTime_mono (s : TimeSeries ℕ) (hm : valuesMono s.series)
    {t1 t2 : ℕ} (h12 : t1 ≤ t2) (h2w : t2 < 2 ^ 32) {v1 v2 : ℕ}
    (h1 : s.atTime t1 = some v1) (h2 : s.atTime t2 = some v2) : v1 ≤ v2 := by
  unfold TimeSeries.atTime at h1 h2
  rw [Nat.mod_eq_of_lt (lt_of_le_of_lt h12 h2w)] at h1
  rw [Nat.mod_eq_of_lt h2w] at h2
  by_cases hlt1 : t1 < s.start_timestamp
  · rw [if_pos hlt1] at h1; exact absurd h1 (by simp)
  by_cases hlt2 : t2 < s.start_timestamp
  · rw [if_pos hlt2] at h2; exact absurd h2 (by simp)
  rw [if_neg hlt1] at h1
  rw [if_neg hlt2] at h2
  exact lastLe_mono (Nat.sub_le_sub_right h12 _) s.series hm h1 h2

theorem dedupFrom_sublist {α : Type} [DecidableEq α] :
    ∀ (l : List (ℕ × α)) (prev : α), List.Sublist (dedupFrom prev l) l := by
  intro l
  induction l with
  | nil => intro _; exact List.Sublist.refl _
  | cons e rest ih =>
    obtain ⟨o, v⟩ := e
    intro prev
    simp only [dedupFrom]
    by_cases hv : v = prev
    · rw [if_pos hv]; exact (ih prev).cons _
    · rw [if_neg hv]; exact (ih v).cons₂ _

theorem chain_shift (c : ℕ) :
    ∀ l : List (ℕ × ℕ), (∀ e ∈ l, c ≤ e.1) → offsetsSorted l →
      offsetsSorted (l.map fun e => (e.1 - c, e.2)) := by
  intro l
  induction l with
  | nil => intro _ _; exact List.chain'_nil
  | cons a l' ih =>
    intro hall hs
    cases l' with
    | nil => exact List.chain'_singleton _
    | cons b l'' =>
      have h1 : a.1 < b.1 := (List.chain'_cons.mp hs).1
      have h2 := ih (fun e he => hall e (List.mem_cons_of_mem a he))
        (List.chain'_cons.mp hs).2
      exact List.chain'_cons.mpr
        ⟨Nat.sub_lt_sub_right (hall a (List.mem_cons_self a _)) h1, h2⟩

instance : IsTrans (ℕ × ℕ) (fun a b => a.1 < b.1) :=
  ⟨fun _ _ _ h1 h2 => lt_trans h1 h2⟩

instance : IsTrans (ℕ × ℕ) (fun a b => a.2 ≤ b.2) :=
  ⟨fun _ _ _ h1 h2 => le_trans h1 h2⟩

/-- `reduce` keeps the series sorted and payload-monotone. -/
theorem reduce_chains (s : TimeSeries ℕ) (hs : offsetsSorted s.series)
    (hm : valuesMono s.series) :
    offsetsSorted s.reduce.series ∧ valuesMono s.reduce.series := by
  unfold TimeSeries.reduce
  cases hser : s.series with
  | nil =>
    show offsetsSorted s.series ∧ valuesMono s.series
    exact ⟨hs, hm⟩
  | cons e rest =>
    obtain ⟨off0, v0⟩ := e
    rw [hser] at hs hm
    have hsub : List.Sublist ((off0, v0) :: dedupFrom v0 rest)
        ((off0, v0) :: rest) :=
      (dedupFrom_sublist rest v0).cons₂ _
    have hs' : offsetsSorted ((off0, v0) :: dedupFrom v0 rest) :=
      List.Chain'.sublist hs hsub
    have hm' : valuesMono ((off0, v0) :: dedupFrom v0 rest) :=
      List.Chain'.sublist hm hsub
    have hall : ∀ e ∈ (off0, v0) :: dedupFrom v0 rest, off0 ≤ e.1 := by
      intro e he
      rcases List.mem_cons.mp he with h | h
      · rw [h]
      · exact le_of_lt (List.rel_of_pairwise_cons
          (List.chain'_iff_pairwise.mp hs) ((dedupFrom_sublist rest v0).subset h))
    constructor
    · exact chain_shift off0 _ hall hs'
    · exact (List.chain'_map _).mpr hm'

/-- Membership of an event in a grouped event list. -/
def groupMem (groups : List (ℕ × List (ℕ × ℕ))) (idx ts v : ℕ) : Prop :=
  ∃ g ∈ groups, g.1 = ts ∧ (idx, v) ∈ g.2

theorem applyGroup_cases {α : Type} :
    ∀ (grp : List (ℕ × α)) (cur : ℕ → Option α) (idx : ℕ),
      applyGroup cur grp idx = cur idx ∨
        ∃ v, (idx, v) ∈ grp ∧ applyGroup cur grp idx = some v := by
  intro grp
  induction grp with
  | nil => intro cur idx; exact Or.inl rfl
  | cons iv rest ih =>
    intro cur idx
    have hstep : applyGroup cur (iv :: rest) =
        applyGroup (Function.update cur iv.1 (some iv.2)) rest := rfl
    rcases ih (Function.update cur iv.1 (some iv.2)) idx with h | ⟨v, hv, h⟩
    · rw [hstep, h]
      by_cases hidx : idx = iv.1
      · subst hidx
        exact Or.inr ⟨iv.2, List.mem_cons_self _ _, Function.update_same _ _ _⟩
      · rw [Function.update_noteq hidx]
        exact Or.inl rfl
    · exact Or.inr ⟨v, List.mem_cons_of_mem _ hv, by rw [hstep, h]⟩

theorem sum_filterMap_growth :
    ∀ (L : List ℕ) (c c' : ℕ → Option ℕ),
      (∀ idx a, c idx = some a → ∃ b, c' idx = some b ∧ a ≤ b) →
      (L.filterMap c).sum ≤ (L.filterMap c').sum := by
  intro L
  induction L with
  | nil => intro _ _ _; exact le_refl _
  | cons idx L ih =>
    intro c c' hg
    rw [List.filterMap_cons, List.filterMap_cons]
    cases hc : c idx with
    | some a =>
      obtain ⟨b, hb, hab⟩ := hg idx a hc
      rw [hb]
      simpa using Nat.add_le_add hab (ih c c' hg)
    | none =>
      cases hc' : c' idx with
      | some b => simpa using le_trans (ih c c' hg) (Nat.le_add_left _ _)
      | none => exact ih c c' hg

theorem sum_filterMap_range_le :
    ∀ (B : List ℕ) (cur : ℕ → Option ℕ),
      (∀ idx a, cur idx = some a → a ≤ B.getD idx 0) →
      ((List.range B.length).filterMap cur).sum ≤ B.sum := by
  intro B
  induction B with
  | nil =>
    intro cur hd
    simp [List.filterMap]
  | cons b B ih =>
    intro cur hd
    rw [List.length_cons, List.range_succ_eq_map, List.filterMap_cons,
      List.filterMap_map]
    have htail : ((List.range B.length).filterMap (cur ∘ Nat.succ)).sum ≤ B.sum := by
      refine ih (cur ∘ Nat.succ) ?_
      intro idx a ha
      exact hd (idx + 1) a ha
    cases hc : cur 0 with
    | some a =>
      have ha : a ≤ b := hd 0 a hc
      rw [List.sum_cons, List.sum_cons]
      exact Nat.add_le_add ha htail
    | none =>
      rw [List.sum_cons]
      exact le_trans htail (Nat.le_add_left _ _)

theorem groupByTs_mem :
    ∀ (l : List (ℕ × ℕ × ℕ)) (ts : ℕ) (grp : List (ℕ × ℕ)) (idx v : ℕ),
      (ts, grp) ∈ groupByTs l → (idx, v) ∈ grp → (idx, ts, v) ∈ l := by
  intro l
  induction l with
  | nil => intro ts grp idx v h; exact absurd h (by simp [groupByTs])
  | cons e rest ih =>
    intro ts grp idx v hg hiv
    cases hgr : groupByTs rest with
    | nil =>
      have hred : groupByTs (e :: rest) = [(e.2.1, [(e.1, e.2.2)])] := by
        simp [groupByTs, hgr]
      rw [hred, List.mem_singleton, Prod.mk.injEq] at hg
      obtain ⟨hts, hgrp⟩ := hg
      rw [hgrp, List.mem_singleton, Prod.mk.injEq] at hiv
      obtain ⟨h1, h2⟩ := hiv
      rw [h1, h2, hts]
      exact List.mem_cons_self _ _
    | cons g0 gs =>
      obtain ⟨ts0, grp0⟩ := g0
      by_cases he : e.2.1 = ts0
      · have hred : groupByTs (e :: rest) = (ts0, (e.1, e.2.2) :: grp0) :: gs := by
          simp only [groupByTs, hgr, he, if_pos]
        rw [hred, List.mem_cons] at hg
        rcases hg with h | h
        · rw [Prod.mk.injEq] at h
          obtain ⟨hts, hgrp⟩ := h
          rw [hgrp, List.mem_cons] at hiv
          rcases hiv with h2 | h2
          · rw [Prod.mk.injEq] at h2
            obtain ⟨h3, h4⟩ := h2
            rw [h3, h4, hts, ← he]
            exact List.mem_cons_self _ _
          · exact List.mem_cons_of_mem _
              (ih ts grp0 idx v (by rw [hgr, hts]; exact List.mem_cons_self _ _) h2)
        · exact List.mem_cons_of_mem _
            (ih ts grp idx v (by rw [hgr]; exact List.mem_cons_of_mem _ h) hiv)
      · have hred : groupByTs (e :: rest) =
            (e.2.1, [(e.1, e.2.2)]) :: (ts0, grp0) :: gs := by
          simp only [groupByTs, hgr, he, if_neg, if_false]
        rw [hred, List.mem_cons] at hg
        rcases hg with h | h
        · rw [Prod.mk.injEq] at h
          obtain ⟨hts, hgrp⟩ := h
          rw [hgrp, List.mem_singleton, Prod.mk.injEq] at hiv
          obtain ⟨h1, h2⟩ := hiv
          rw [h1, h2, hts]
          exact List.mem_cons_self _ _
        · exact List.mem_cons_of_mem _ (ih ts grp idx v (by rw [hgr]; exact h) hiv)

theorem groupByTs_head_ts (e : ℕ × ℕ × ℕ) (rest : List (ℕ × ℕ × ℕ)) :
    ∃ grp gs, groupByTs (e :: rest) = (e.2.1, grp) :: gs := by
  cases hgr : groupByTs rest with
  | nil => exact ⟨[(e.1, e.2.2)], [], by simp [groupByTs, hgr]⟩
  | cons g0 gs =>
    obtain ⟨ts0, grp0⟩ := g0
    by_cases he : e.2.1 = ts0
    · refine ⟨(e.1, e.2.2) :: grp0, gs, ?_⟩
      simp only [groupByTs, hgr]
      rw [if_pos he, he]
    · exact ⟨[(e.1, e.2.2)], (ts0, grp0) :: gs, by simp only [groupByTs, hgr, if_neg he]⟩

theorem groupByTs_sorted :
    ∀ l : List (ℕ × ℕ × ℕ), l.Chain' (fun a b => a.2.1 ≤ b.2.1) →
      ((groupByTs l).map Prod.fst).Chain' (· < ·) := by
  intro l
  induction l with
  | nil => intro _; exact List.chain'_nil
  | cons e rest ih =>
    intro hs
    have hrest := ih hs.tail
    cases rest with
    | nil =>
      have h1 : groupByTs [e] = [(e.2.1, [(e.1, e.2.2)])] := by simp [groupByTs]
      rw [h1]
      exact List.chain'_singleton _
    | cons e2 rest2 =>
      obtain ⟨j2, u2, w2⟩ := e2
      have he2 : e.2.1 ≤ u2 := (List.chain'_cons.mp hs).1
      obtain ⟨grp2, gs2, hg2x⟩ := groupByTs_head_ts (j2, u2, w2) rest2
      have hg2 : groupByTs ((j2, u2, w2) :: rest2) = (u2, grp2) :: gs2 := hg2x
      rw [hg2] at hrest
      by_cases he : e.2.1 = u2
      · have hred : groupByTs (e :: (j2, u2, w2) :: rest2) =
            (u2, (e.1, e.2.2) :: grp2) :: gs2 := by
          rw [groupByTs, hg2]
          show (if e.2.1 = u2 then (u2, (e.1, e.2.2) :: grp2) :: gs2
            else (e.2.1, [(e.1, e.2.2)]) :: (u2, grp2) :: gs2) = _
          rw [if_pos he]
        rw [hred]
        exact hrest
      · have hred : groupByTs (e :: (j2, u2, w2) :: rest2) =
            (e.2.1, [(e.1, e.2.2)]) :: (u2, grp2) :: gs2 := by
          rw [groupByTs, hg2]
          show (if e.2.1 = u2 then (u2, (e.1, e.2.2) :: grp2) :: gs2
            else (e.2.1, [(e.1, e.2.2)]) :: (u2, grp2) :: gs2) = _
          rw [if_neg he]
        rw [hred, List.map_cons]
        exact List.chain'_cons.mpr ⟨lt_of_le_of_ne he2 he, hrest⟩

theorem pairwise_mem_cases {A : Type} {R S : A → A → Prop} :
    ∀ (l : List A), l.Pairwise R → l.Pairwise S → ∀ a b, a ∈ l → b ∈ l →
      a = b ∨ (R a b ∧ S a b) ∨ (R b a ∧ S b a) := by
  intro l
  induction l with
  | nil => intro _ _ a b ha; exact absurd ha (List.not_mem_nil a)
  | cons x l ih =>
    intro hR hS a b ha hb
    obtain ⟨hRx, hRl⟩ := List.pairwise_cons.mp hR
    obtain ⟨hSx, hSl⟩ := List.pairwise_cons.mp hS
    rcases List.mem_cons.mp ha with ha' | ha' <;>
      rcases List.mem_cons.mp hb with hb' | hb'
    · exact Or.inl (ha'.trans hb'.symm)
    · exact Or.inr (Or.inl ⟨ha' ▸ hRx b hb', ha' ▸ hSx b hb'⟩)
    · exact Or.inr (Or.inr ⟨hb' ▸ hRx a ha', hb' ▸ hSx a ha'⟩)
    · exact ih hRl hSl a b ha' hb'

/-- The tagged event list of `array_cartesian_map`. -/
def arrayEvents {α : Type} (inputs : List (TimeSeries α)) : List (ℕ × ℕ × α) :=
  inputs.enum.flatMap fun p =>
    p.2.series.map fun e => (p.1, (p.2.start_timestamp + e.1) % 2 ^ 32, e.2)

theorem array_cartesian_map_eq {α β : Type} (inputs : List (TimeSeries α))
    (combine : (ℕ → Option α) → Option β) :
    TimeSeries.array_cartesian_map inputs combine =
      cartesianMapInner (arrayEvents inputs) combine := rfl

theorem arrayEvents_mem {α : Type} (inputs : List (TimeSeries α)) (idx ts : ℕ)
    (v : α) :
    (idx, ts, v) ∈ arrayEvents inputs ↔
      ∃ s, inputs.get? idx = some s ∧
        ∃ o, (o, v) ∈ s.series ∧ ts = (s.start_timestamp + o) % 2 ^ 32 := by
  constructor
  · intro h
    rw [arrayEvents, List.mem_flatMap] at h
    obtain ⟨p, hp, hmem⟩ := h
    rw [List.mem_map] at hmem
    obtain ⟨e, he, heq⟩ := hmem
    simp only [Prod.mk.injEq] at heq
    refine ⟨p.2, ?_, e.1, ?_, heq.2.1.symm⟩
    · rw [← heq.1]
      exact List.mem_enum_iff_get?.mp hp
    · rw [← heq.2.2]
      exact he
  · rintro ⟨s, hs, o, ho, hts⟩
    rw [arrayEvents, List.mem_flatMap]
    refine ⟨(idx, s), List.mem_enum_iff_get?.mpr hs, ?_⟩
    rw [List.mem_map]
    exact ⟨(o, v), ho, by rw [hts]⟩

/-- The wrapping `u16` sum the subtree-size combine closure computes
over the defined entries of the current-value vector (modelled as a
function from input index; `len` is the vector length `input_len`). -/
def curSum (len : ℕ) (cur : ℕ → Option ℕ) : ℕ :=
  ((List.range len).filterMap cur).sum

/-- The combine closure of `calculate_subtree_size`:
`Some(children_series.iter().filter_map(|x| x.copied()).sum::<u16>())`. -/
def sumCombine (len : ℕ) (cur : ℕ → Option ℕ) : Option ℕ :=
  some (curSum len cur % 2 ^ 16)

theorem mem_of_getLast? {A : Type} {l : List A} {x : A} (h : x ∈ l.getLast?) :
    x ∈ l := by
  obtain ⟨hne, heq⟩ := List.mem_getLast?_eq_getLast h
  rw [heq]
  exact List.getLast_mem hne

theorem cartLoop_sorted_mono (B : List ℕ) (hB : B.sum ≤ 65535) :
    ∀ (groups : List (ℕ × List (ℕ × ℕ))) (cur : ℕ → Option ℕ)
      (st? : Option ℕ) (acc : List (ℕ × ℕ)),
      ((groups.map Prod.fst).Chain' (· < ·)) →
      (∀ idx ts v, groupMem groups idx ts v → v ≤ B.getD idx 0) →
      (∀ idx ts1 ts2 v1 v2, groupMem groups idx ts1 v1 →
        groupMem groups idx ts2 v2 → ts1 ≤ ts2 → v1 ≤ v2) →
      (∀ idx a, cur idx = some a → a ≤ B.getD idx 0) →
      (∀ idx a, cur idx = some a → ∀ ts v, groupMem groups idx ts v → a ≤ v) →
      (∀ t1 t2, t1 ∈ groups.map Prod.fst → t2 ∈ groups.map Prod.fst →
        t1 ≤ t2 → t2 - t1 ≤ 65535) →
      (∀ st, st? = some st →
        (∀ tsg ∈ groups.map Prod.fst, st ≤ tsg ∧ tsg - st ≤ 65535) ∧
        (∀ e ∈ acc, Prod.fst e ≤ 65535 ∧
          (∀ tsg ∈ groups.map Prod.fst, Prod.fst e < tsg - st) ∧
          Prod.snd e ≤ curSum B.length cur)) →
      (st? = none → acc = []) →
      offsetsSorted acc → valuesMono acc →
      offsetsSorted (cartLoop (sumCombine B.length) groups cur st? acc).2 ∧
        valuesMono (cartLoop (sumCombine B.length) groups cur st? acc).2 := by
  intro groups
  induction groups with
  | nil =>
    intro cur st? acc _ _ _ _ _ _ _ _ hso hvm
    exact ⟨hso, hvm⟩
  | cons g rest ih =>
    obtain ⟨ts, grp⟩ := g
    intro cur st? acc hsorted hdomG hpim hdomC hfut hwin hsome hnone hso hvm
    have hmemG : ∀ idx v, (idx, v) ∈ grp → groupMem ((ts, grp) :: rest) idx ts v :=
      fun idx v h => ⟨(ts, grp), List.mem_cons_self _ _, rfl, h⟩
    have hlift : ∀ idx ts' v, groupMem rest idx ts' v →
        groupMem ((ts, grp) :: rest) idx ts' v := by
      rintro idx ts' v ⟨g, hg, h1, h2⟩
      exact ⟨g, List.mem_cons_of_mem _ hg, h1, h2⟩
    have hsorted' : (rest.map Prod.fst).Chain' (· < ·) := by
      rw [List.map_cons] at hsorted
      exact hsorted.tail
    have htslt : ∀ tsg ∈ rest.map Prod.fst, ts < tsg := by
      rw [List.map_cons] at hsorted
      exact fun tsg h =>
        List.rel_of_pairwise_cons (List.chain'_iff_pairwise.mp hsorted) h
    have hts_of_mem : ∀ idx ts' v', groupMem rest idx ts' v' →
        ts' ∈ rest.map Prod.fst := by
      rintro idx ts' v' ⟨g, hg, h1, _⟩
      rw [← h1]
      exact List.mem_map_of_mem Prod.fst hg
    have hdom' : ∀ idx a, applyGroup cur grp idx = some a → a ≤ B.getD idx 0 := by
      intro idx a ha
      rcases applyGroup_cases grp cur idx with h | ⟨v, hv, h⟩
      · exact hdomC idx a (by rw [← h]; exact ha)
      · exact Option.some.inj (h.symm.trans ha) ▸ hdomG idx ts v (hmemG idx v hv)
    have hgrow : ∀ idx a, cur idx = some a →
        ∃ b, applyGroup cur grp idx = some b ∧ a ≤ b := by
      intro idx a ha
      rcases applyGroup_cases grp cur idx with h | ⟨v, hv, h⟩
      · exact ⟨a, by rw [h]; exact ha, le_refl a⟩
      · exact ⟨v, h, hfut idx a ha ts v (hmemG idx v hv)⟩
    have hsum_mono : curSum B.length cur ≤ curSum B.length (applyGroup cur grp) :=
      sum_filterMap_growth _ cur _ hgrow
    have hsum_le : curSum B.length (applyGroup cur grp) ≤ 65535 :=
      le_trans (sum_filterMap_range_le B _ hdom') hB
    have hmod : curSum B.length (applyGroup cur grp) % 2 ^ 16 =
        curSum B.length (applyGroup cur grp) :=
      Nat.mod_eq_of_lt (lt_of_le_of_lt hsum_le (by norm_num))
    have hfut' : ∀ idx a, applyGroup cur grp idx = some a →
        ∀ ts' v', groupMem rest idx ts' v' → a ≤ v' := by
      intro idx a ha ts' v' hm
      rcases applyGroup_cases grp cur idx with h | ⟨v, hv, h⟩
      · exact hfut idx a (by rw [← h]; exact ha) ts' v' (hlift _ _ _ hm)
      · exact Option.some.inj (h.symm.trans ha) ▸
          hpim idx ts ts' v v' (hmemG idx v hv) (hlift _ _ _ hm)
            (le_of_lt (htslt ts' (hts_of_mem idx ts' v' hm)))
    have hdomG' : ∀ idx ts' v, groupMem rest idx ts' v → v ≤ B.getD idx 0 :=
      fun idx ts' v h => hdomG idx ts' v (hlift _ _ _ h)
    have hpim' : ∀ idx t1 t2 v1 v2, groupMem rest idx t1 v1 →
        groupMem rest idx t2 v2 → t1 ≤ t2 → v1 ≤ v2 :=
      fun idx t1 t2 v1 v2 h1 h2 h12 =>
        hpim idx t1 t2 v1 v2 (hlift _ _ _ h1) (hlift _ _ _ h2) h12
    have hwin' : ∀ t1 t2, t1 ∈ rest.map Prod.fst → t2 ∈ rest.map Prod.fst →
        t1 ≤ t2 → t2 - t1 ≤ 65535 :=
      fun t1 t2 h1 h2 h12 =>
        hwin t1 t2 (by rw [List.map_cons]; exact List.mem_cons_of_mem _ h1)
          (by rw [List.map_cons]; exact List.mem_cons_of_mem _ h2) h12
    have hstep : cartLoop (sumCombine B.length) ((ts, grp) :: rest) cur st? acc =
        cartLoop (sumCombine B.length) rest (applyGroup cur grp) (some (st?.getD ts))
          (acc ++ [((ts - st?.getD ts) % 2 ^ 16,
            curSum B.length (applyGroup cur grp) % 2 ^ 16)]) := rfl
    rw [hstep]
    cases st? with
    | none =>
      have hacc : acc = [] := hnone rfl
      subst hacc
      refine ih (applyGroup cur grp) (some ts) _ hsorted' hdomG' hpim' hdom' hfut'
        hwin' ?_ (fun h => absurd h (by simp)) ?_ ?_
      · intro st hst
        cases hst
        refine ⟨?_, ?_⟩
        · intro tsg htsg
          have hlt := htslt tsg htsg
          exact ⟨le_of_lt hlt,
            hwin ts tsg (by rw [List.map_cons]; exact List.mem_cons_self _ _)
              (by rw [List.map_cons]; exact List.mem_cons_of_mem _ htsg)
              (le_of_lt hlt)⟩
        · intro e he
          rw [List.nil_append, List.mem_singleton] at he
          subst he
          refine ⟨?_, ?_, ?_⟩
          · show (ts - ts) % 2 ^ 16 ≤ 65535
            rw [Nat.sub_self, Nat.zero_mod]
            exact Nat.zero_le _
          · intro tsg htsg
            show (ts - ts) % 2 ^ 16 < tsg - ts
            rw [Nat.sub_self, Nat.zero_mod]
            exact Nat.sub_pos_of_lt (htslt tsg htsg)
          · show curSum B.length (applyGroup cur grp) % 2 ^ 16 ≤
              curSum B.length (applyGroup cur grp)
            rw [hmod]
      · rw [List.nil_append]
        exact List.chain'_singleton _
      · rw [List.nil_append]
        exact List.chain'_singleton _
    | some st =>
      obtain ⟨hstg, haccF⟩ := hsome st rfl
      have hhead := hstg ts (by rw [List.map_cons]; exact List.mem_cons_self _ _)
      have hoffmod : (ts - st) % 2 ^ 16 = ts - st :=
        Nat.mod_eq_of_lt (lt_of_le_of_lt hhead.2 (by norm_num))
      refine ih (applyGroup cur grp) (some st) _ hsorted' hdomG' hpim' hdom' hfut'
        hwin' ?_ (fun h => absurd h (by simp)) ?_ ?_
      · intro st' hst'
        cases hst'
        refine ⟨fun tsg htsg => hstg tsg
          (by rw [List.map_cons]; exact List.mem_cons_of_mem _ htsg), ?_⟩
        intro e he
        rcases List.mem_append.mp he with hold | hnew
        · obtain ⟨h1, h2, h3⟩ := haccF e hold
          exact ⟨h1, fun tsg htsg => h2 tsg
            (by rw [List.map_cons]; exact List.mem_cons_of_mem _ htsg),
            le_trans h3 hsum_mono⟩
        · rw [List.mem_singleton] at hnew
          subst hnew
          refine ⟨?_, ?_, ?_⟩
          · show (ts - st) % 2 ^ 16 ≤ 65535
            rw [hoffmod]
            exact hhead.2
          · intro tsg htsg
            show (ts - st) % 2 ^ 16 < tsg - st
            rw [hoffmod]
            exact Nat.sub_lt_sub_right hhead.1 (htslt tsg htsg)
          · show curSum B.length (applyGroup cur grp) % 2 ^ 16 ≤
              curSum B.length (applyGroup cur grp)
            rw [hmod]
      · refine List.chain'_append.mpr ⟨hso, List.chain'_singleton _, ?_⟩
        intro x hx y hy
        have hy' := Option.some.inj (Option.mem_def.mp hy).symm
        obtain ⟨_, h2, _⟩ := haccF x (mem_of_getLast? hx)
        rw [hy']
        show x.1 < (ts - st) % 2 ^ 16
        rw [hoffmod]
        exact h2 ts (by rw [List.map_cons]; exact List.mem_cons_self _ _)
      · refine List.chain'_append.mpr ⟨hvm, List.chain'_singleton _, ?_⟩
        intro x hx y hy
        have hy' := Option.some.inj (Option.mem_def.mp hy).symm
        obtain ⟨_, _, h3⟩ := haccF x (mem_of_getLast? hx)
        rw [hy']
        show x.2 ≤ curSum B.length (applyGroup cur grp) % 2 ^ 16
        rw [hmod]
        exact le_trans h3 hsum_mono

theorem groupByTs_ts_mem :
    ∀ (l : List (ℕ × ℕ × ℕ)) (ts : ℕ), ts ∈ (groupByTs l).map Prod.fst →
      ∃ idx v, (idx, ts, v) ∈ l := by
  intro l
  induction l with
  | nil => intro ts h; exact absurd h (by simp [groupByTs])
  | cons e rest ih =>
    intro ts hts
    cases hgr : groupByTs rest with
    | nil =>
      have hred : groupByTs (e :: rest) = [(e.2.1, [(e.1, e.2.2)])] := by
        simp [groupByTs, hgr]
      rw [hred] at hts
      simp only [List.map_cons, List.map_nil, List.mem_singleton] at hts
      subst hts
      exact ⟨e.1, e.2.2, List.mem_cons_self _ _⟩
    | cons g0 gs =>
      obtain ⟨ts0, grp0⟩ := g0
      by_cases he : e.2.1 = ts0
      · have hred : groupByTs (e :: rest) = (ts0, (e.1, e.2.2) :: grp0) :: gs := by
          simp only [groupByTs, hgr, he, if_pos]
        rw [hred, List.map_cons, List.mem_cons] at hts
        have hts' : ts ∈ (groupByTs rest).map Prod.fst := by
          rw [hgr, List.map_cons]
          rcases hts with h | h
          · exact h ▸ List.mem_cons_self _ _
          · exact List.mem_cons_of_mem _ h
        obtain ⟨idx, v, hmem⟩ := ih ts hts'
        exact ⟨idx, v, List.mem_cons_of_mem _ hmem⟩
      · have hred : groupByTs (e :: rest) =
            (e.2.1, [(e.1, e.2.2)]) :: (ts0, grp0) :: gs := by
          simp only [groupByTs, hgr, if_neg he]
        rw [hred, List.map_cons, List.mem_cons] at hts
        rcases hts with h | h
        · subst h
          exact ⟨e.1, e.2.2, List.mem_cons_self _ _⟩
        · obtain ⟨idx, v, hmem⟩ := ih ts (by rw [hgr]; exact h)
          exact ⟨idx, v, List.mem_cons_of_mem _ hmem⟩

instance : IsTotal (ℕ × ℕ × ℕ) (fun a b => a.2.1 ≤ b.2.1) :=
  ⟨fun a b => Nat.le_total _ _⟩

instance : IsTrans (ℕ × ℕ × ℕ) (fun a b => a.2.1 ≤ b.2.1) :=
  ⟨fun _ _ _ h1 h2 => Nat.le_trans h1 h2⟩

/-- The output of `cartesian_map_inner` under the subtree combine is a
sorted, payload-monotone series, provided event values are dominated by
per-input bounds summing below `u16::MAX`, per-input values grow with
the timestamp, and all event times fit one `u16` window. -/
theorem cartesianMapInner_sorted_mono (B : List ℕ) (hB : B.sum ≤ 65535)
    (events : List (ℕ × ℕ × ℕ))
    (hdom : ∀ idx ts v, (idx, ts, v) ∈ events → v ≤ B.getD idx 0)
    (hpim : ∀ idx ts1 ts2 v1 v2, (idx, ts1, v1) ∈ events →
      (idx, ts2, v2) ∈ events → ts1 ≤ ts2 → v1 ≤ v2)
    (hwin : ∀ t1 t2, (∃ i v, (i, t1, v) ∈ events) → (∃ i v, (i, t2, v) ∈ events) →
      t1 ≤ t2 → t2 - t1 ≤ 65535)
    (out : TimeSeries ℕ)
    (hout : cartesianMapInner events (sumCombine B.length) = some out) :
    offsetsSorted out.series ∧ valuesMono out.series := by
  have hperm := List.perm_insertionSort
    (fun e1 e2 : ℕ × ℕ × ℕ => e1.2.1 ≤ e2.2.1) events
  have hmemiff : ∀ e : ℕ × ℕ × ℕ,
      e ∈ List.insertionSort (fun e1 e2 : ℕ × ℕ × ℕ => e1.2.1 ≤ e2.2.1) events ↔
        e ∈ events := fun e => hperm.mem_iff
  have hsortedl : (List.insertionSort
      (fun e1 e2 : ℕ × ℕ × ℕ => e1.2.1 ≤ e2.2.1) events).Chain'
        (fun a b => a.2.1 ≤ b.2.1) :=
    (List.sorted_insertionSort _ events).chain'
  have hgsorted := groupByTs_sorted _ hsortedl
  have hgmem : ∀ idx ts v, groupMem (groupByTs (List.insertionSort
      (fun e1 e2 : ℕ × ℕ × ℕ => e1.2.1 ≤ e2.2.1) events)) idx ts v →
        (idx, ts, v) ∈ events := by
    rintro idx ts v ⟨g, hg, h1, h2⟩
    exact (hmemiff _).mp (groupByTs_mem _ ts g.2 idx v (by rw [← h1]; exact hg) h2)
  have hgts : ∀ ts, ts ∈ (groupByTs (List.insertionSort
      (fun e1 e2 : ℕ × ℕ × ℕ => e1.2.1 ≤ e2.2.1) events)).map Prod.fst →
        ∃ i v, (i, ts, v) ∈ events := by
    intro ts h
    obtain ⟨i, v, hm⟩ := groupByTs_ts_mem _ ts h
    exact ⟨i, v, (hmemiff _).mp hm⟩
  have hloop := cartLoop_sorted_mono B hB
    (groupByTs (List.insertionSort
      (fun e1 e2 : ℕ × ℕ × ℕ => e1.2.1 ≤ e2.2.1) events))
    (fun _ => none) none []
    hgsorted
    (fun idx ts v h => hdom idx ts v (hgmem idx ts v h))
    (fun idx t1 t2 v1 v2 h1 h2 h12 =>
      hpim idx t1 t2 v1 v2 (hgmem _ _ _ h1) (hgmem _ _ _ h2) h12)
    (fun idx a h => absurd h (by simp))
    (fun idx a h => absurd h (by simp))
    (fun t1 t2 h1 h2 h12 => hwin t1 t2 (hgts t1 h1) (hgts t2 h2) h12)
    (fun st h => absurd h (by simp))
    (fun _ => rfl)
    List.chain'_nil List.chain'_nil
  rcases hcl : cartLoop (sumCombine B.length)
      (groupByTs (List.insertionSort
        (fun e1 e2 : ℕ × ℕ × ℕ => e1.2.1 ≤ e2.2.1) events))
      (fun _ => none) none [] with ⟨st?, ser⟩
  simp only [cartesianMapInner] at hout
  rw [hcl] at hloop hout
  cases st? with
  | none =>
    have hx : (none : Option (TimeSeries ℕ)) = some out := hout
    exact absurd hx (by simp)
  | some st =>
    have hx : some (⟨st, ser⟩ : TimeSeries ℕ) = some out := hout
    have hos : out = ⟨st, ser⟩ := (Option.some.inj hx).symm
    rw [hos]
    exact hloop

/-! ## C9: the `subtree_size_series` step function is non-decreasing -/

theorem chain_total {n : ℕ} (g : BlockGraph n) (j a b : Fin (n + 1)) :
    a ∈ chain g j → b ∈ chain g j → a ∈ chain g b ∨ b ∈ chain g a := by
  intro ha hb
  cases hp : g.parent j with
  | none =>
    rw [chain_of_root g hp] at ha hb
    rw [List.mem_singleton.mp ha, List.mem_singleton.mp hb]
    exact Or.inl (mem_chain_self g _)
  | some p =>
    rw [chain_of_parent g hp] at ha hb
    rcases List.mem_cons.mp ha with rfl | ha'
    · rcases List.mem_cons.mp hb with rfl | hb'
      · exact Or.inl (mem_chain_self g _)
      · exact Or.inr (by rw [chain_of_parent g hp]; exact List.mem_cons_of_mem _ hb')
    · rcases List.mem_cons.mp hb with rfl | hb'
      · exact Or.inl (by rw [chain_of_parent g hp]; exact List.mem_cons_of_mem _ ha')
      · have hlt : (p : ℕ) < (j : ℕ) := g.parent_lt j p hp
        exact chain_total g p a b ha' hb'
termination_by (j : ℕ)
decreasing_by exact hlt

/-- The descendants of `i`: blocks whose ancestor chain passes through
`i` (including `i` itself). -/
def desc {n : ℕ} (g : BlockGraph n) (i : Fin (n + 1)) : Finset (Fin (n + 1)) :=
  Finset.univ.filter fun j => i ∈ chain g j

theorem mem_desc {n : ℕ} {g : BlockGraph n} {i j : Fin (n + 1)} :
    j ∈ desc g i ↔ i ∈ chain g j := by
  simp [desc]

theorem desc_disjoint {n : ℕ} (g : BlockGraph n) {i c1 c2 : Fin (n + 1)}
    (h1 : c1 ∈ children g i) (h2 : c2 ∈ children g i) (hne : c1 ≠ c2) :
    Disjoint (desc g c1) (desc g c2) := by
  rw [Finset.disjoint_left]
  intro j hj1 hj2
  have hc1 := mem_desc.mp hj1
  have hc2 := mem_desc.mp hj2
  have hkey : ∀ a b : Fin (n + 1), a ∈ children g i → b ∈ children g i →
      a ≠ b → b ∈ chain g a → False := by
    intro a b hha hhb hab hmem
    rw [chain_of_parent g (mem_children.mp hha)] at hmem
    rcases List.mem_cons.mp hmem with h | h
    · exact hab h.symm
    · exact absurd (mem_chain_le g i b h) (not_le.mpr (children_id_lt hhb))
  rcases chain_total g j c1 c2 hc1 hc2 with h | h
  · exact hkey c2 c1 h2 h1 (fun he => hne he.symm) h
  · exact hkey c1 c2 h1 h2 hne h

theorem children_nodup {n : ℕ} (g : BlockGraph n) (i : Fin (n + 1)) :
    (children g i).Nodup :=
  (List.nodup_finRange (n + 1)).filter _

theorem desc_child_subset {n : ℕ} (g : BlockGraph n) {i c : Fin (n + 1)}
    (hc : c ∈ children g i) : desc g c ⊆ desc g i := by
  intro j hj
  rw [mem_desc] at hj ⊢
  refine chain_trans g j c i hj ?_
  rw [chain_of_parent g (mem_children.mp hc)]
  exact List.mem_cons_of_mem _ (mem_chain_self g i)

theorem subtreeSpec_le_card {n : ℕ} (g : BlockGraph n) (i : Fin (n + 1)) :
    subtreeSpec g i ≤ (desc g i).card := by
  rw [subtreeSpec_eq]
  have hrec : ∀ c ∈ children g i, subtreeSpec g c ≤ (desc g c).card := by
    intro c hc
    have := children_id_lt hc
    exact subtreeSpec_le_card g c
  have hsum1 : ((children g i).map (subtreeSpec g)).sum ≤
      ((children g i).map fun c => (desc g c).card).sum :=
    List.sum_le_sum fun c hc => hrec c hc
  have hsum2 : ((children g i).map fun c => (desc g c).card).sum =
      ∑ c ∈ (children g i).toFinset, (desc g c).card := by
    rw [List.sum_toFinset _ (children_nodup g i)]
  have hdisj : ∀ c1 ∈ (children g i).toFinset, ∀ c2 ∈ (children g i).toFinset,
      c1 ≠ c2 → Disjoint (desc g c1) (desc g c2) := by
    intro c1 hc1 c2 hc2 hne
    exact desc_disjoint g (List.mem_toFinset.mp hc1) (List.mem_toFinset.mp hc2) hne
  have hcard : ((children g i).toFinset.biUnion fun c => desc g c).card =
      ∑ c ∈ (children g i).toFinset, (desc g c).card :=
    Finset.card_biUnion hdisj
  have hnotmem : i ∉ (children g i).toFinset.biUnion fun c => desc g c := by
    intro hmem
    obtain ⟨c, hc, hic⟩ := Finset.mem_biUnion.mp hmem
    exact absurd (mem_chain_le g i c (mem_desc.mp hic))
      (not_le.mpr (children_id_lt (List.mem_toFinset.mp hc)))
  have hsubset : insert i ((children g i).toFinset.biUnion fun c => desc g c) ⊆
      desc g i := by
    intro j hj
    rcases Finset.mem_insert.mp hj with rfl | hj'
    · exact mem_desc.mpr (mem_chain_self g j)
    · obtain ⟨c, hc, hic⟩ := Finset.mem_biUnion.mp hj'
      exact desc_child_subset g (List.mem_toFinset.mp hc) hic
  calc 1 + ((children g i).map (subtreeSpec g)).sum
      ≤ 1 + ((children g i).toFinset.biUnion fun c => desc g c).card := by
        rw [hcard, ← hsum2]; exact Nat.add_le_add_left hsum1 1
    _ = (insert i ((children g i).toFinset.biUnion fun c => desc g c)).card := by
        rw [Finset.card_insert_of_not_mem hnotmem, Nat.add_comm]
    _ ≤ (desc g i).card := Finset.card_le_card hsubset
termination_by (n + 1) - (i : ℕ)
decreasing_by omega

theorem subtreeSpec_le {n : ℕ} (g : BlockGraph n) (i : Fin (n + 1)) :
    subtreeSpec g i ≤ n + 1 := by
  refine le_trans (subtreeSpec_le_card g i) ?_
  refine le_trans (Finset.card_filter_le _ _) ?_
  rw [Finset.card_univ, Fintype.card_fin]

/-- The block's own contribution to `subtree_timeseries`: a single
point at `log_timestamp` when it is positive, nothing otherwise. -/
def ownSeries {n : ℕ} (g : BlockGraph n) (i : Fin (n + 1)) :
    List (TimeSeries ℕ) :=
  if 0 < g.logTs i then [TimeSeries.new (g.logTs i) 1] else []

/-- The children loop of the series recursion, abstracted over the
recursive call (`for child_hash in &block.children { ... push(child_series) }`). -/
def seriesChildrenAux {n : ℕ} (f : Fin (n + 1) → Option (TimeSeries ℕ)) :
    List (Fin (n + 1)) → Option (List (TimeSeries ℕ))
  | [] => some []
  | j :: rest =>
    (f j).bind fun s => (seriesChildrenAux f rest).map fun cs => s :: cs

/-- The series half of `calculate_subtree_size`, with fuel for the
memoized recursion depth (child ids strictly increase, so `n + 1` fuel
always suffices; the theorems below condition on a `some` result).  The
own log point (if `log_timestamp > 0`) is followed by the children
series, combined by the wrapping `u16` sum and `reduce`d; a `none`
(panicking) subcall propagates. -/
def subtreeSeriesF {n : ℕ} (g : BlockGraph n) :
    ℕ → Fin (n + 1) → Option (TimeSeries ℕ)
  | 0, _ => none
  | fuel + 1, i =>
    (seriesChildrenAux (subtreeSeriesF g fuel) (children g i)).bind fun cs =>
      (TimeSeries.array_cartesian_map (ownSeries g i ++ cs)
        (sumCombine (ownSeries g i ++ cs).length)).map fun ser => ser.reduce

/-- The `subtree_size_series` the finalizer stores for block `i`
(`none` when the unwrap inside `array_cartesian_map` panics). -/
def subtreeSeries {n : ℕ} (g : BlockGraph n) (i : Fin (n + 1)) :
    Option (TimeSeries ℕ) :=
  subtreeSeriesF g (n + 1) i

/-- What a well-formed cartesian input with per-value bound `b` looks
like: sorted, payload-monotone, values `≤ b`, all absolute times within
`[T, T + 65535]`. -/
def InputOK (T b : ℕ) (s : TimeSeries ℕ) : Prop :=
  offsetsSorted s.series ∧ valuesMono s.series ∧
    (∀ e ∈ s.series, Prod.snd e ≤ b) ∧
    (∀ e ∈ s.series, T ≤ s.start_timestamp + Prod.fst e ∧
      s.start_timestamp + Prod.fst e ≤ T + 65535)

/-- `SeriesOK g T i s`: the stored series of block `i` is sorted,
monotone, bounded by the subtree size, and lives in the log window. -/
def SeriesOK {n : ℕ} (g : BlockGraph n) (T : ℕ) (i : Fin (n + 1))
    (s : TimeSeries ℕ) : Prop :=
  InputOK T (subtreeSpec g i) s

theorem forall₂_get? {A C : Type} {R : A → C → Prop} :
    ∀ {l : List A} {cs : List C}, List.Forall₂ R l cs →
      ∀ idx s, cs.get? idx = some s → ∃ b, l.get? idx = some b ∧ R b s := by
  intro l cs h
  induction h with
  | nil => intro idx s h; exact absurd h (by simp)
  | @cons a c l' cs' hac _ ih =>
    intro idx s hs
    cases idx with
    | zero =>
      rw [List.get?_cons_zero] at hs
      exact ⟨a, rfl, Option.some.inj hs ▸ hac⟩
    | succ k =>
      rw [List.get?_cons_succ] at hs
      obtain ⟨b, hb, hr⟩ := ih k s hs
      exact ⟨b, by rw [List.get?_cons_succ]; exact hb, hr⟩

theorem forall₂_map_left {A C D : Type} {R : A → C → Prop} {S : D → C → Prop}
    (f : A → D) (himp : ∀ a c, R a c → S (f a) c) :
    ∀ {l : List A} {cs : List C}, List.Forall₂ R l cs →
      List.Forall₂ S (l.map f) cs := by
  intro l cs h
  induction h with
  | nil => exact List.Forall₂.nil
  | cons hac _ ih => exact List.Forall₂.cons (himp _ _ hac) ih

theorem getD_of_get? {l : List ℕ} {k b : ℕ} (h : l.get? k = some b) :
    l.getD k 0 = b := by
  rw [List.getD_eq_getD_get?, h]
  rfl

theorem cartLoop_bounds (B : List ℕ) (T : ℕ) :
    ∀ (groups : List (ℕ × List (ℕ × ℕ))) (cur : ℕ → Option ℕ)
      (st? : Option ℕ) (acc : List (ℕ × ℕ)),
      (∀ idx ts v, groupMem groups idx ts v → v ≤ B.getD idx 0) →
      (∀ idx a, cur idx = some a → a ≤ B.getD idx 0) →
      (∀ tsg ∈ groups.map Prod.fst, T ≤ tsg ∧ tsg ≤ T + 65535) →
      (∀ st, st? = some st → (T ≤ st ∧ st ≤ T + 65535) ∧
        ∀ e ∈ acc, T ≤ st + Prod.fst e ∧ st + Prod.fst e ≤ T + 65535 ∧
          Prod.snd e ≤ B.sum) →
      (st? = none → acc = []) →
      ∀ st, (cartLoop (sumCombine B.length) groups cur st? acc).1 = some st →
        (T ≤ st ∧ st ≤ T + 65535) ∧
        ∀ e ∈ (cartLoop (sumCombine B.length) groups cur st? acc).2,
          T ≤ st + Prod.fst e ∧ st + Prod.fst e ≤ T + 65535 ∧
            Prod.snd e ≤ B.sum := by
  intro groups
  induction groups with
  | nil =>
    intro cur st? acc _ _ _ hsome _ st hst
    exact hsome st hst
  | cons g rest ih =>
    obtain ⟨ts, grp⟩ := g
    intro cur st? acc hdomG hdomC hTwin hsome hnone st hst
    have hmemG : ∀ idx v, (idx, v) ∈ grp → groupMem ((ts, grp) :: rest) idx ts v :=
      fun idx v h => ⟨(ts, grp), List.mem_cons_self _ _, rfl, h⟩
    have hdom' : ∀ idx a, applyGroup cur grp idx = some a → a ≤ B.getD idx 0 := by
      intro idx a ha
      rcases applyGroup_cases grp cur idx with h | ⟨v, hv, h⟩
      · exact hdomC idx a (by rw [← h]; exact ha)
      · exact Option.some.inj (h.symm.trans ha) ▸ hdomG idx ts v (hmemG idx v hv)
    have hsum_le : curSum B.length (applyGroup cur grp) ≤ B.sum :=
      sum_filterMap_range_le B _ hdom'
    have hdomG' : ∀ idx ts' v, groupMem rest idx ts' v → v ≤ B.getD idx 0 := by
      rintro idx ts' v ⟨gg, hg, h1, h2⟩
      exact hdomG idx ts' v ⟨gg, List.mem_cons_of_mem _ hg, h1, h2⟩
    have hTwin' : ∀ tsg ∈ rest.map Prod.fst, T ≤ tsg ∧ tsg ≤ T + 65535 :=
      fun tsg h => hTwin tsg (by rw [List.map_cons]; exact List.mem_cons_of_mem _ h)
    have hTts : T ≤ ts ∧ ts ≤ T + 65535 :=
      hTwin ts (by rw [List.map_cons]; exact List.mem_cons_self _ _)
    have hstep : cartLoop (sumCombine B.length) ((ts, grp) :: rest) cur st? acc =
        cartLoop (sumCombine B.length) rest (applyGroup cur grp) (some (st?.getD ts))
          (acc ++ [((ts - st?.getD ts) % 2 ^ 16,
            curSum B.length (applyGroup cur grp) % 2 ^ 16)]) := rfl
    rw [hstep] at hst ⊢
    cases st? with
    | none =>
      have hacc : acc = [] := hnone rfl
      subst hacc
      refine ih (applyGroup cur grp) (some ts) _ hdomG' hdom' hTwin' ?_
        (fun h => absurd h (by simp)) st hst
      intro st' hst'
      cases hst'
      refine ⟨hTts, ?_⟩
      intro e he
      rw [List.nil_append, List.mem_singleton] at he
      subst he
      refine ⟨?_, ?_, ?_⟩
      · show T ≤ ts + (ts - ts) % 2 ^ 16
        rw [Nat.sub_self, Nat.zero_mod]
        exact le_trans hTts.1 (Nat.le_add_right _ _)
      · show ts + (ts - ts) % 2 ^ 16 ≤ T + 65535
        rw [Nat.sub_self, Nat.zero_mod]
        exact hTts.2
      · show curSum B.length (applyGroup cur grp) % 2 ^ 16 ≤ B.sum
        exact le_trans (Nat.mod_le _ _) hsum_le
    | some st0 =>
      obtain ⟨hst0, haccF⟩ := hsome st0 rfl
      have hoffle : ts - st0 ≤ 65535 := by omega
      have hoffmod : (ts - st0) % 2 ^ 16 = ts - st0 :=
        Nat.mod_eq_of_lt (by omega)
      refine ih (applyGroup cur grp) (some st0) _ hdomG' hdom' hTwin' ?_
        (fun h => absurd h (by simp)) st hst
      intro st' hst'
      cases hst'
      refine ⟨hst0, ?_⟩
      intro e he
      rcases List.mem_append.mp he with hold | hnew
      · exact haccF e hold
      · rw [List.mem_singleton] at hnew
        subst hnew
        refine ⟨?_, ?_, ?_⟩
        · show T ≤ st0 + (ts - st0) % 2 ^ 16
          exact le_trans hst0.1 (Nat.le_add_right _ _)
        · show st0 + (ts - st0) % 2 ^ 16 ≤ T + 65535
          rw [hoffmod]
          omega
        · show curSum B.length (applyGroup cur grp) % 2 ^ 16 ≤ B.sum
          exact le_trans (Nat.mod_le _ _) hsum_le

theorem cartesianMapInner_bounds (B : List ℕ) (T : ℕ)
    (events : List (ℕ × ℕ × ℕ))
    (hdom : ∀ idx ts v, (idx, ts, v) ∈ events → v ≤ B.getD idx 0)
    (hTwin : ∀ idx ts v, (idx, ts, v) ∈ events → T ≤ ts ∧ ts ≤ T + 65535)
    (out : TimeSeries ℕ)
    (hout : cartesianMapInner events (sumCombine B.length) = some out) :
    (T ≤ out.start_timestamp ∧ out.start_timestamp ≤ T + 65535) ∧
    ∀ e ∈ out.series, T ≤ out.start_timestamp + Prod.fst e ∧
      out.start_timestamp + Prod.fst e ≤ T + 65535 ∧ Prod.snd e ≤ B.sum := by
  have hperm := List.perm_insertionSort
    (fun e1 e2 : ℕ × ℕ × ℕ => e1.2.1 ≤ e2.2.1) events
  have hgmem : ∀ idx ts v, groupMem (groupByTs (List.insertionSort
      (fun e1 e2 : ℕ × ℕ × ℕ => e1.2.1 ≤ e2.2.1) events)) idx ts v →
        (idx, ts, v) ∈ events := by
    rintro idx ts v ⟨g, hg, h1, h2⟩
    exact hperm.mem_iff.mp (groupByTs_mem _ ts g.2 idx v (by rw [← h1]; exact hg) h2)
  have hgts : ∀ ts, ts ∈ (groupByTs (List.insertionSort
      (fun e1 e2 : ℕ × ℕ × ℕ => e1.2.1 ≤ e2.2.1) events)).map Prod.fst →
        T ≤ ts ∧ ts ≤ T + 65535 := by
    intro ts h
    obtain ⟨i, v, hm⟩ := groupByTs_ts_mem _ ts h
    exact hTwin i ts v (hperm.mem_iff.mp hm)
  have hloop := cartLoop_bounds B T
    (groupByTs (List.insertionSort
      (fun e1 e2 : ℕ × ℕ × ℕ => e1.2.1 ≤ e2.2.1) events))
    (fun _ => none) none []
    (fun idx ts v h => hdom idx ts v (hgmem idx ts v h))
    (fun idx a h => absurd h (by simp))
    hgts
    (fun st h => absurd h (by simp))
    (fun _ => rfl)
  rcases hcl : cartLoop (sumCombine B.length)
      (groupByTs (List.insertionSort
        (fun e1 e2 : ℕ × ℕ × ℕ => e1.2.1 ≤ e2.2.1) events))
      (fun _ => none) none [] with ⟨st?, ser⟩
  simp only [cartesianMapInner] at hout
  rw [hcl] at hloop hout
  cases st? with
  | none =>
    have hx : (none : Option (TimeSeries ℕ)) = some out := hout
    exact absurd hx (by simp)
  | some st =>
    have hx : some (⟨st, ser⟩ : TimeSeries ℕ) = some out := hout
    have hos : out = ⟨st, ser⟩ := (Option.some.inj hx).symm
    rw [hos]
    exact hloop st rfl

theorem arrayEvents_facts (T : ℕ) (h32 : T + 65535 < 2 ^ 32)
    (B : List ℕ) (inputs : List (TimeSeries ℕ))
    (hok : List.Forall₂ (InputOK T) B inputs) :
    (∀ idx ts v, (idx, ts, v) ∈ arrayEvents inputs → v ≤ B.getD idx 0) ∧
    (∀ idx ts v, (idx, ts, v) ∈ arrayEvents inputs → T ≤ ts ∧ ts ≤ T + 65535) ∧
    (∀ idx t1 t2 v1 v2, (idx, t1, v1) ∈ arrayEvents inputs →
      (idx, t2, v2) ∈ arrayEvents inputs → t1 ≤ t2 → v1 ≤ v2) := by
  have hkey : ∀ idx ts v, (idx, ts, v) ∈ arrayEvents inputs →
      ∃ b s o, B.get? idx = some b ∧ inputs.get? idx = some s ∧ InputOK T b s ∧
        (o, v) ∈ s.series ∧ ts = s.start_timestamp + o := by
    intro idx ts v h
    obtain ⟨s, hs, o, ho, hts⟩ := (arrayEvents_mem inputs idx ts v).mp h
    obtain ⟨b, hb, hr⟩ := forall₂_get? hok idx s hs
    have habs := hr.2.2.2 (o, v) ho
    have hmod : (s.start_timestamp + o) % 2 ^ 32 = s.start_timestamp + o :=
      Nat.mod_eq_of_lt (lt_of_le_of_lt habs.2 h32)
    exact ⟨b, s, o, hb, hs, hr, ho, by rw [hts, hmod]⟩
  refine ⟨?_, ?_, ?_⟩
  · intro idx ts v h
    obtain ⟨b, s, o, hb, _, hr, ho, _⟩ := hkey idx ts v h
    rw [getD_of_get? hb]
    exact hr.2.2.1 (o, v) ho
  · intro idx ts v h
    obtain ⟨b, s, o, _, _, hr, ho, hts⟩ := hkey idx ts v h
    rw [hts]
    exact hr.2.2.2 (o, v) ho
  · intro idx t1 t2 v1 v2 h1 h2 h12
    obtain ⟨b, s, o1, hb, hsg, hr, ho1, ht1⟩ := hkey idx t1 v1 h1
    obtain ⟨b', s', o2, hb', hsg', hr', ho2, ht2⟩ := hkey idx t2 v2 h2
    have hss : s = s' := Option.some.inj (hsg.symm.trans hsg')
    subst hss
    have ho12 : o1 ≤ o2 := by
      rw [ht1, ht2] at h12
      omega
    have hp1 : s.series.Pairwise (fun a b => Prod.fst a < Prod.fst b) :=
      List.chain'_iff_pairwise.mp hr.1
    have hp2 : s.series.Pairwise (fun a b => Prod.snd a ≤ Prod.snd b) :=
      List.chain'_iff_pairwise.mp hr.2.1
    rcases pairwise_mem_cases s.series hp1 hp2 (o1, v1) (o2, v2) ho1 ho2 with
      heq | h | h
    · injection heq with hh1 hh2
      exact le_of_eq hh2
    · exact h.2
    · exact absurd ho12 (not_le.mpr h.1)

theorem reduce_abs (s : TimeSeries ℕ) (hs : offsetsSorted s.series) :
    ∀ e ∈ s.reduce.series, ∃ o', (o', Prod.snd e) ∈ s.series ∧
      s.reduce.start_timestamp + Prod.fst e = s.start_timestamp + o' := by
  unfold TimeSeries.reduce
  cases hser : s.series with
  | nil =>
    intro e he
    have he' : e ∈ s.series := he
    rw [hser] at he'
    exact absurd he' (List.not_mem_nil e)
  | cons e0 rest =>
    obtain ⟨off0, v0⟩ := e0
    intro e he
    rw [List.mem_map] at he
    obtain ⟨a, ha, hae⟩ := he
    have hasub : a ∈ (off0, v0) :: rest :=
      ((dedupFrom_sublist rest v0).cons₂ _).subset ha
    have hoff : off0 ≤ a.1 := by
      rcases List.mem_cons.mp ha with h | h
      · rw [h]
      · rw [hser] at hs
        exact le_of_lt (List.rel_of_pairwise_cons (List.chain'_iff_pairwise.mp hs)
          ((dedupFrom_sublist rest v0).subset h))
    refine ⟨a.1, ?_, ?_⟩
    · rw [← hae]
      show (a.1, a.2) ∈ (off0, v0) :: rest
      exact hasub
    · rw [← hae]
      show s.start_timestamp + off0 + (a.1 - off0) = s.start_timestamp + a.1
      omega

/-- Per-input value bounds for the cartesian call at block `i`: 1 for
the own point, the child's subtree size for each child series. -/
def boundsList {n : ℕ} (g : BlockGraph n) (i : Fin (n + 1)) : List ℕ :=
  (if 0 < g.logTs i then [1] else []) ++ (children g i).map (subtreeSpec g)

theorem boundsList_sum {n : ℕ} (g : BlockGraph n) (i : Fin (n + 1)) :
    (boundsList g i).sum ≤ subtreeSpec g i := by
  unfold boundsList
  rw [List.sum_append, subtreeSpec_eq]
  by_cases hlog : 0 < g.logTs i
  · rw [if_pos hlog]
    simp
  · rw [if_neg hlog]
    simp

theorem boundsList_len {n : ℕ} (g : BlockGraph n) (i : Fin (n + 1))
    (cs : List (TimeSeries ℕ)) (hlen : (children g i).length = cs.length) :
    (ownSeries g i ++ cs).length = (boundsList g i).length := by
  unfold boundsList ownSeries
  rw [List.length_append, List.length_append, List.length_map, hlen]
  by_cases hlog : 0 < g.logTs i
  · rw [if_pos hlog, if_pos hlog]
    rfl
  · rw [if_neg hlog, if_neg hlog]
    rfl

theorem boundsList_ok {n : ℕ} (g : BlockGraph n) (i : Fin (n + 1)) (T : ℕ)
    (h32 : T + 65535 < 2 ^ 32)
    (hts : ∀ j, 0 < g.logTs j → T ≤ g.logTs j ∧ g.logTs j ≤ T + 65535)
    (cs : List (TimeSeries ℕ))
    (hFor : List.Forall₂ (fun j s => SeriesOK g T j s) (children g i) cs) :
    List.Forall₂ (InputOK T) (boundsList g i) (ownSeries g i ++ cs) := by
  unfold boundsList ownSeries
  refine List.rel_append ?_
    (forall₂_map_left (subtreeSpec g) (fun j s hh => hh) hFor)
  by_cases hlog : 0 < g.logTs i
  · rw [if_pos hlog, if_pos hlog]
    refine List.Forall₂.cons ?_ List.Forall₂.nil
    obtain ⟨hT1, hT2⟩ := hts i hlog
    have hmod : g.logTs i % 2 ^ 32 = g.logTs i := Nat.mod_eq_of_lt (by omega)
    refine ⟨List.chain'_singleton _, List.chain'_singleton _, ?_, ?_⟩
    · intro e he
      have he' : e = (0, 1) := List.mem_singleton.mp he
      rw [he']
    · intro e he
      have he' : e = (0, 1) := List.mem_singleton.mp he
      rw [he']
      show T ≤ g.logTs i % 2 ^ 32 + 0 ∧ g.logTs i % 2 ^ 32 + 0 ≤ T + 65535
      rw [hmod]
      omega
  · rw [if_neg hlog, if_neg hlog]
    exact List.Forall₂.nil

/-- Every series the fueled recursion produces is sorted, monotone,
bounded by the block's subtree size, and lives in the log window. -/
theorem subtreeSeriesF_ok {n : ℕ} (g : BlockGraph n) (T : ℕ)
    (hn : n + 1 ≤ 65535) (h32 : T + 65535 < 2 ^ 32)
    (hts : ∀ j, 0 < g.logTs j → T ≤ g.logTs j ∧ g.logTs j ≤ T + 65535) :
    ∀ (fuel : ℕ) (i : Fin (n + 1)) (s : TimeSeries ℕ),
      subtreeSeriesF g fuel i = some s → SeriesOK g T i s := by
  intro fuel
  induction fuel with
  | zero =>
    intro i s h
    exact absurd h (by simp [subtreeSeriesF])
  | succ fuel ih =>
    have hQ : ∀ (l : List (Fin (n + 1))) (cs : List (TimeSeries ℕ)),
        seriesChildrenAux (subtreeSeriesF g fuel) l = some cs →
          List.Forall₂ (fun j s => SeriesOK g T j s) l cs := by
      intro l
      induction l with
      | nil =>
        intro cs h
        simp only [seriesChildrenAux] at h
        rw [← Option.some.inj h]
        exact List.Forall₂.nil
      | cons j rest ihl =>
        intro cs h
        simp only [seriesChildrenAux] at h
        rw [Option.bind_eq_some] at h
        obtain ⟨sj, hsj, h2⟩ := h
        rw [Option.map_eq_some'] at h2
        obtain ⟨csr, hcsr, hcons⟩ := h2
        rw [← hcons]
        exact List.Forall₂.cons (ih j sj hsj) (ihl csr hcsr)
    intro i s h
    simp only [subtreeSeriesF] at h
    rw [Option.bind_eq_some] at h
    obtain ⟨cs, hcs, h2⟩ := h
    rw [Option.map_eq_some'] at h2
    obtain ⟨ser, hser, hs2⟩ := h2
    have hFor := hQ (children g i) cs hcs
    have hBsum65 : (boundsList g i).sum ≤ 65535 :=
      le_trans (boundsList_sum g i) (le_trans (subtreeSpec_le g i) hn)
    have hok := boundsList_ok g i T h32 hts cs hFor
    have hlen : (ownSeries g i ++ cs).length = (boundsList g i).length :=
      boundsList_len g i cs hFor.length_eq
    rw [array_cartesian_map_eq, hlen] at hser
    obtain ⟨hdom, hTwin, hpim⟩ :=
      arrayEvents_facts T h32 (boundsList g i) (ownSeries g i ++ cs) hok
    have hchains := cartesianMapInner_sorted_mono (boundsList g i) hBsum65
      (arrayEvents (ownSeries g i ++ cs)) hdom hpim
      (by
        rintro t1 t2 ⟨i1, v1, hm1⟩ ⟨i2, v2, hm2⟩ h12
        have hw1 := hTwin i1 t1 v1 hm1
        have hw2 := hTwin i2 t2 v2 hm2
        omega)
      ser hser
    have hbounds := cartesianMapInner_bounds (boundsList g i) T
      (arrayEvents (ownSeries g i ++ cs)) hdom hTwin ser hser
    rw [← hs2]
    obtain ⟨hred1, hred2⟩ := reduce_chains ser hchains.1 hchains.2
    refine ⟨hred1, hred2, ?_, ?_⟩
    · intro e he
      obtain ⟨o', ho', _⟩ := reduce_abs ser hchains.1 e he
      have := (hbounds.2 (o', Prod.snd e) ho').2.2
      exact le_trans this (le_trans (boundsList_sum g i) (le_refl _))
    · intro e he
      obtain ⟨o', ho', habs⟩ := reduce_abs ser hchains.1 e he
      have hb := hbounds.2 (o', Prod.snd e) ho'
      rw [habs]
      exact ⟨hb.1, hb.2.1⟩

/-- C9.  After the finalizer computes `subtree_size_series`, the stored
series encodes a non-decreasing step function: whenever `at` is defined
at `t1 ≤ t2`, the values are ordered.  Hypotheses: block log timestamps
fit a common `u16` window `[T, T + 65535]` below the `u32` wrap (the
offsets the source stores are `u16` and event times are `u32`), the
block count fits `u16` (so running subtree sums cannot wrap), and the
query times are below the `u32` cast. -/
theorem c9_subtree_series_monotone {n : ℕ} (g : BlockGraph n) (T : ℕ)
    (hn : n + 1 ≤ 65535) (h32 : T + 65535 < 2 ^ 32)
    (hts : ∀ j, 0 < g.logTs j → T ≤ g.logTs j ∧ g.logTs j ≤ T + 65535)
    (i : Fin (n + 1)) (s : TimeSeries ℕ) (hs : subtreeSeries g i = some s)
    (t1 t2 : ℕ) (h12 : t1 ≤ t2) (h2w : t2 < 2 ^ 32) (v1 v2 : ℕ)
    (h1 : s.atTime t1 = some v1) (h2 : s.atTime t2 = some v2) : v1 ≤ v2 := by
  have hok := subtreeSeriesF_ok g T hn h32 hts (n + 1) i s hs
  exact TimeSeries.atTime_mono s hok.2.1 h12 h2w h1 h2

/-- A two-block graph (genesis logged at 100, its child at 101) used to
exercise `c9_subtree_series_monotone` on a concrete run. -/
def c9Graph : BlockGraph 1 where
  parent := fun i => if (i : ℕ) = 0 then none else some ⟨0, by norm_num⟩
  logTs := fun i => if (i : ℕ) = 0 then 100 else 101
  parent_lt := by decide
  parent_none_iff := by decide

theorem c9_witness :
    subtreeSeries c9Graph 0 = some ⟨100, [(0, 1), (1, 2)]⟩ ∧
    (⟨100, [(0, 1), (1, 2)]⟩ : TimeSeries ℕ).atTime 100 = some 1 ∧
    (⟨100, [(0, 1), (1, 2)]⟩ : TimeSeries ℕ).atTime 101 = some 2 ∧
    1 ≤ 2 :=
  ⟨rfl, rfl, rfl,
    c9_subtree_series_monotone c9Graph 100 (by norm_num) (by norm_num)
      (by decide) 0 ⟨100, [(0, 1), (1, 2)]⟩ rfl 100 101 (by norm_num)
      (by norm_num) 1 2 rfl rfl⟩

/-! ## C8: `normal_confirmation_risk` stays in `[0, 1]`

`math/random_walk.rs` and `math/mod.rs`, modelled over exact reals
(f64 rounding and NaN propagation are idealized, as elsewhere in this
development).  The unbounded adaptive loop carries explicit fuel;
`none` models the panicking `assert!` and non-termination. -/

noncomputable def g (s b : ℝ) : ℝ :=
  Real.log (b * Real.exp s + (1 - b) * Real.exp (-s))

noncomputable def log_prob (n k : ℤ) (b s : ℝ) : ℝ :=
  (n : ℝ) * g s b - (k : ℝ) * s

noncomputable def min_s (n k : ℤ) (b : ℝ) : ℝ :=
  0.5 * Real.log ((1 - b) * ((k + n : ℤ) : ℝ) / (b * ((n - k : ℤ) : ℝ)))

noncomputable def min_s_inf (b : ℝ) : ℝ := 0.5 * Real.log ((1 - b) / b)

noncomputable def term_exact (n k : ℤ) (b : ℝ) : ℝ :=
  min (Real.exp (log_prob n k b (min_s n k b))) 1

noncomputable def term_inf_approx (n k : ℤ) (b s_inf : ℝ) : ℝ :=
  min (Real.exp (log_prob n k b s_inf)) 1

noncomputable def geometric_ratio (b : ℝ) : ℝ :=
  2 * Real.sqrt (b * (1 - b))

/-- The adaptive summation loop of `compute_random_walk_prob`: add the
exact term, return 1 when the partial sum reaches 1, and every tenth
`n` try to close with the geometric-tail estimate. -/
noncomputable def rwLoop (k : ℤ) (b s_inf r : ℝ) :
    ℕ → ℝ → ℤ → Option ℝ
  | 0, _, _ => none
  | fuel + 1, sum, current_n =>
    let sum' := sum + term_exact current_n k b
    if 1 ≤ sum' then some 1
    else
      let n' := current_n + 1
      if n' % 10 ≠ 0 then rwLoop k b s_inf r fuel sum' n'
      else
        let approx := term_inf_approx n' k b s_inf
        let accurate := term_exact n' k b
        let relative_error := (approx - accurate) / approx
        let sum_remaining := approx / (1 - r)
        let sum_error := sum_remaining * relative_error
        if (1e-40 : ℝ) < sum_error then rwLoop k b s_inf r fuel sum' n'
        else if sum' + sum_remaining < (1e-80 : ℝ) then some 0
        else if (sum' + sum_remaining) * (1e-8 : ℝ) < sum_error then
          rwLoop k b s_inf r fuel sum' n'
        else some (min (sum' + sum_remaining) 1)

/-- `compute_random_walk_prob`: `none` models the `assert!` panic and
fuel exhaustion (the source loop has no termination guard). -/
noncomputable def compute_random_walk_prob (fuel k adv_percent : ℕ) : Option ℝ :=
  let b : ℝ := (adv_percent : ℝ) / 100
  if ¬(0 ≤ b ∧ b < 0.5) then none
  else if k = 0 then some 0
  else rwLoop (k : ℤ) b (min_s_inf b) (geometric_ratio b) fuel 0 ((k : ℤ) + 1)

/-- Modelled from the spec: the `statrs` negative-binomial pmf with
`r = m + 1` successes of probability `p`,
`pmf(j) = C(m + j, j) p^(m+1) (1-p)^j` (the crate is an external
dependency, not part of this repository's sources). -/
noncomputable def nbPmf (m : ℕ) (p : ℝ) (j : ℕ) : ℝ :=
  ((m + j).choose j : ℝ) * p ^ (m + 1) * (1 - p) ^ j

/-- Modelled from the spec: the `statrs` negative-binomial survival
function `sf(x) = 1 - cdf(x) = 1 - Σ_{j ≤ x} pmf(j)`. -/
noncomputable def nbSf (m : ℕ) (p : ℝ) (x : ℕ) : ℝ :=
  1 - ∑ j ∈ Finset.range (x + 1), nbPmf m p j

/-- Sequence a fallible computation over a list (the risk code computes
`R[0..k]` through `compute_range`; a panic anywhere propagates). -/
def optMap {α : Type} (f : ℕ → Option α) : List ℕ → Option (List α)
  | [] => some []
  | j :: rest => (f j).bind fun x => (optMap f rest).map fun xs => x :: xs

/-- `normal_confirmation_risk`: `Σ_{j<k} pmf(j)·R[k−j] + sf(k)` with
`p = 1 − b/100` (the `f32` downcast is idealized). -/
noncomputable def normal_confirmation_risk (fuel adv_percent m adv : ℕ) :
    Option ℝ :=
  (optMap (fun j => compute_random_walk_prob fuel j adv_percent)
      (List.range (adv + 1))).map fun rwp =>
    (∑ k ∈ Finset.range adv,
      nbPmf m (1 - (adv_percent : ℝ) / 100) k * rwp.getD (adv - k) 0) +
      nbSf m (1 - (adv_percent : ℝ) / 100) adv

theorem term_exact_nonneg (n k : ℤ) (b : ℝ) : 0 ≤ term_exact n k b :=
  le_min (Real.exp_pos _).le zero_le_one

theorem term_inf_approx_nonneg (n k : ℤ) (b s_inf : ℝ) :
    0 ≤ term_inf_approx n k b s_inf :=
  le_min (Real.exp_pos _).le zero_le_one

theorem rwLoop_mem (k : ℤ) (b s_inf r : ℝ) (hr : r < 1) :
    ∀ (fuel : ℕ) (sum : ℝ) (current_n : ℤ), 0 ≤ sum →
      ∀ x, rwLoop k b s_inf r fuel sum current_n = some x →
        0 ≤ x ∧ x ≤ 1 := by
  intro fuel
  induction fuel with
  | zero =>
    intro sum n _ x h
    exact absurd h (by simp [rwLoop])
  | succ fuel ih =>
    intro sum current_n hsum x h
    simp only [rwLoop] at h
    have hsum' : 0 ≤ sum + term_exact current_n k b :=
      add_nonneg hsum (term_exact_nonneg _ _ _)
    have hrem : 0 ≤ term_inf_approx (current_n + 1) k b s_inf / (1 - r) :=
      div_nonneg (term_inf_approx_nonneg _ _ _ _) (by linarith)
    by_cases h1 : (1 : ℝ) ≤ sum + term_exact current_n k b
    · rw [if_pos h1] at h
      rw [← Option.some.inj h]
      exact ⟨zero_le_one, le_refl 1⟩
    rw [if_neg h1] at h
    by_cases h2 : (current_n + 1) % 10 ≠ 0
    · rw [if_pos h2] at h
      exact ih _ _ hsum' x h
    rw [if_neg h2] at h
    by_cases h3 : (1e-40 : ℝ) < term_inf_approx (current_n + 1) k b s_inf / (1 - r) *
        ((term_inf_approx (current_n + 1) k b s_inf - term_exact (current_n + 1) k b) /
          term_inf_approx (current_n + 1) k b s_inf)
    · rw [if_pos h3] at h
      exact ih _ _ hsum' x h
    rw [if_neg h3] at h
    by_cases h4 : sum + term_exact current_n k b +
        term_inf_approx (current_n + 1) k b s_inf / (1 - r) < (1e-80 : ℝ)
    · rw [if_pos h4] at h
      rw [← Option.some.inj h]
      exact ⟨le_refl 0, zero_le_one⟩
    rw [if_neg h4] at h
    by_cases h5 : (sum + term_exact current_n k b +
        term_inf_approx (current_n + 1) k b s_inf / (1 - r)) * (1e-8 : ℝ) <
        term_inf_approx (current_n + 1) k b s_inf / (1 - r) *
        ((term_inf_approx (current_n + 1) k b s_inf - term_exact (current_n + 1) k b) /
          term_inf_approx (current_n + 1) k b s_inf)
    · rw [if_pos h5] at h
      exact ih _ _ hsum' x h
    rw [if_neg h5] at h
    rw [← Option.some.inj h]
    exact ⟨le_min (add_nonneg hsum' hrem) zero_le_one, min_le_right _ _⟩

theorem geometric_ratio_lt_one {b : ℝ} (hb0 : 0 ≤ b) (hb5 : b < 0.5) :
    geometric_ratio b < 1 := by
  unfold geometric_ratio
  have hq : b * (1 - b) < (1 / 2) ^ 2 := by nlinarith
  have := (Real.sqrt_lt' (by norm_num : (0 : ℝ) < 1 / 2)).mpr hq
  linarith

theorem compute_random_walk_prob_mem (fuel k adv_percent : ℕ)
    (h50 : adv_percent < 50) :
    ∀ x, compute_random_walk_prob fuel k adv_percent = some x →
      0 ≤ x ∧ x ≤ 1 := by
  intro x h
  have hb0 : (0 : ℝ) ≤ (adv_percent : ℝ) / 100 :=
    div_nonneg (Nat.cast_nonneg _) (by norm_num)
  have hb5 : (adv_percent : ℝ) / 100 < 0.5 := by
    rw [div_lt_iff (by norm_num : (0 : ℝ) < 100)]
    calc (adv_percent : ℝ) < 50 := by exact_mod_cast h50
      _ = 0.5 * 100 := by norm_num
  simp only [compute_random_walk_prob] at h
  rw [if_neg (not_not_intro ⟨hb0, hb5⟩)] at h
  by_cases hk0 : k = 0
  · rw [if_pos hk0] at h
    rw [← Option.some.inj h]
    exact ⟨le_refl 0, zero_le_one⟩
  · rw [if_neg hk0] at h
    exact rwLoop_mem (k : ℤ) _ _ _ (geometric_ratio_lt_one hb0 hb5) fuel 0 _
      (le_refl 0) x h

theorem nbPmf_nonneg (m : ℕ) {p : ℝ} (hp0 : 0 ≤ p) (hp1 : p ≤ 1) (j : ℕ) :
    0 ≤ nbPmf m p j :=
  mul_nonneg (mul_nonneg (Nat.cast_nonneg _) (pow_nonneg hp0 _))
    (pow_nonneg (by linarith) _)

theorem nb_cdf_le_one (m x : ℕ) {p : ℝ} (hp0 : 0 < p) (hp1 : p ≤ 1) :
    ∑ j ∈ Finset.range (x + 1), nbPmf m p j ≤ 1 := by
  have hq0 : (0 : ℝ) ≤ 1 - p := by linarith
  have hq1 : 1 - p < 1 := by linarith
  have hnorm : ‖(1 - p : ℝ)‖ < 1 := by
    rw [Real.norm_eq_abs, abs_of_nonneg hq0]
    exact hq1
  have hsum : HasSum (fun n : ℕ => ((n + m).choose m : ℝ) * (1 - p) ^ n)
      (1 / (1 - (1 - p)) ^ (m + 1)) :=
    hasSum_choose_mul_geometric_of_norm_lt_one m hnorm
  have hpart : ∑ j ∈ Finset.range (x + 1), ((j + m).choose m : ℝ) * (1 - p) ^ j ≤
      1 / (1 - (1 - p)) ^ (m + 1) :=
    sum_le_hasSum _ (fun i _ =>
      mul_nonneg (Nat.cast_nonneg _) (pow_nonneg hq0 _)) hsum
  have hchoose : ∀ j : ℕ, ((m + j).choose j : ℝ) = ((j + m).choose m : ℝ) := by
    intro j
    congr 1
    rw [Nat.add_comm j m]
    have := @Nat.choose_symm (m + j) j (Nat.le_add_left j m)
    rw [Nat.add_sub_cancel] at this
    exact this.symm
  have hrw : ∑ j ∈ Finset.range (x + 1), nbPmf m p j =
      p ^ (m + 1) * ∑ j ∈ Finset.range (x + 1),
        ((j + m).choose m : ℝ) * (1 - p) ^ j := by
    rw [Finset.mul_sum]
    refine Finset.sum_congr rfl fun j _ => ?_
    rw [nbPmf, hchoose j]
    ring
  rw [hrw]
  have h2 : p ^ (m + 1) * (1 / (1 - (1 - p)) ^ (m + 1)) = 1 := by
    have hps : (1 : ℝ) - (1 - p) = p := by ring
    rw [hps, mul_one_div, div_self (pow_ne_zero _ hp0.ne')]
  calc p ^ (m + 1) * ∑ j ∈ Finset.range (x + 1),
        ((j + m).choose m : ℝ) * (1 - p) ^ j
      ≤ p ^ (m + 1) * (1 / (1 - (1 - p)) ^ (m + 1)) :=
        mul_le_mul_of_nonneg_left hpart (pow_nonneg hp0.le _)
    _ = 1 := h2

theorem optMap_mem {α : Type} (f : ℕ → Option α) (P : α → Prop)
    (hf : ∀ j x, f j = some x → P x) :
    ∀ (l : List ℕ) (res : List α), optMap f l = some res → ∀ y ∈ res, P y := by
  intro l
  induction l with
  | nil =>
    intro res h y hy
    rw [optMap] at h
    rw [← Option.some.inj h] at hy
    exact absurd hy (List.not_mem_nil y)
  | cons j rest ih =>
    intro res h y hy
    rw [optMap, Option.bind_eq_some] at h
    obtain ⟨x, hx, h2⟩ := h
    rw [Option.map_eq_some'] at h2
    obtain ⟨xs, hxs, hres⟩ := h2
    rw [← hres] at hy
    rcases List.mem_cons.mp hy with rfl | hy'
    · exact hf j y hx
    · exact ih xs hxs y hy'

/-- C8.  For `0 < adv_percent < 50`, any `m` and any `k ≥ 1`, whenever
`normal_confirmation_risk(adv_percent, m, k)` returns (the adaptive
random-walk loop terminates; fuel is explicit in the model), the result
lies in `[0, 1]`. -/
theorem c8_normal_confirmation_risk_unit (fuel adv_percent m adv : ℕ)
    (h0 : 0 < adv_percent) (h50 : adv_percent < 50) (hk : 1 ≤ adv) :
    (normal_confirmation_risk fuel adv_percent m adv).elim True
      fun r => 0 ≤ r ∧ r ≤ 1 := by
  have hb0 : (0 : ℝ) ≤ (adv_percent : ℝ) / 100 :=
    div_nonneg (Nat.cast_nonneg _) (by norm_num)
  have hb5 : (adv_percent : ℝ) / 100 < 0.5 := by
    rw [div_lt_iff (by norm_num : (0 : ℝ) < 100)]
    calc (adv_percent : ℝ) < 50 := by exact_mod_cast h50
      _ = 0.5 * 100 := by norm_num
  have hp0 : (0 : ℝ) < 1 - (adv_percent : ℝ) / 100 := by linarith
  have hp1 : (1 : ℝ) - (adv_percent : ℝ) / 100 ≤ 1 := by linarith
  cases hopt : optMap (fun j => compute_random_walk_prob fuel j adv_percent)
      (List.range (adv + 1)) with
  | none =>
    simp [normal_confirmation_risk, hopt]
  | some rwp =>
    have hel : ∀ y ∈ rwp, 0 ≤ y ∧ y ≤ 1 :=
      optMap_mem _ _ (fun j x hx =>
        compute_random_walk_prob_mem fuel j adv_percent h50 x hx) _ rwp hopt
    have hrw : ∀ idx, 0 ≤ rwp.getD idx 0 ∧ rwp.getD idx 0 ≤ 1 := by
      intro idx
      rw [List.getD_eq_getD_get?]
      cases hg : rwp.get? idx with
      | none => exact ⟨le_refl 0, zero_le_one⟩
      | some y => exact hel y (List.get?_mem hg)
    have hpm := nbPmf_nonneg m hp0.le hp1
    have hS1nn : (0 : ℝ) ≤ ∑ k ∈ Finset.range adv,
        nbPmf m (1 - (adv_percent : ℝ) / 100) k * rwp.getD (adv - k) 0 :=
      Finset.sum_nonneg fun k _ => mul_nonneg (hpm k) (hrw (adv - k)).1
    have hS1le : ∑ k ∈ Finset.range adv,
        nbPmf m (1 - (adv_percent : ℝ) / 100) k * rwp.getD (adv - k) 0 ≤
        ∑ k ∈ Finset.range adv, nbPmf m (1 - (adv_percent : ℝ) / 100) k :=
      Finset.sum_le_sum fun k _ =>
        mul_le_of_le_one_right (hpm k) (hrw (adv - k)).2
    have hcdf_le := nb_cdf_le_one m adv hp0 hp1
    have hcdf_nn : (0 : ℝ) ≤ ∑ j ∈ Finset.range (adv + 1),
        nbPmf m (1 - (adv_percent : ℝ) / 100) j :=
      Finset.sum_nonneg fun j _ => hpm j
    have hsplit : ∑ j ∈ Finset.range (adv + 1),
        nbPmf m (1 - (adv_percent : ℝ) / 100) j =
        (∑ j ∈ Finset.range adv, nbPmf m (1 - (adv_percent : ℝ) / 100) j) +
          nbPmf m (1 - (adv_percent : ℝ) / 100) adv :=
      Finset.sum_range_succ _ _
    simp only [normal_confirmation_risk, hopt, Option.map_some', Option.elim_some]
    constructor
    · rw [nbSf]
      linarith
    · rw [nbSf]
      have := hpm adv
      linarith

theorem c8_witness :
    0 < 10 ∧ 10 < 50 ∧ 1 ≤ 1 ∧
    (normal_confirmation_risk 1 10 0 1).elim True (fun r => 0 ≤ r ∧ r ≤ 1) :=
  ⟨by decide, by decide, by decide,
    c8_normal_confirmation_risk_unit 1 10 0 1 (by decide) (by decide) (by decide)⟩
